import Mathlib

/-! OpenString: the owning byte sequence `codeunit_sequence` and the wrapper `text`.

A shallow embedding of `source/text.cpp`.  Bytes are natural numbers, a view is
the list of the bytes it spans, `i32` values are integers, and the two storage
layouts of a sequence (inline and heap) are one record with the discriminant
`alloc`.  A view handed to a method that writes the buffer of its sequence is
either such a list (its bytes lie outside that buffer) or a window of that buffer
(`borrowed_view`); the methods concerned come in both forms.  Loops whose bound is not a simple counter carry a fuel argument and
return `none` when the fuel runs out.
-/

set_option autoImplicit false

namespace ostr

/-! ## Machine integers and raw buffers -/

/-- The value an `i32` holds after an arithmetic result `x` is stored in it
(two's complement wrap-around). -/
def wrap_i32 (x : Int) : Int := (x + 2147483648) % 4294967296 - 2147483648

/-- Reading `buf[i]`; an index outside the buffer reads as `0`. -/
def rd (buf : List Nat) (i : Int) : Nat :=
  if 0 ≤ i then buf.getD i.toNat 0 else 0

/-- The assignment `buf[i] = c`; an index outside the buffer leaves it as it is. -/
def wr (buf : List Nat) (i : Int) (c : Nat) : List Nat :=
  if 0 ≤ i then buf.set i.toNat c else buf

/-- The call `std::copy(src.data(), src.last(), buf + k)`: element by element,
front to back. -/
def std_copy : List Nat → List Nat → Int → List Nat
  | [], buf, _ => buf
  | c :: cs, buf, k => std_copy cs (wr buf k c) (k + 1)

/-- A front-to-back copy of `n` bytes inside one buffer, `buf[d + j] = buf[s + j]`
for `j = 0, 1, ..`: the behaviour of `std::move(buf + s, buf + s + n, buf + d)`
and of the suffix loop of the range splice. -/
def move_fwd : Nat → List Nat → Int → Int → List Nat
  | 0, buf, _, _ => buf
  | n + 1, buf, s, d => move_fwd n (wr buf d (rd buf s)) (s + 1) (d + 1)

/-- The bytes `buf[lo .. hi)`. -/
def slice (buf : List Nat) (lo hi : Int) : List Nat :=
  (buf.take hi.toNat).drop lo.toNat

/-! ## The allocation capability (`adapters.h`) -/

namespace allocator

/-- The call `allocator<char>::allocate_array(count)`, that is `new char[count]`:
`count` bytes whose values are whatever the storage held (`junk`).  The `i32`
count is converted to `size_t`; a negative one becomes a request above `2^63`
bytes, which is never granted, so no array comes back. -/
def allocate_array (junk : Nat → Nat) (count : Int) : Option (List Nat) :=
  if count < 0 then none else some ((List.range count.toNat).map junk)

end allocator

/-! ## `details::get_capacity` -/

namespace details

/-- The loop `while(value != 0) { value >>= 1; ++bit_pos; }` on an `i32`; the
shift is arithmetic.  Returns `bit_pos` at exit, `none` when the fuel is used up. -/
def get_capacity_loop : Nat → Int → Nat → Option Nat
  | 0, _, _ => none
  | fuel + 1, value, bit_pos =>
    if value ≠ 0 then get_capacity_loop fuel (value / 2) (bit_pos + 1) else some bit_pos

/-- The function `details::get_capacity(v)`.  A non-negative `i32` reaches zero within
31 shifts and a negative one never does, so 33 rounds of fuel decide the loop;
`1 << bit_pos` and `v << 1` are `i32` results. -/
def get_capacity (v : Int) : Option Int :=
  match get_capacity_loop 33 v 0 with
  | none => none
  | some bit_pos =>
    let ans := wrap_i32 (2 ^ bit_pos)
    if ans = wrap_i32 (v * 2) then some (ans / 2) else some ans

end details

/-! ## `index_interval` -/

/-- Modelled from the spec: one end of an `index_interval` (the class is declared
in a header that is not part of the sources).  `inclusive v` and `exclusive v`
are the four boundary kinds of the spec (a negative `v` counts from the end),
`infinity` is the open end written `'~'`. -/
inductive bound where
  | inclusive (v : Int)
  | exclusive (v : Int)
  | infinity
  deriving DecidableEq, Repr

/-- Modelled from the spec: a symbolic range `{ '[' or '(', lower, upper, ']' or ')' }`. -/
structure index_interval where
  lower : bound
  upper : bound
  deriving DecidableEq, Repr

namespace index_interval

/-- Modelled from the spec: a from-end (negative) bound value is turned into a
from-start one by adding the length. -/
def from_end (v size : Int) : Int := if v < 0 then v + size else v

/-- Modelled from the spec: clamping an index into `[0, size]`. -/
def clamp (v size : Int) : Int := max 0 (min v size)

/-- Modelled from the spec: the interval `[0, size)` of `from_universal(size)`. -/
def from_universal (size : Int) : index_interval :=
  ⟨bound.inclusive 0, bound.exclusive size⟩

/-- Modelled from the spec: `select(size)` adds `size` to negative bounds, clamps
both ends into `[0, size]` and yields the concrete half-open `[min, max)`. -/
def select (r : index_interval) (size : Int) : index_interval :=
  let lo : Int := match r.lower with
    | bound.inclusive v => from_end v size
    | bound.exclusive v => from_end v size + 1
    | bound.infinity => 0
  let hi : Int := match r.upper with
    | bound.inclusive v => from_end v size + 1
    | bound.exclusive v => from_end v size
    | bound.infinity => size
  ⟨bound.inclusive (clamp lo size), bound.exclusive (clamp hi size)⟩

/-- Modelled from the spec: the first index of the interval. -/
def get_inclusive_min (r : index_interval) : Int :=
  match r.lower with
  | bound.inclusive v => v
  | bound.exclusive v => v + 1
  | bound.infinity => 0

/-- Modelled from the spec: one past the final index of the interval (an open
upper end has no such index; `0` stands for it). -/
def get_exclusive_max (r : index_interval) : Int :=
  match r.upper with
  | bound.inclusive v => v + 1
  | bound.exclusive v => v
  | bound.infinity => 0

/-- Modelled from the spec: the final index of the interval. -/
def get_inclusive_max (r : index_interval) : Int := r.get_exclusive_max - 1

/-- Modelled from the spec: `is_empty()` iff the resolved `min ≥ max`. -/
def is_empty (r : index_interval) : Bool :=
  decide (r.get_exclusive_max ≤ r.get_inclusive_min)

/-- Modelled from the spec: the number of indices in `[min, max)`. -/
def size (r : index_interval) : Int :=
  if r.is_empty then 0 else r.get_exclusive_max - r.get_inclusive_min

/-- Modelled from the spec: `intersect(other)` is the overlap of the two ranges:
the greater of the lower ends and the lesser of the upper ends, an open end
giving way to the other one. -/
def intersect (a b : index_interval) : index_interval :=
  let lo : bound := match a.lower, b.lower with
    | bound.infinity, l => l
    | l, bound.infinity => l
    | _, _ => bound.inclusive (max a.get_inclusive_min b.get_inclusive_min)
  let hi : bound := match a.upper, b.upper with
    | bound.infinity, u => u
    | u, bound.infinity => u
    | _, _ => bound.exclusive (min a.get_exclusive_max b.get_exclusive_max)
  ⟨lo, hi⟩

end index_interval

/-! ## `codeunit_sequence_view` -/

/-- Modelled from the spec: the invalid-index sentinel a search returns on a miss. -/
def index_invalid : Int := -1

/-- Modelled from the spec: the least offset at which `pattern` occurs in `l`
(literal byte-substring search). -/
def find_first (pattern : List Nat) : List Nat → Option Nat
  | [] => if pattern = [] then some 0 else none
  | c :: cs =>
    if pattern <+: c :: cs then some 0
    else match find_first pattern cs with
      | some k => some (k + 1)
      | none => none

/-- Modelled from the spec: the greatest offset at which `pattern` occurs in `l`. -/
def find_last (pattern : List Nat) : List Nat → Option Nat
  | [] => if pattern = [] then some 0 else none
  | c :: cs =>
    match find_last pattern cs with
    | some k => some (k + 1)
    | none => if pattern <+: c :: cs then some 0 else none

/-- Modelled from the spec: the number of non-overlapping matches of `pattern`,
taken from the left; `skip` bytes of a match just counted are passed over. -/
def count_from (pattern : List Nat) : Nat → List Nat → Nat
  | _, [] => 0
  | 0, c :: cs =>
    if pattern <+: c :: cs then count_from pattern (pattern.length - 1) cs + 1
    else count_from pattern 0 cs
  | skip + 1, _ :: cs => count_from pattern skip cs

/-- Modelled from the spec: a borrowed `(pointer, length)` pair (the class is declared
in a header that is not part of the sources) is the list of the bytes it spans. -/
abbrev codeunit_sequence_view := List Nat

namespace codeunit_sequence_view

/-- Modelled from the spec: `size()` of a view, its length. -/
def size (v : codeunit_sequence_view) : Int := v.length

/-- Modelled from the spec: `is_empty()` of a view. -/
def is_empty (v : codeunit_sequence_view) : Bool := v.isEmpty

/-- Modelled from the spec: `subview(range)`, the bytes of the resolved range. -/
def subview (v : codeunit_sequence_view) (range : index_interval) : codeunit_sequence_view :=
  let selection := range.select v.size
  slice v selection.get_inclusive_min selection.get_exclusive_max

/-- Modelled from the spec: `index_of(pattern, range)`, the index of the first
occurrence of `pattern` that lies inside the resolved range, else the sentinel. -/
def index_of (v : codeunit_sequence_view) (pattern : codeunit_sequence_view)
    (range : index_interval) : Int :=
  let selection := range.select v.size
  match find_first pattern (slice v selection.get_inclusive_min selection.get_exclusive_max) with
  | some k => selection.get_inclusive_min + k
  | none => index_invalid

/-- Modelled from the spec: `last_index_of(pattern, range)`, the index of the final
occurrence of `pattern` that lies inside the resolved range, else the sentinel. -/
def last_index_of (v : codeunit_sequence_view) (pattern : codeunit_sequence_view)
    (range : index_interval) : Int :=
  let selection := range.select v.size
  match find_last pattern (slice v selection.get_inclusive_min selection.get_exclusive_max) with
  | some k => selection.get_inclusive_min + k
  | none => index_invalid

/-- Modelled from the spec: `count(pattern)`, the count of non-overlapping matches. -/
def count (v : codeunit_sequence_view) (pattern : codeunit_sequence_view) : Int :=
  count_from pattern 0 v

end codeunit_sequence_view

/-! ## `codeunit_sequence` -/

/-- Modelled from the spec: the greatest inline length (the constant is declared in
a header that is not part of the sources). -/
def SSO_SIZE_MAX : Int := 15

/-- Modelled from the spec: the store of a sequence read through its discriminant
(the layouts `sso` and `norm` are declared in a header that is not part of the
sources).  `alloc` is the flag of `as_sso()` / `as_norm()`, `size` the length
field of the active layout, `capacity` the field of the heap layout, `data` the
active buffer: the embedded array of `SSO_SIZE_MAX + 1` bytes when inline, the
owned heap array otherwise. -/
structure codeunit_sequence where
  alloc : Bool
  size : Int
  capacity : Int
  data : List Nat
  deriving DecidableEq, Repr

namespace codeunit_sequence

/-- The default constructor: `store_()` is all zero, an empty inline sequence. -/
def empty_store : codeunit_sequence :=
  ⟨false, 0, 0, List.replicate (SSO_SIZE_MAX + 1).toNat 0⟩

/-- The method `is_short()`. -/
def is_short (s : codeunit_sequence) : Bool := !s.alloc

/-- The method `get_capacity()`. -/
def get_capacity (s : codeunit_sequence) : Int :=
  if s.is_short then SSO_SIZE_MAX else s.capacity

/-- The method `set_size(size)`; the inline length field is a `u8`. -/
def set_size (s : codeunit_sequence) (size : Int) : codeunit_sequence :=
  if s.is_short then { s with size := size % 256 } else { s with size := size }

/-- The method `view()`: the first `size()` bytes of the buffer. -/
def view (s : codeunit_sequence) : codeunit_sequence_view := slice s.data 0 s.size

/-- The method `subview(range)`. -/
def subview (s : codeunit_sequence) (range : index_interval) : codeunit_sequence_view :=
  s.view.subview range

/-- The method `index_of(pattern, range)`. -/
def index_of (s : codeunit_sequence) (pattern : codeunit_sequence_view)
    (range : index_interval) : Int :=
  s.view.index_of pattern range

/-- The method `last_index_of(pattern, range)`. -/
def last_index_of (s : codeunit_sequence) (pattern : codeunit_sequence_view)
    (range : index_interval) : Int :=
  s.view.last_index_of pattern range

/-- The constructor `codeunit_sequence(const i32 size)`. -/
def ctor_i32 (junk : Nat → Nat) (size : Int) : Option codeunit_sequence :=
  if size > SSO_SIZE_MAX then
    match details.get_capacity (wrap_i32 (size + 1)) with
    | none => none
    | some memory_capacity =>
      match allocator.allocate_array junk memory_capacity with
      | none => none
      | some data => some ⟨true, 0, memory_capacity - 1, data⟩
  else some empty_store

/-- The constructor `codeunit_sequence(const codeunit_sequence_view sv)`. -/
def ctor_view (junk : Nat → Nat) (sv : codeunit_sequence_view) : Option codeunit_sequence :=
  match ctor_i32 junk sv.size with
  | none => none
  | some s =>
    let s1 : codeunit_sequence := { s with data := std_copy sv s.data 0 }
    let size := sv.size
    let s2 : codeunit_sequence := { s1 with data := wr s1.data size 0 }
    some (s2.set_size size)

/-- The method `empty()`. -/
def empty (s : codeunit_sequence) : codeunit_sequence :=
  let s1 := s.set_size 0
  { s1 with data := wr s1.data 0 0 }

/-- The method `reserve(size)`. -/
def reserve (junk : Nat → Nat) (s : codeunit_sequence) (size : Int) : Option codeunit_sequence :=
  if size ≤ s.get_capacity then some s
  else
    match details.get_capacity (wrap_i32 (size + 1)) with
    | none => none
    | some memory_capacity =>
      match allocator.allocate_array junk memory_capacity with
      | none => none
      | some data =>
        let old_size := s.size
        let data := std_copy (slice s.data 0 s.size) data 0
        some ⟨true, old_size, memory_capacity - 1, data⟩

/-- The operator `+=(const codeunit_sequence_view& rhs)`. -/
def append_view (junk : Nat → Nat) (s : codeunit_sequence) (rhs : codeunit_sequence_view) :
    Option codeunit_sequence :=
  let answer_size := s.size + rhs.size
  match reserve junk s answer_size with
  | none => none
  | some s1 =>
    let s2 : codeunit_sequence := { s1 with data := std_copy rhs s1.data s1.size }
    let s3 : codeunit_sequence := { s2 with data := wr s2.data answer_size 0 }
    some (s3.set_size answer_size)

/-- The method `subsequence(range)`. -/
def subsequence (s : codeunit_sequence) (range : index_interval) : codeunit_sequence :=
  let self_size := s.size
  let selection := range.select self_size
  if selection.is_empty then s.empty
  else if selection = index_interval.from_universal self_size then s
  else
    let src := selection.get_inclusive_min
    let s1 : codeunit_sequence :=
      if src ≠ 0 then
        let last := selection.get_exclusive_max
        { s with data := move_fwd (last - src).toNat s.data src 0 }
      else s
    let post_size := selection.size
    let s2 : codeunit_sequence := { s1 with data := wr s1.data post_size 0 }
    s2.set_size post_size

/-- The first loop of the range splice,
`for(i = 0; i < destination.size(); ++i) data()[min + i] = destination.data()[i]`,
for a destination whose bytes lie outside the buffer (`copy_borrowed` is the loop
for any destination). -/
def splice_assign : List Nat → List Nat → Int → List Nat
  | [], buf, _ => buf
  | c :: cs, buf, k => splice_assign cs (wr buf k c) (k + 1)

/-- The method `replace(const index_interval& range, const codeunit_sequence_view&
destination)` for a destination whose bytes lie outside the buffer of the sequence
(`replace_range_borrowed` is the method for any destination); the branch for a
longer destination is empty in the source. -/
def replace_range (s : codeunit_sequence) (range : index_interval)
    (destination : codeunit_sequence_view) : codeunit_sequence :=
  let self_size := s.size
  let selection := range.select self_size
  if selection.is_empty then s
  else
    let delta := destination.size - selection.size
    let answer_size := self_size + delta
    if delta ≤ 0 then
      let s1 : codeunit_sequence :=
        { s with data := splice_assign destination s.data selection.get_inclusive_min }
      if delta ≠ 0 then
        let source_suffix :=
          (index_interval.mk (bound.inclusive selection.get_exclusive_max) bound.infinity).select
            self_size
        let first := source_suffix.get_inclusive_min
        let s2 : codeunit_sequence :=
          { s1 with data := move_fwd source_suffix.size.toNat s1.data first (first + delta) }
        let s3 : codeunit_sequence := { s2 with data := wr s2.data answer_size 0 }
        s3.set_size answer_size
      else s1
    else s

/-- The loop of the branch `per_delta == 0` of the pattern replace, entered at
`while(true)` with the current `search_range`, for a pattern and a replacement
whose bytes lie outside the buffer (`replace_equal_loop_borrowed` is the loop for
any two views). -/
def replace_equal_loop (source destination : codeunit_sequence_view)
    (selection : index_interval) :
    Nat → codeunit_sequence → index_interval → Option codeunit_sequence
  | 0, _, _ => none
  | fuel + 1, s, search_range =>
    let index := s.index_of source search_range
    if index = index_invalid then some s
    else
      let s1 : codeunit_sequence := { s with data := std_copy destination s.data index }
      replace_equal_loop source destination selection fuel s1
        (selection.intersect ⟨bound.inclusive (index + destination.size), bound.infinity⟩)

/-- The loop of the branch `per_delta < 0`, entered at the test of the inner
`while` (the test `i <= answer_size` of the `for` has just held), for a pattern and
a replacement whose bytes lie outside the buffer (`replace_shrink_loop_borrowed` is
the loop for any two views).  One round is either one pass of the inner `while` or
the byte copy followed by `++i` and the test of the `for`. -/
def replace_shrink_loop (source destination : codeunit_sequence_view)
    (selection : index_interval) (answer_size : Int) :
    Nat → codeunit_sequence → Int → Int → Int → Option codeunit_sequence
  | 0, _, _, _, _ => none
  | fuel + 1, s, i, offset, found_index =>
    if i + offset = found_index then
      let s1 : codeunit_sequence := { s with data := std_copy destination s.data i }
      let i1 := i + destination.size
      let offset1 := offset - (destination.size - source.size)
      let next_range := selection.intersect ⟨bound.inclusive (i1 + offset1), bound.infinity⟩
      replace_shrink_loop source destination selection answer_size fuel s1 i1 offset1
        (s1.index_of source next_range)
    else
      let s1 : codeunit_sequence := { s with data := wr s.data i (rd s.data (i + offset)) }
      if i + 1 ≤ answer_size then
        replace_shrink_loop source destination selection answer_size fuel s1 (i + 1) offset
          found_index
      else some s1

/-- The loop of the re-allocating growth branch, entered at the test of the inner
`while`; `s` is the sequence as it was, `data` the new array being filled. -/
def replace_realloc_loop (s : codeunit_sequence) (source destination : codeunit_sequence_view)
    (selection : index_interval) (answer_size : Int) :
    Nat → List Nat → Int → Int → Int → Option (List Nat)
  | 0, _, _, _, _ => none
  | fuel + 1, data, i, offset, found_index =>
    if i + offset = found_index then
      let data1 := std_copy destination data i
      let i1 := i + destination.size
      let offset1 := offset - (destination.size - source.size)
      let next_range := selection.intersect ⟨bound.inclusive (i1 + offset1), bound.infinity⟩
      replace_realloc_loop s source destination selection answer_size fuel data1 i1 offset1
        (s.index_of source next_range)
    else
      let data1 := wr data i (rd s.data (i + offset))
      if i + 1 ≤ answer_size then
        replace_realloc_loop s source destination selection answer_size fuel data1 (i + 1) offset
          found_index
      else some data1

/-- The loop of the in-place growth branch (backward pass), entered at the test of
the inner `while` (the test `i >= 0` of the `for` has just held), for a pattern and
a replacement whose bytes lie outside the buffer (`replace_backward_loop_borrowed`
is the loop for any two views). -/
def replace_backward_loop (source destination : codeunit_sequence_view)
    (selection : index_interval) :
    Nat → codeunit_sequence → Int → Int → Int → Option codeunit_sequence
  | 0, _, _, _, _ => none
  | fuel + 1, s, i, offset, found_index =>
    if i - offset = found_index then
      let i1 := i - destination.size
      let s1 : codeunit_sequence := { s with data := std_copy destination s.data (i1 + 1) }
      let offset1 := offset - (destination.size - source.size)
      let found1 :=
        if offset1 ≠ 0 then
          let next_range :=
            selection.intersect ⟨bound.inclusive 0, bound.inclusive (i1 - offset1)⟩
          s1.last_index_of source next_range + source.size - 1
        else found_index
      replace_backward_loop source destination selection fuel s1 i1 offset1 found1
    else
      let s1 : codeunit_sequence := { s with data := wr s.data i (rd s.data (i - offset)) }
      if i - 1 ≥ 0 then
        replace_backward_loop source destination selection fuel s1 (i - 1) offset found_index
      else some s1

/-- The method `replace(const codeunit_sequence_view& source, const
codeunit_sequence_view& destination, const index_interval& range)` for a pattern and
a replacement whose bytes lie outside the buffer of the sequence (`replace_borrowed`
is the method for any two views); `fuel` bounds the rounds of the loop of the branch
taken. -/
def replace (junk : Nat → Nat) (fuel : Nat) (s : codeunit_sequence)
    (source destination : codeunit_sequence_view) (range : index_interval) :
    Option codeunit_sequence :=
  if source.is_empty then some s
  else
    let selection := range.select s.size
    let view := s.subview selection
    let count := view.count source
    if count = 0 then some s
    else
      let old_size := s.size
      let src_size := source.size
      let dest_size := destination.size
      let per_delta := dest_size - src_size
      let whole_delta := per_delta * count
      let answer_size := old_size + whole_delta
      if per_delta = 0 then
        replace_equal_loop source destination selection fuel s selection
      else if per_delta < 0 then
        let found_index := s.index_of source selection
        let looped :=
          if found_index ≤ answer_size then
            replace_shrink_loop source destination selection answer_size fuel s found_index 0
              found_index
          else some s
        match looped with
        | none => none
        | some s1 => some (s1.set_size answer_size)
      else
        let old_capacity := s.get_capacity
        if old_capacity < answer_size then
          match details.get_capacity (wrap_i32 (answer_size + 1)) with
          | none => none
          | some memory_capacity =>
            match allocator.allocate_array junk memory_capacity with
            | none => none
            | some data =>
              let found_index := s.index_of source selection
              let looped :=
                if 0 ≤ answer_size then
                  replace_realloc_loop s source destination selection answer_size fuel data 0 0
                    found_index
                else some data
              match looped with
              | none => none
              | some data1 => some ⟨true, answer_size, memory_capacity - 1, data1⟩
        else
          let found_index := s.last_index_of source selection + src_size - 1
          let looped :=
            if answer_size ≥ 0 then
              replace_backward_loop source destination selection fuel s answer_size whole_delta
                found_index
            else some s
          match looped with
          | none => none
          | some s1 => some (s1.set_size answer_size)

end codeunit_sequence

/-! ## Reference behaviour -/

/-- The replace-all of the spec on a list: every leftmost-first non-overlapping
occurrence of `pattern` becomes `replacement`, all other bytes stay in order;
`skip` bytes of a match just replaced are passed over. -/
def replace_all_from (pattern replacement : List Nat) : Nat → List Nat → List Nat
  | _, [] => []
  | 0, c :: cs =>
    if pattern <+: c :: cs then
      replacement ++ replace_all_from pattern replacement (pattern.length - 1) cs
    else c :: replace_all_from pattern replacement 0 cs
  | skip + 1, _ :: cs => replace_all_from pattern replacement skip cs

/-- The reference replace-all inside the window `[lo, hi)` of the content `c`: the
bytes before the window, the replace-all of the window, the bytes after it (an
inverted window `hi < lo` is empty and leaves `c` as it is). -/
def replace_all_in (pattern replacement : List Nat) (c : List Nat) (lo hi : Int) : List Nat :=
  slice c 0 lo ++ replace_all_from pattern replacement 0 (slice c lo hi)
    ++ c.drop (max lo hi).toNat

/-- The number of leftmost-first non-overlapping occurrences of the pattern inside
the window `[lo, hi)` of the content `c`. -/
def count_in (pattern : List Nat) (c : List Nat) (lo hi : Int) : Nat :=
  count_from pattern 0 (slice c lo hi)

/-- The closed range `[0, ~)` that stands for "the whole sequence". -/
def all_range : index_interval := ⟨bound.inclusive 0, bound.infinity⟩

/-- A short inline sequence holding the bytes `c` (at most 15 of them). -/
def inline_of (c : List Nat) : codeunit_sequence :=
  ⟨false, c.length, 0, c ++ List.replicate (16 - c.length) 0⟩

end ostr

namespace ostr

/-- The integer `m` is the least power of two that is at least `v`. -/
def is_next_power_of_two (m v : Int) : Prop :=
  (∃ k : Nat, m = 2 ^ k) ∧ v ≤ m ∧ ∀ j : Nat, v ≤ 2 ^ j → m ≤ 2 ^ j

/-- The invariants of the data model: the length lies between zero and the
capacity, the active buffer has `capacity + 1` bytes, and the byte at index
`size` is the terminator. -/
def wf (s : codeunit_sequence) : Prop :=
  0 ≤ s.size ∧ s.size ≤ s.get_capacity ∧ (s.data.length : Int) = s.get_capacity + 1 ∧
    rd s.data s.size = 0

instance (s : codeunit_sequence) : Decidable (wf s) := by
  unfold wf; infer_instance

/-- The storage handed out by the allocator in the examples: every byte is `0xCD`. -/
def junk_cd : Nat → Nat := fun _ => 205

/-- The inline sequence `"ababab"`. -/
def ex_ababab : codeunit_sequence := inline_of [97, 98, 97, 98, 97, 98]

/-- The inline sequence `"aaa"`. -/
def ex_aaa : codeunit_sequence := inline_of [97, 97, 97]

/-- The inline sequence `"xyx"`. -/
def ex_xyx : codeunit_sequence := inline_of [120, 121, 120]

/-- The inline sequence `"abc"`. -/
def ex_abc : codeunit_sequence := inline_of [97, 98, 99]

/-- The inline 14-byte sequence `"0123456789abcd"`. -/
def ex_14 : codeunit_sequence :=
  inline_of [48, 49, 50, 51, 52, 53, 54, 55, 56, 57, 97, 98, 99, 100]

/-- The inline 14-byte sequence `"xaaaxxxxxxxxxx"`. -/
def ex_xaaa : codeunit_sequence :=
  inline_of [120, 97, 97, 97, 120, 120, 120, 120, 120, 120, 120, 120, 120, 120]

/-- The inline sequence of fifteen `'a'`. -/
def ex_a15_inline : codeunit_sequence := inline_of (List.replicate 15 97)

/-- A heap sequence of fifteen `'a'` with capacity 31. -/
def ex_a15_heap : codeunit_sequence :=
  ⟨true, 15, 31, List.replicate 15 97 ++ 0 :: List.replicate 16 205⟩

/-- The range `[2, 5)`. -/
def range_2_5 : index_interval := ⟨bound.inclusive 2, bound.exclusive 5⟩

end ostr

namespace ostr

/-- The part of the reference result that is still to be produced when the forward
pass stands at read position `r` of the original buffer `D`, the window being
`[lo, hi)`: the bytes before the window, the replace-all of the rest of the
window, and the bytes after it. -/
def pending (p d D : List Nat) (lo hi r : Nat) : List Nat :=
  (D.take lo).drop r ++ replace_all_from p d 0 ((D.take hi).drop (max r lo)) ++ D.drop (max r hi)

/-- The index of the first occurrence of `p` inside the window `[lo, hi)` of `D` that
starts at or after `r`, or the sentinel. -/
def next_match (p D : List Nat) (lo hi r : Nat) : Int :=
  match find_first p ((D.take hi).drop (max r lo)) with
  | some j => ((max r lo + j : Nat) : Int)
  | none => index_invalid

end ostr

namespace ostr

namespace codeunit_sequence

/-- The method `write_at(index, codeunit)`. -/
def write_at (s : codeunit_sequence) (index : Int) (codeunit : Nat) : codeunit_sequence :=
  { s with data := wr s.data (index + (if index ≥ 0 then 0 else s.size)) codeunit }

/-- The position in the buffer that the reference returned by the non-const
`operator[](index)` designates. -/
def operator_index_pos (s : codeunit_sequence) (index : Int) : Int :=
  index + (if index ≥ 0 then 0 else s.size)

/-- The byte read through the non-const `operator[](index)`. -/
def operator_index (s : codeunit_sequence) (index : Int) : Nat :=
  rd s.data (s.operator_index_pos index)

/-- The loop of `reverse`, `k` rounds left and the counter at `i`: the bytes at
`get_inclusive_min() + i` and `get_inclusive_max() - i` are swapped. -/
def reverse_loop (selection : index_interval) : Nat → List Nat → Int → List Nat
  | 0, data, _ => data
  | k + 1, data, i =>
    let forward := selection.get_inclusive_min + i
    let backward := selection.get_inclusive_max - i
    let temp := rd data forward
    let data1 := wr data forward (rd data backward)
    let data2 := wr data1 backward temp
    reverse_loop selection k data2 (i + 1)

/-- The method `reverse(range)`; the loop `for(i = 0; i < size / 2; ++i)` makes
`size / 2` rounds (none when that is not positive). -/
def reverse (s : codeunit_sequence) (range : index_interval) : codeunit_sequence :=
  let self_size := s.size
  let selection := range.select self_size
  let size := selection.size
  { s with data := reverse_loop selection (size / 2).toNat s.data 0 }

end codeunit_sequence

end ostr

namespace ostr

namespace codeunit_sequence

/-- The method `is_empty()`. -/
def is_empty (s : codeunit_sequence) : Bool := decide (s.size = 0)

/-- The call `memset(data + pos, codeunit, count)`; the `i32` count is converted to
`size_t`, so a negative one asks for more than `2^63` bytes and nothing comes back. -/
def memset (data : List Nat) (pos : Int) (codeunit : Nat) (count : Int) : Option (List Nat) :=
  if count < 0 then none else some (std_copy (List.replicate count.toNat codeunit) data pos)

/-- The method `append(count, codeunit)`. -/
def append (junk : Nat → Nat) (s : codeunit_sequence) (count : Int) (codeunit : Nat) :
    Option codeunit_sequence :=
  let old_size := s.size
  let answer_size := old_size + count
  match reserve junk s answer_size with
  | none => none
  | some s1 =>
    match (if codeunit ≠ 0 then memset s1.data old_size codeunit count else some s1.data) with
    | none => none
    | some data =>
      let s3 : codeunit_sequence := { s1 with data := wr data answer_size 0 }
      some (s3.set_size answer_size)

/-- The method `empty(size)`. -/
def empty_size (junk : Nat → Nat) (s : codeunit_sequence) (size : Int) :
    Option codeunit_sequence :=
  if size ≤ s.get_capacity then some s.empty
  else
    match details.get_capacity (wrap_i32 (size + 1)) with
    | none => none
    | some memory_capacity =>
      match allocator.allocate_array junk memory_capacity with
      | none => none
      | some data => some ⟨true, 0, memory_capacity - 1, wr data 0 0⟩

end codeunit_sequence

/-- The range `[-3, -1)`. -/
def range_m3_m1 : index_interval := ⟨bound.inclusive (-3), bound.exclusive (-1)⟩

end ostr

namespace ostr

namespace codeunit_sequence_view

/-- Modelled from the spec: `read_at(index)` and `operator[](index)` of a view, random
byte access in which a negative index addresses from the end (`index + size`). -/
def read_at (v : codeunit_sequence_view) (index : Int) : Nat :=
  rd v (index + (if index ≥ 0 then 0 else v.size))

/-- Modelled from the spec: `contains(codeunit)`, whether the byte is one of the bytes
of the view (the view is used as a character set). -/
def contains (v : codeunit_sequence_view) (codeunit : Nat) : Bool := decide (codeunit ∈ v)

end codeunit_sequence_view

namespace codeunit_sequence

/-- The loop of `self_trim_start` with the counter at `i` and `k = size - i` rounds
left, followed by the `empty()` after the loop. -/
def self_trim_start_loop (s : codeunit_sequence) (characters : codeunit_sequence_view) :
    Nat → Int → codeunit_sequence
  | 0, _ => s.empty
  | k + 1, i =>
    if !codeunit_sequence_view.contains characters (s.view.read_at i) then
      s.subsequence ⟨bound.inclusive i, bound.infinity⟩
    else self_trim_start_loop s characters k (i + 1)

/-- The method `self_trim_start(characters)`. -/
def self_trim_start (s : codeunit_sequence) (characters : codeunit_sequence_view) :
    codeunit_sequence :=
  if s.is_empty then s
  else
    let size := s.size
    self_trim_start_loop s characters size.toNat 0

/-- The loop of `self_trim_end` with `k` rounds left, the counter being `i = k - 1`
(it starts at `size - 1` and runs down to `0`), followed by the `empty()` after the
loop. -/
def self_trim_end_loop (s : codeunit_sequence) (characters : codeunit_sequence_view) :
    Nat → codeunit_sequence
  | 0 => s.empty
  | k + 1 =>
    let i : Int := k
    if !codeunit_sequence_view.contains characters (s.view.read_at i) then
      s.subsequence ⟨bound.inclusive 0, bound.inclusive i⟩
    else self_trim_end_loop s characters k

/-- The method `self_trim_end(characters)`. -/
def self_trim_end (s : codeunit_sequence) (characters : codeunit_sequence_view) :
    codeunit_sequence :=
  if s.is_empty then s
  else
    let size := s.size
    self_trim_end_loop s characters size.toNat

/-- The method `self_trim(characters)`: the end is trimmed first, then the start.  The
character set is a list, so its bytes lie outside the buffer and both passes see
the same set (`self_trim_borrowed` is the method for any character-set view). -/
def self_trim (s : codeunit_sequence) (characters : codeunit_sequence_view) :
    codeunit_sequence :=
  (s.self_trim_end characters).self_trim_start characters

end codeunit_sequence

/-- The inline sequence `" \tHi \t"`. -/
def ex_hi : codeunit_sequence := inline_of [32, 9, 72, 105, 32, 9]

/-- The whitespace set: space, tab, line feed, carriage return. -/
def ex_whitespace : codeunit_sequence_view := [32, 9, 10, 13]

end ostr

namespace ostr

namespace codeunit_sequence_view

/-- Modelled from the spec: `split(splitter)` of a view locates the first occurrence
of `splitter` and yields the piece before it and the remainder after it; without an
occurrence the piece is the whole view and the remainder is empty. -/
def split (v : codeunit_sequence_view) (splitter : codeunit_sequence_view) :
    codeunit_sequence_view × codeunit_sequence_view :=
  match find_first splitter v with
  | none => (v, [])
  | some j => (v.take j, v.drop (j + splitter.length))

end codeunit_sequence_view

namespace codeunit_sequence

/-- The loop `while(true)` of `split(splitter, pieces, cull_empty)`; `count` is a
`u32`.  Returns the vector and the count at the `break`, `none` when the fuel is used
up. -/
def split_loop (splitter : codeunit_sequence_view) (cull_empty : Bool) :
    Nat → codeunit_sequence_view → List codeunit_sequence_view → Nat →
      Option (List codeunit_sequence_view × Nat)
  | 0, _, _, _ => none
  | fuel + 1, view, pieces, count =>
    let left := (view.split splitter).1
    let right := (view.split splitter).2
    let pieces1 := if !cull_empty || !left.is_empty then pieces ++ [left] else pieces
    let count1 := (count + 1) % 4294967296
    if right.is_empty then some (pieces1, count1)
    else split_loop splitter cull_empty fuel right pieces1 count1

/-- The method `split(splitter, pieces, cull_empty)` called with an empty vector: the
pieces pushed and the count returned. -/
def split_into (s : codeunit_sequence) (splitter : codeunit_sequence_view)
    (cull_empty : Bool) (fuel : Nat) : Option (List codeunit_sequence_view × Nat) :=
  split_loop splitter cull_empty fuel s.view [] 0

/-- The method `split(splitter, cull_empty)` that returns the vector of pieces. -/
def split (s : codeunit_sequence) (splitter : codeunit_sequence_view) (cull_empty : Bool)
    (fuel : Nat) : Option (List codeunit_sequence_view) :=
  match split_into s splitter cull_empty fuel with
  | none => none
  | some r => some r.1

end codeunit_sequence

/-- The segmentation of the spec on a list: the bytes are cut at the successive
leftmost non-overlapping occurrences of `splitter`; `cur` collects the bytes of the
segment being read, `skip` bytes of an occurrence just found are passed over, and
`fresh` says that nothing has been read since the last occurrence, in which case the
end of the list closes no further segment. -/
def segments_from (splitter : List Nat) : Nat → List Nat → Bool → List Nat → List (List Nat)
  | _, cur, fresh, [] => if fresh then [] else [cur]
  | 0, cur, _, c :: cs =>
    if splitter <+: c :: cs then cur :: segments_from splitter (splitter.length - 1) [] true cs
    else segments_from splitter 0 (cur ++ [c]) false cs
  | skip + 1, cur, fresh, _ :: cs => segments_from splitter skip cur fresh cs

/-- The segments of the content `c` delimited by `splitter`. -/
def split_reference (splitter : List Nat) (c : List Nat) : List (List Nat) :=
  segments_from splitter 0 [] false c

/-- The inline sequence `"a,b,,c"`. -/
def ex_csv : codeunit_sequence := inline_of [97, 44, 98, 44, 44, 99]

end ostr

namespace ostr

namespace codeunit_sequence_view

/-- Modelled from the spec: `operator==` of two views, equality of the bytes they span. -/
def operator_eq (a b : codeunit_sequence_view) : Bool := decide (a = b)

end codeunit_sequence_view

namespace codeunit_sequence

/-- The operator `==(codeunit_sequence_view rhs)`. -/
def operator_eq_view (s : codeunit_sequence) (rhs : codeunit_sequence_view) : Bool :=
  codeunit_sequence_view.operator_eq s.view rhs

/-- The operator `==(const codeunit_sequence& rhs)`. -/
def operator_eq (s rhs : codeunit_sequence) : Bool :=
  codeunit_sequence_view.operator_eq s.view rhs.view

/-- The method `get_hash()`: the hash of the view; `hash` is `get_hash()` of a view,
which is declared in a header that is not part of the sources. -/
def get_hash (hash : codeunit_sequence_view → Nat) (s : codeunit_sequence) : Nat :=
  hash s.view

end codeunit_sequence

end ostr

namespace ostr

/-! ## `codepoint`, `unicode` and `text` -/

namespace unicode

/-- Modelled from the spec: `parse_utf8_length(char32_t)`, the number of bytes (1 to 4)
that the UTF-8 encoding of a scalar takes (the function is declared in a header that
is not part of the sources). -/
def parse_utf8_length_u32 (c : Nat) : Int :=
  if c < 128 then 1 else if c < 2048 then 2 else if c < 65536 then 3 else 4

end unicode

namespace codepoint

/-- Modelled from the spec: `encode(scalar)`, the 1 to 4 bytes of the UTF-8 encoding of
a scalar; they are the bytes of the view of `codepoint(c)` (the class is declared in a
header that is not part of the sources). -/
def encode (c : Nat) : codeunit_sequence_view :=
  if c < 128 then [c]
  else if c < 2048 then [192 + c / 64, 128 + c % 64]
  else if c < 65536 then [224 + c / 4096, 128 + c / 64 % 64, 128 + c % 64]
  else [240 + c / 262144, 128 + c / 4096 % 64, 128 + c / 64 % 64, 128 + c % 64]

end codepoint

/-- Modelled from the spec: a `text` is an owning wrapper over one `codeunit_sequence`,
the member `sequence_` (the class is declared in a header that is not part of the
sources). -/
structure text where
  sequence_ : codeunit_sequence
  deriving DecidableEq, Repr

namespace text

/-- The first loop of `from_utf32`, `while(*p != 0) { size += parse_utf8_length(*p); ++p; }`,
over the array `str`; the end of the list stands for a terminator as well. -/
def from_utf32_size : List Nat → Int → Int
  | [], size => size
  | c :: rest, size =>
    if c ≠ 0 then from_utf32_size rest (size + unicode.parse_utf8_length_u32 c) else size

/-- The second loop of `from_utf32`, `while(*p != 0) { sequence += codepoint(*p); ++p; }`. -/
def from_utf32_append (junk : Nat → Nat) : List Nat → codeunit_sequence → Option codeunit_sequence
  | [], sequence => some sequence
  | c :: rest, sequence =>
    if c ≠ 0 then
      match codeunit_sequence.append_view junk sequence (codepoint.encode c) with
      | none => none
      | some sequence1 => from_utf32_append junk rest sequence1
    else some sequence

/-- The function `text::from_utf32(str)`. -/
def from_utf32 (junk : Nat → Nat) (str : List Nat) : Option text :=
  let size := from_utf32_size str 0
  match codeunit_sequence.ctor_i32 junk size with
  | none => none
  | some sequence =>
    match from_utf32_append junk str sequence with
    | none => none
    | some sequence1 => some ⟨sequence1⟩

end text

/-- The number of bytes of the UTF-8 encodings of the scalars `u`. -/
def utf8_total (u : List Nat) : Int := (u.map unicode.parse_utf8_length_u32).sum

/-- The concatenation, in order, of the UTF-8 encodings of the scalars `u`. -/
def utf8_concat (u : List Nat) : List Nat := (u.map codepoint.encode).flatten

end ostr

namespace ostr

/-- A Unicode scalar value other than the terminator: `0 < c ≤ 0x10FFFF`, not a
surrogate. -/
def is_scalar (c : Nat) : Prop := 0 < c ∧ c ≤ 1114111 ∧ ¬ (55296 ≤ c ∧ c ≤ 57343)

instance (c : Nat) : Decidable (is_scalar c) := by
  unfold is_scalar; infer_instance

/-- The scalars of `"Hé€"` followed by three times U+1F600: 18 bytes of UTF-8. -/
def ex_scalars : List Nat := [72, 233, 8364, 128512, 128512, 128512]

end ostr

namespace ostr

/-- The length/capacity invariant: `0 ≤ size() ≤ get_capacity()`. -/
def size_in_capacity (s : codeunit_sequence) : Prop :=
  0 ≤ s.size ∧ s.size ≤ s.get_capacity

instance (s : codeunit_sequence) : Decidable (size_in_capacity s) := by
  unfold size_in_capacity; infer_instance

/-- The capacity of a heap-backed sequence is above the inline capacity. -/
def heap_above_inline (s : codeunit_sequence) : Prop :=
  s.alloc = true → SSO_SIZE_MAX < s.capacity

instance (s : codeunit_sequence) : Decidable (heap_above_inline s) := by
  unfold heap_above_inline; infer_instance

/-- The sequence `t` has the representation and the capacity field of `s` and
satisfies the length/capacity invariant. -/
def same_store (s t : codeunit_sequence) : Prop :=
  size_in_capacity t ∧ t.alloc = s.alloc ∧ t.capacity = s.capacity

end ostr

namespace ostr

namespace unicode

/-- Modelled from the spec: `parse_utf8_length(char)`, the number of bytes (1 to 4) of
the codepoint that the leading byte `c` starts; a byte of the form `10xxxxxx`, which
continues a codepoint and starts none, gives `0` (the function is declared in a header
that is not part of the sources). -/
def parse_utf8_length (c : Nat) : Int :=
  if c < 128 then 1 else if c < 192 then 0 else if c < 224 then 2 else if c < 240 then 3
  else 4

end unicode

namespace text_view

/-- Modelled from the spec: the walk over the codepoint boundaries of a view that
counts its codepoints; one step passes the bytes of one codepoint, as many as its
leading byte says. -/
def size_walk : Nat → List Nat → Nat
  | 0, _ => 0
  | _ + 1, [] => 0
  | fuel + 1, b :: rest =>
    1 + size_walk fuel ((b :: rest).drop (unicode.parse_utf8_length b).toNat)

/-- Modelled from the spec: `size()` of a `text_view`, the codepoint count obtained by
walking the codepoint boundaries (each step passes a byte at least, so as many steps
as there are bytes reach the end). -/
def size (v : codeunit_sequence_view) : Int := size_walk v.length v

/-- Modelled from the spec: the walk that passes `n` codepoints from the start of a view
and yields the byte offset reached. -/
def index_walk : Nat → List Nat → Nat
  | 0, _ => 0
  | _ + 1, [] => 0
  | n + 1, b :: rest =>
    (unicode.parse_utf8_length b).toNat
      + index_walk n ((b :: rest).drop (unicode.parse_utf8_length b).toNat)

/-- Modelled from the spec: `get_codepoint_index(index)` of a `text_view`, the byte
offset at which the codepoint number `index` starts. -/
def get_codepoint_index (v : codeunit_sequence_view) (index : Int) : Int :=
  index_walk index.toNat v

/-- Modelled from the spec: `get_codeunit_range(range)` of a `text_view` translates a
range in codepoint units into the byte range `[lower, upper)` by walking the codepoint
boundaries. -/
def get_codeunit_range (v : codeunit_sequence_view) (range : index_interval) :
    index_interval :=
  let selection := range.select (size v)
  ⟨bound.inclusive (get_codepoint_index v selection.get_inclusive_min),
    bound.exclusive (get_codepoint_index v selection.get_exclusive_max)⟩

end text_view

namespace text

/-- The method `view()` of a text: the bytes of its sequence, read as codepoints. -/
def view (t : text) : codeunit_sequence_view := t.sequence_.view

/-- The loop `for(const i32 i : sequence_range)` of `text::reverse` with the counter at
`i` and `k` rounds left (the loop visits the indices of the range in increasing
order). -/
def reverse_loop : Nat → codeunit_sequence → Int → Int → codeunit_sequence
  | 0, sequence, _, _ => sequence
  | k + 1, sequence, i, lower_bound =>
    if unicode.parse_utf8_length (sequence.operator_index i) ≠ 0 then
      reverse_loop k
        (sequence.reverse ⟨bound.inclusive lower_bound, bound.inclusive i⟩) (i + 1) (i + 1)
    else reverse_loop k sequence (i + 1) lower_bound

/-- The method `text::reverse(range)`. -/
def reverse (t : text) (range : index_interval) : text :=
  let sequence_range := text_view.get_codeunit_range t.view range
  let sequence1 := t.sequence_.reverse sequence_range
  let lower_bound := sequence_range.get_inclusive_min
  ⟨reverse_loop sequence_range.size.toNat sequence1 lower_bound lower_bound⟩

end text

/-- The bytes `c` are one well-formed UTF-8 codepoint: a leading byte that announces
the length of `c` (1 to 4), followed by continuation bytes only. -/
def wf_codepoint (c : List Nat) : Prop :=
  match c with
  | [] => False
  | lead :: conts =>
    unicode.parse_utf8_length lead = (conts.length : Int) + 1 ∧
      ∀ b ∈ conts, unicode.parse_utf8_length b = 0

instance (c : List Nat) : Decidable (wf_codepoint c) := by
  unfold wf_codepoint
  cases c with
  | nil => exact instDecidableFalse
  | cons lead conts => simp only []; infer_instance

/-- The codepoints of `"aé€😀z"`: 1, 2, 3, 4 and 1 bytes. -/
def ex_codepoints : List (List Nat) :=
  [[97], [195, 169], [226, 130, 172], [240, 159, 152, 128], [122]]

/-- The inline text `"aé€😀z"`, 11 bytes. -/
def ex_text : text := ⟨inline_of ex_codepoints.flatten⟩

/-- The codepoint range `[1, 4)`. -/
def range_1_4 : index_interval := ⟨bound.inclusive 1, bound.exclusive 4⟩

end ostr

namespace ostr

namespace text

/-- The method `text::replace(range, destination)`: the codepoint range is translated
into a byte range and the splice is done by the sequence; `destination` is the byte
view `destination.data()`. -/
def replace_range (t : text) (range : index_interval) (destination : codeunit_sequence_view) :
    text :=
  let codeunit_range := text_view.get_codeunit_range t.view range
  ⟨t.sequence_.replace_range codeunit_range destination⟩

/-- The method `text::write_at(index, cp)`; `cp` is the byte view `text_view(cp)` of the
codepoint, its 1 to 4 bytes. -/
def write_at (t : text) (index : Int) (cp : codeunit_sequence_view) : text :=
  t.replace_range ⟨bound.inclusive index, bound.inclusive index⟩ cp

end text

end ostr

namespace ostr

/-- The inline sequence `"ab"` that `subsequence` over `[0, 2)` leaves of `"abcdef"`:
the bytes `"def"` are still in the buffer behind the terminator. -/
def ex_ab_of_abcdef : codeunit_sequence :=
  (inline_of [97, 98, 99, 100, 101, 102]).subsequence ⟨bound.inclusive 0, bound.exclusive 2⟩

end ostr

namespace ostr

namespace text

/-- The method `text::split(splitter, pieces, cull_empty)` called with an empty vector:
its loop is the loop of `codeunit_sequence::split` over the view of the text (`split`
and `is_empty` of a `text_view` are those of the bytes it wraps). -/
def split_into (t : text) (splitter : codeunit_sequence_view) (cull_empty : Bool)
    (fuel : Nat) : Option (List codeunit_sequence_view × Nat) :=
  codeunit_sequence.split_loop splitter cull_empty fuel t.view [] 0

end text

/-- The text `"a,b,,c"`. -/
def ex_text_csv : text := ⟨ex_csv⟩

namespace codeunit_sequence

/-- The loop of the in-place growth branch (backward pass) together with the record of
the buffer indices it touches, in the order of the accesses: `std::copy` writes the
indices `i + 1 .. i + dest_size`, the assignment `data()[i] = data()[i - offset]` reads
the index `i - offset` and writes the index `i`.  (The searches read through the view,
inside the resolved range.) -/
def replace_backward_trace (source destination : codeunit_sequence_view)
    (selection : index_interval) :
    Nat → codeunit_sequence → Int → Int → Int → List Int →
      Option (codeunit_sequence × List Int)
  | 0, _, _, _, _, _ => none
  | fuel + 1, s, i, offset, found_index, touched =>
    if i - offset = found_index then
      let i1 := i - destination.size
      let s1 : codeunit_sequence := { s with data := std_copy destination s.data (i1 + 1) }
      let touched1 := touched ++ (List.range destination.length).map (fun j => i1 + 1 + (j : Int))
      let offset1 := offset - (destination.size - source.size)
      let found1 :=
        if offset1 ≠ 0 then
          let next_range :=
            selection.intersect ⟨bound.inclusive 0, bound.inclusive (i1 - offset1)⟩
          s1.last_index_of source next_range + source.size - 1
        else found_index
      replace_backward_trace source destination selection fuel s1 i1 offset1 found1 touched1
    else
      let s1 : codeunit_sequence := { s with data := wr s.data i (rd s.data (i - offset)) }
      let touched1 := touched ++ [i - offset, i]
      if i - 1 ≥ 0 then
        replace_backward_trace source destination selection fuel s1 (i - 1) offset found_index
          touched1
      else some (s1, touched1)

/-- The buffer indices touched by the loop of the in-place growth branch when
`replace(source, destination, range)` enters it: the loop starts at `i = answer_size`
with `offset = whole_delta` and `found_index = last_index_of(source, selection) +
src_size - 1`. -/
def replace_in_place_touched (fuel : Nat) (s : codeunit_sequence)
    (source destination : codeunit_sequence_view) (range : index_interval) :
    Option (List Int) :=
  let selection := range.select s.size
  let view := s.subview selection
  let count := view.count source
  let old_size := s.size
  let src_size := source.size
  let dest_size := destination.size
  let per_delta := dest_size - src_size
  let whole_delta := per_delta * count
  let answer_size := old_size + whole_delta
  let found_index := s.last_index_of source selection + src_size - 1
  match replace_backward_trace source destination selection fuel s answer_size whole_delta
      found_index [] with
  | none => none
  | some r => some r.2

end codeunit_sequence

/-- The inline sequence `"aba"`. -/
def ex_aba : codeunit_sequence := inline_of [97, 98, 97]

/-- The inline sequence `"ab"`. -/
def ex_ab : codeunit_sequence := inline_of [97, 98]

end ostr

namespace ostr

namespace text_view

/-- Modelled from the spec: the walk over the codepoint boundaries of a view that yields
its codepoints in order, each as its bytes; one step passes as many bytes as the leading
byte says (iteration "advances by each codepoint's encoded byte length"). -/
def codepoints_walk : Nat → List Nat → List (List Nat)
  | 0, _ => []
  | _ + 1, [] => []
  | fuel + 1, b :: rest =>
    (b :: rest).take (unicode.parse_utf8_length b).toNat
      :: codepoints_walk fuel ((b :: rest).drop (unicode.parse_utf8_length b).toNat)

/-- Modelled from the spec: the codepoints that the iterators of a `text_view` visit from
`cbegin()` to `cend()` (the iterator class is declared in a header that is not part of the
sources). -/
def codepoints (v : codeunit_sequence_view) : List (List Nat) := codepoints_walk v.length v

/-- Modelled from the spec: `contains(codepoint)` of a `text_view` used as an allowed set,
whether the codepoint is one of the codepoints of the view. -/
def contains (characters : codeunit_sequence_view) (cp : List Nat) : Bool :=
  decide (cp ∈ codepoints characters)

end text_view

namespace text

/-- The method `text::is_empty()`. -/
def is_empty (t : text) : Bool := t.sequence_.is_empty

/-- The loop of `text::self_trim_start` over the codepoints from `it` to `cend()`;
`it.size()` is the number of bytes of the codepoint at `it`. -/
def self_trim_start_loop (characters : codeunit_sequence_view) : List (List Nat) → Int → Int
  | [], codeunit_index => codeunit_index
  | cp :: rest, codeunit_index =>
    if !text_view.contains characters cp then codeunit_index
    else self_trim_start_loop characters rest (codeunit_index + cp.length)

/-- The method `text::self_trim_start(characters)`. -/
def self_trim_start (t : text) (characters : codeunit_sequence_view) : text :=
  if t.is_empty then t
  else
    let codeunit_index := self_trim_start_loop characters (text_view.codepoints t.view) 0
    ⟨t.sequence_.subsequence ⟨bound.inclusive codeunit_index, bound.infinity⟩⟩

/-- The loop `while(true)` of `text::self_trim_end`; the list holds the codepoints before
`it`, the nearest first (the ones `--it` reaches in turn), so `it == cbegin()` after
`--it` says that its tail is empty. -/
def self_trim_end_loop (characters : codeunit_sequence_view) : List (List Nat) → Int → Int
  | [], codeunit_index => codeunit_index
  | cp :: rest, codeunit_index =>
    if !text_view.contains characters cp then codeunit_index
    else
      let codeunit_index1 := codeunit_index - cp.length
      if rest.isEmpty then codeunit_index1
      else self_trim_end_loop characters rest codeunit_index1

/-- The method `text::self_trim_end(characters)`. -/
def self_trim_end (t : text) (characters : codeunit_sequence_view) : text :=
  if t.is_empty then t
  else
    let codeunit_index :=
      self_trim_end_loop characters (text_view.codepoints t.view).reverse 0
    ⟨t.sequence_.subsequence ⟨bound.inclusive 0, bound.exclusive codeunit_index⟩⟩

end text

/-- The inline text `"é€  "`: two codepoints of 2 and 3 bytes followed by two spaces. -/
def ex_text_trailing : text := ⟨inline_of [195, 169, 226, 130, 172, 32, 32]⟩

/-- The inline text `"  "`. -/
def ex_text_spaces : text := ⟨inline_of [32, 32]⟩

end ostr

namespace ostr

/-- Where the bytes of a view argument lie.  A `codeunit_sequence_view` is a borrowed
`(pointer, length)` pair, so a method that writes the buffer of its sequence can be
handed a view of that very buffer: `inside first count` is the window
`(data() + first, count)` of the buffer of the sequence the method is called on,
`outside bytes` is a view of storage that the method does not write. -/
inductive borrowed_view where
  | outside (bytes : codeunit_sequence_view)
  | inside (first : Int) (count : Int)
  deriving DecidableEq, Repr

namespace borrowed_view

/-- The method `size()` of the view argument. -/
def size : borrowed_view → Int
  | outside bytes => codeunit_sequence_view.size bytes
  | inside _ count => count

/-- The method `is_empty()` of the view argument. -/
def is_empty : borrowed_view → Bool
  | outside bytes => codeunit_sequence_view.is_empty bytes
  | inside _ count => decide (count = 0)

/-- The bytes the view argument spans at a moment when the buffer of the sequence
holds `data`. -/
def bytes : borrowed_view → List Nat → codeunit_sequence_view
  | outside bytes, _ => bytes
  | inside first count, data => slice data first (first + count)

/-- The byte `data()[i]` of the view argument at a moment when the buffer of the
sequence holds `data`. -/
def read_at : borrowed_view → List Nat → Int → Nat
  | outside bytes, _, i => rd bytes i
  | inside first _, data, i => rd data (first + i)

end borrowed_view

namespace codeunit_sequence

/-- A front-to-back copy of the bytes of a view argument into the buffer, `k` rounds
left and the counter at `i`: `buf[pos + i] = src.data()[i]`, the right-hand side read
when its turn comes.  It is the first loop of the range splice,
`for(i = 0; i < destination.size(); ++i) data()[min + i] = destination.data()[i]`,
and the call `std::copy(src.data(), src.last(), buf + pos)`. -/
def copy_borrowed (src : borrowed_view) (pos : Int) : Nat → List Nat → Int → List Nat
  | 0, buf, _ => buf
  | k + 1, buf, i => copy_borrowed src pos k (wr buf (pos + i) (src.read_at buf i)) (i + 1)

/-- The method `replace(const index_interval& range, const codeunit_sequence_view&
destination)` for any destination, a view of the buffer of the sequence included;
the branch for a longer destination is empty in the source. -/
def replace_range_borrowed (s : codeunit_sequence) (range : index_interval)
    (destination : borrowed_view) : codeunit_sequence :=
  let self_size := s.size
  let selection := range.select self_size
  if selection.is_empty then s
  else
    let delta := destination.size - selection.size
    let answer_size := self_size + delta
    if delta ≤ 0 then
      let s1 : codeunit_sequence :=
        { s with data :=
            copy_borrowed destination selection.get_inclusive_min destination.size.toNat s.data 0 }
      if delta ≠ 0 then
        let source_suffix :=
          (index_interval.mk (bound.inclusive selection.get_exclusive_max) bound.infinity).select
            self_size
        let first := source_suffix.get_inclusive_min
        let s2 : codeunit_sequence :=
          { s1 with data := move_fwd source_suffix.size.toNat s1.data first (first + delta) }
        let s3 : codeunit_sequence := { s2 with data := wr s2.data answer_size 0 }
        s3.set_size answer_size
      else s1
    else s

/-- The loop of the branch `per_delta == 0` of the pattern replace for any pattern
and replacement, entered at `while(true)` with the current `search_range`: the
search reads the bytes the pattern view spans in the buffer as it stands. -/
def replace_equal_loop_borrowed (source destination : borrowed_view)
    (selection : index_interval) :
    Nat → codeunit_sequence → index_interval → Option codeunit_sequence
  | 0, _, _ => none
  | fuel + 1, s, search_range =>
    let index := s.index_of (source.bytes s.data) search_range
    if index = index_invalid then some s
    else
      let s1 : codeunit_sequence :=
        { s with data := copy_borrowed destination index destination.size.toNat s.data 0 }
      replace_equal_loop_borrowed source destination selection fuel s1
        (selection.intersect ⟨bound.inclusive (index + destination.size), bound.infinity⟩)

/-- The loop of the branch `per_delta < 0` for any pattern and replacement, entered
at the test of the inner `while`; one round is either one pass of the inner `while`
or the byte copy followed by `++i` and the test of the `for`. -/
def replace_shrink_loop_borrowed (source destination : borrowed_view)
    (selection : index_interval) (answer_size : Int) :
    Nat → codeunit_sequence → Int → Int → Int → Option codeunit_sequence
  | 0, _, _, _, _ => none
  | fuel + 1, s, i, offset, found_index =>
    if i + offset = found_index then
      let s1 : codeunit_sequence :=
        { s with data := copy_borrowed destination i destination.size.toNat s.data 0 }
      let i1 := i + destination.size
      let offset1 := offset - (destination.size - source.size)
      let next_range := selection.intersect ⟨bound.inclusive (i1 + offset1), bound.infinity⟩
      replace_shrink_loop_borrowed source destination selection answer_size fuel s1 i1 offset1
        (s1.index_of (source.bytes s1.data) next_range)
    else
      let s1 : codeunit_sequence := { s with data := wr s.data i (rd s.data (i + offset)) }
      if i + 1 ≤ answer_size then
        replace_shrink_loop_borrowed source destination selection answer_size fuel s1 (i + 1)
          offset found_index
      else some s1

/-- The loop of the in-place growth branch (backward pass) for any pattern and
replacement, entered at the test of the inner `while`. -/
def replace_backward_loop_borrowed (source destination : borrowed_view)
    (selection : index_interval) :
    Nat → codeunit_sequence → Int → Int → Int → Option codeunit_sequence
  | 0, _, _, _, _ => none
  | fuel + 1, s, i, offset, found_index =>
    if i - offset = found_index then
      let i1 := i - destination.size
      let s1 : codeunit_sequence :=
        { s with data := copy_borrowed destination (i1 + 1) destination.size.toNat s.data 0 }
      let offset1 := offset - (destination.size - source.size)
      let found1 :=
        if offset1 ≠ 0 then
          let next_range :=
            selection.intersect ⟨bound.inclusive 0, bound.inclusive (i1 - offset1)⟩
          s1.last_index_of (source.bytes s1.data) next_range + source.size - 1
        else found_index
      replace_backward_loop_borrowed source destination selection fuel s1 i1 offset1 found1
    else
      let s1 : codeunit_sequence := { s with data := wr s.data i (rd s.data (i - offset)) }
      if i - 1 ≥ 0 then
        replace_backward_loop_borrowed source destination selection fuel s1 (i - 1) offset
          found_index
      else some s1

/-- The method `replace(const codeunit_sequence_view& source, const
codeunit_sequence_view& destination, const index_interval& range)` for any pattern
and replacement, views of the buffer of the sequence included; `fuel` bounds the
rounds of the loop of the branch taken.  In the re-allocating branch the old buffer
is only read, so the two views keep the bytes they span on entry. -/
def replace_borrowed (junk : Nat → Nat) (fuel : Nat) (s : codeunit_sequence)
    (source destination : borrowed_view) (range : index_interval) :
    Option codeunit_sequence :=
  if source.is_empty then some s
  else
    let selection := range.select s.size
    let view := s.subview selection
    let count := view.count (source.bytes s.data)
    if count = 0 then some s
    else
      let old_size := s.size
      let src_size := source.size
      let dest_size := destination.size
      let per_delta := dest_size - src_size
      let whole_delta := per_delta * count
      let answer_size := old_size + whole_delta
      if per_delta = 0 then
        replace_equal_loop_borrowed source destination selection fuel s selection
      else if per_delta < 0 then
        let found_index := s.index_of (source.bytes s.data) selection
        let looped :=
          if found_index ≤ answer_size then
            replace_shrink_loop_borrowed source destination selection answer_size fuel s
              found_index 0 found_index
          else some s
        match looped with
        | none => none
        | some s1 => some (s1.set_size answer_size)
      else
        let old_capacity := s.get_capacity
        if old_capacity < answer_size then
          match details.get_capacity (wrap_i32 (answer_size + 1)) with
          | none => none
          | some memory_capacity =>
            match allocator.allocate_array junk memory_capacity with
            | none => none
            | some data =>
              let found_index := s.index_of (source.bytes s.data) selection
              let looped :=
                if 0 ≤ answer_size then
                  replace_realloc_loop s (source.bytes s.data) (destination.bytes s.data)
                    selection answer_size fuel data 0 0 found_index
                else some data
              match looped with
              | none => none
              | some data1 => some ⟨true, answer_size, memory_capacity - 1, data1⟩
        else
          let found_index := s.last_index_of (source.bytes s.data) selection + src_size - 1
          let looped :=
            if answer_size ≥ 0 then
              replace_backward_loop_borrowed source destination selection fuel s answer_size
                whole_delta found_index
            else some s
          match looped with
          | none => none
          | some s1 => some (s1.set_size answer_size)

/-- The loop of `self_trim_start` for any character-set view, `k` rounds left and the
counter at `i`; the set is read from the buffer as it stands. -/
def self_trim_start_loop_borrowed (s : codeunit_sequence) (characters : borrowed_view) :
    Nat → Int → codeunit_sequence
  | 0, _ => s.empty
  | k + 1, i =>
    if !codeunit_sequence_view.contains (characters.bytes s.data) (s.view.read_at i) then
      s.subsequence ⟨bound.inclusive i, bound.infinity⟩
    else self_trim_start_loop_borrowed s characters k (i + 1)

/-- The method `self_trim_start(characters)` for any character-set view. -/
def self_trim_start_borrowed (s : codeunit_sequence) (characters : borrowed_view) :
    codeunit_sequence :=
  if s.is_empty then s
  else
    let size := s.size
    self_trim_start_loop_borrowed s characters size.toNat 0

/-- The loop of `self_trim_end` for any character-set view, the counter `i = k - 1`
going down. -/
def self_trim_end_loop_borrowed (s : codeunit_sequence) (characters : borrowed_view) :
    Nat → codeunit_sequence
  | 0 => s.empty
  | k + 1 =>
    let i : Int := k
    if !codeunit_sequence_view.contains (characters.bytes s.data) (s.view.read_at i) then
      s.subsequence ⟨bound.inclusive 0, bound.inclusive i⟩
    else self_trim_end_loop_borrowed s characters k

/-- The method `self_trim_end(characters)` for any character-set view. -/
def self_trim_end_borrowed (s : codeunit_sequence) (characters : borrowed_view) :
    codeunit_sequence :=
  if s.is_empty then s
  else
    let size := s.size
    self_trim_end_loop_borrowed s characters size.toNat

/-- The method `self_trim(characters)` for any character-set view:
`self_trim_end(characters).self_trim_start(characters)`, the second pass reading the
set from the buffer the first pass left. -/
def self_trim_borrowed (s : codeunit_sequence) (characters : borrowed_view) :
    codeunit_sequence :=
  (s.self_trim_end_borrowed characters).self_trim_start_borrowed characters

end codeunit_sequence

/-- The inline sequence `"abab"`. -/
def ex_abab : codeunit_sequence := inline_of [97, 98, 97, 98]

/-- The inline sequence `"abcdef"`. -/
def ex_abcdef : codeunit_sequence := inline_of [97, 98, 99, 100, 101, 102]

/-- The inline sequence `" a "`. -/
def ex_space_a_space : codeunit_sequence := inline_of [32, 97, 32]

/-- The heap sequence that `reserve(16)` leaves of the inline `"ababab"`: capacity 31,
the bytes after the six copied ones as the allocator of the examples handed them
out. -/
def ex_ababab_reserved : codeunit_sequence :=
  ⟨true, 6, 31, [97, 98, 97, 98, 97, 98] ++ List.replicate 26 205⟩

/-- The heap sequence that `reserve(16)` leaves of the inline `"abc"`: capacity 31, the
bytes after the three copied ones as the allocator of the examples handed them
out. -/
def ex_abc_reserved : codeunit_sequence :=
  ⟨true, 3, 31, [97, 98, 99] ++ List.replicate 29 205⟩

/-- The range `[1, 3)`. -/
def range_1_3 : index_interval := ⟨bound.inclusive 1, bound.exclusive 3⟩

/-- The range `[0, 1)`. -/
def range_0_1 : index_interval := ⟨bound.inclusive 0, bound.exclusive 1⟩

end ostr

/-! ## Buffer lemmas -/

namespace ostr

open codeunit_sequence

theorem rd_natCast (buf : List Nat) (k : Nat) : rd buf (k : Int) = buf.getD k 0 := by
  simp [rd]

theorem wr_natCast (buf : List Nat) (k : Nat) (c : Nat) : wr buf (k : Int) c = buf.set k c := by
  simp [wr]

theorem length_wr (buf : List Nat) (i : Int) (c : Nat) : (wr buf i c).length = buf.length := by
  unfold wr; split <;> simp

theorem length_std_copy (src buf : List Nat) (k : Int) :
    (std_copy src buf k).length = buf.length := by
  induction src generalizing buf k with
  | nil => simp [std_copy]
  | cons c cs ih => simp [std_copy, ih, length_wr]

theorem length_move_fwd (n : Nat) (buf : List Nat) (s d : Int) :
    (move_fwd n buf s d).length = buf.length := by
  induction n generalizing buf s d with
  | zero => simp [move_fwd]
  | succ n ih => simp [move_fwd, ih, length_wr]

theorem split_at_index (buf : List Nat) (k : Nat) (h : k < buf.length) :
    ∃ A x B, buf = A ++ x :: B ∧ A.length = k :=
  ⟨buf.take k, buf[k], buf.drop (k + 1), by
    rw [← List.drop_eq_getElem_cons h, List.take_append_drop], by simp; omega⟩

theorem split_at_length (buf : List Nat) (k : Nat) (h : k ≤ buf.length) :
    ∃ A B, buf = A ++ B ∧ A.length = k :=
  ⟨buf.take k, buf.drop k, by rw [List.take_append_drop], by simp; omega⟩

theorem std_copy_eq (src buf : List Nat) (k : Nat) (h : k + src.length ≤ buf.length) :
    std_copy src buf (k : Int) = buf.take k ++ src ++ buf.drop (k + src.length) := by
  induction src generalizing buf k with
  | nil => simp [std_copy]
  | cons c cs ih =>
    simp only [List.length_cons] at h
    have e : ((k : Int) + 1) = ((k + 1 : Nat) : Int) := by push_cast; ring
    rw [std_copy, wr_natCast, e, ih _ _ (by simp; omega)]
    obtain ⟨A, x, B, rfl, rfl⟩ := split_at_index buf k (by omega)
    have e3 : A.length + (cs.length + 1) = A.length + 1 + cs.length := by omega
    simp [List.take_append, List.drop_append, e3]
    rw [show A.length + 1 + cs.length = A.length + (1 + cs.length) by omega, List.drop_append]
    rw [show (1 + cs.length) = cs.length + 1 by omega]; simp

theorem move_fwd_eq (n : Nat) (buf : List Nat) (s d : Nat) (hds : d ≤ s)
    (h : s + n ≤ buf.length) :
    move_fwd n buf (s : Int) (d : Int) = buf.take d ++ (buf.drop s).take n ++ buf.drop (d + n) := by
  induction n generalizing buf s d with
  | zero => simp [move_fwd]
  | succ n ih =>
    have hs : s < buf.length := by omega
    have e1 : ((s : Int) + 1) = ((s + 1 : Nat) : Int) := by push_cast; ring
    have e2 : ((d : Int) + 1) = ((d + 1 : Nat) : Int) := by push_cast; ring
    rw [move_fwd, wr_natCast, rd_natCast, e1, e2, ih _ _ _ (by omega) (by simp; omega)]
    rw [List.getD_eq_getElem _ _ hs]
    rw [List.drop_set_of_lt _ _ (by omega), List.drop_set_of_lt _ _ (by omega)]
    rw [List.drop_eq_getElem_cons hs, List.take_succ_cons]
    rw [List.set_eq_take_cons_drop _ (by omega : d < buf.length)]
    have hl : (buf.take d).length = d := by simp; omega
    have e3 : (buf.take d ++ buf[s] :: buf.drop (d + 1)).take (d + 1) = buf.take d ++ [buf[s]] := by
      rw [List.take_append_eq_append_take, hl]
      simp [List.take_of_length_le, hl]
    rw [e3, show d + 1 + n = d + (n + 1) by omega]
    simp

end ostr

/-! ## The capacity policy -/

namespace ostr

open codeunit_sequence

theorem get_capacity_loop_spec (fuel : Nat) (n : Nat) (bp : Nat) (h : n < 2 ^ fuel) :
    ∃ L : Nat, details.get_capacity_loop (fuel + 1) (n : Int) bp = some (bp + L) ∧ n < 2 ^ L ∧
      (n ≠ 0 → 2 ^ L ≤ 2 * n) ∧ (n = 0 → L = 0) := by
  induction fuel generalizing n bp with
  | zero =>
    have : n = 0 := by simpa using h
    subst this
    exact ⟨0, by simp [details.get_capacity_loop], by simp, by simp, by simp⟩
  | succ fuel ih =>
    by_cases hn : n = 0
    · subst hn
      exact ⟨0, by simp [details.get_capacity_loop], by simp, by simp, by simp⟩
    · have h2 : n / 2 < 2 ^ fuel := by
        rw [pow_succ] at h; omega
      obtain ⟨L, hL, hlt, hle, hz⟩ := ih (n / 2) (bp + 1) h2
      refine ⟨L + 1, ?_, ?_, ?_, ?_⟩
      · rw [details.get_capacity_loop]
        have hn' : (n : Int) ≠ 0 := by exact_mod_cast hn
        rw [if_pos hn']
        have e : (n : Int) / 2 = ((n / 2 : Nat) : Int) := by push_cast; rfl
        rw [e, hL]; congr 1; omega
      · rw [pow_succ]; omega
      · intro _
        rw [pow_succ]
        by_cases h0 : n / 2 = 0
        · have := hz h0; subst this; simp; omega
        · have := hle h0; omega
      · intro h0; exact absurd h0 hn

theorem two_pow_le_of_lt (j k : Nat) (h : (2 : Int) ^ j < 2 ^ k) : 2 * (2 : Int) ^ j ≤ 2 ^ k := by
  have hjk : j < k := by
    by_contra hc
    have : (2 : Int) ^ k ≤ 2 ^ j := pow_le_pow_right₀ (by norm_num) (by omega)
    omega
  have : (2 : Int) ^ (j + 1) ≤ 2 ^ k := pow_le_pow_right₀ (by norm_num) (by omega)
  rw [pow_succ] at this; omega

theorem get_capacity_spec (v : Int) (h1 : 1 ≤ v) (h2 : v < 1073741824) :
    ∃ m : Int, details.get_capacity v = some m ∧ is_next_power_of_two m v ∧ m ≤ 1073741824 := by
  obtain ⟨n, rfl⟩ := Int.eq_ofNat_of_zero_le (by omega : 0 ≤ v)
  have hn : n < 2 ^ 32 := by norm_num; omega
  obtain ⟨L, hL, hlt, hle, _⟩ := get_capacity_loop_spec 32 n 0 hn
  have hn0 : n ≠ 0 := by omega
  have hle := hle hn0
  have hltZ : (n : Int) < 2 ^ L := by
    have := hlt; zify at this; simpa using this
  have hleZ : (2 : Int) ^ L ≤ 2 * n := by
    have := hle; zify at this; simpa using this
  have hL1 : 1 ≤ L := by
    rcases L with _ | L
    · simp at hlt; omega
    · omega
  simp only [Nat.zero_add] at hL
  unfold details.get_capacity
  rw [hL]
  simp only
  have hpow : (2 : Int) ^ L = 2 * 2 ^ (L - 1) := by
    rw [show L = (L - 1) + 1 by omega, pow_succ]; simp; ring
  have hL30 : L ≤ 30 := by
    by_contra hc
    have : (2 : Int) ^ 31 ≤ 2 ^ L := pow_le_pow_right₀ (by norm_num) (by omega)
    norm_num at this; omega
  have hP30 : (2 : Int) ^ L ≤ 2 ^ 30 := pow_le_pow_right₀ (by norm_num) hL30
  norm_num at hP30
  generalize hP : (2 : Int) ^ L = P at *
  generalize hQ : (2 : Int) ^ (L - 1) = Q at *
  have w1 : wrap_i32 P = P := by unfold wrap_i32; omega
  have w2 : wrap_i32 ((n : Int) * 2) = 2 * n := by unfold wrap_i32; omega
  rw [w1, w2]
  by_cases hc : P = 2 * (n : Int)
  · rw [if_pos hc]
    refine ⟨P / 2, rfl, ⟨⟨L - 1, by omega⟩, by omega, ?_⟩, by omega⟩
    intro j hj
    have : P / 2 = n := by omega
    rw [this]; exact hj
  · rw [if_neg hc]
    refine ⟨P, rfl, ⟨⟨L, hP.symm⟩, by omega, ?_⟩, by omega⟩
    intro j hj
    by_contra hlt2
    have hlt3 : (2 : Int) ^ j < 2 ^ L := by rw [hP]; omega
    have := two_pow_le_of_lt j L hlt3
    rw [hP] at this
    omega

end ostr

/-! ## Construction, `reserve` and `+=` -/

namespace ostr

open codeunit_sequence

theorem length_allocate_array (junk : Nat → Nat) (count : Int) (data : List Nat)
    (h : allocator.allocate_array junk count = some data) : (data.length : Int) = count := by
  unfold allocator.allocate_array at h
  split at h
  · simp at h
  · simp at h; subst h; simp; omega

theorem allocate_array_some (junk : Nat → Nat) (count : Int) (h : 0 ≤ count) :
    ∃ data, allocator.allocate_array junk count = some data ∧ (data.length : Int) = count := by
  refine ⟨(List.range count.toNat).map junk, ?_, ?_⟩
  · unfold allocator.allocate_array; rw [if_neg (by omega)]
  · simp; omega

theorem wrap_i32_small (x : Int) (h1 : -2147483648 ≤ x) (h2 : x < 2147483648) : wrap_i32 x = x := by
  unfold wrap_i32; omega

theorem ctor_i32_inline (junk : Nat → Nat) (n : Int) (h : n ≤ 15) :
    ctor_i32 junk n = some empty_store := by
  unfold ctor_i32 SSO_SIZE_MAX
  rw [if_neg (by omega)]

theorem ctor_i32_heap (junk : Nat → Nat) (n : Int) (h1 : 15 < n) (h2 : n + 1 < 1073741824) :
    ∃ s m, ctor_i32 junk n = some s ∧ is_next_power_of_two m (n + 1) ∧ s.alloc = true ∧
      s.size = 0 ∧ (s.data.length : Int) = m ∧ s.capacity = m - 1 ∧ n ≤ s.capacity := by
  obtain ⟨m, hm, hnp, _⟩ := get_capacity_spec (n + 1) (by omega) h2
  have hmn : n + 1 ≤ m := hnp.2.1
  obtain ⟨data, hd, hl⟩ := allocate_array_some junk m (by omega)
  refine ⟨⟨true, 0, m - 1, data⟩, m, ?_, hnp, rfl, rfl, hl, rfl, by simp; omega⟩
  unfold ctor_i32 SSO_SIZE_MAX
  rw [if_pos (by omega), wrap_i32_small _ (by omega) (by omega), hm]
  simp only [hd]

theorem slice_zero (buf : List Nat) (hi : Int) : slice buf 0 hi = buf.take hi.toNat := by
  simp [slice]

theorem view_eq (s : codeunit_sequence) : s.view = s.data.take s.size.toNat := by
  simp [codeunit_sequence.view, slice]

theorem length_view (s : codeunit_sequence) (h : wf s) : (s.view.length : Int) = s.size := by
  obtain ⟨h0, h1, h2, _⟩ := h
  rw [view_eq, List.length_take]; omega

theorem get_capacity_short (s : codeunit_sequence) (h : s.alloc = false) :
    s.get_capacity = 15 := by
  simp [codeunit_sequence.get_capacity, codeunit_sequence.is_short, h, SSO_SIZE_MAX]

theorem get_capacity_heap (s : codeunit_sequence) (h : s.alloc = true) :
    s.get_capacity = s.capacity := by
  simp [codeunit_sequence.get_capacity, codeunit_sequence.is_short, h]

theorem get_capacity_ge (s : codeunit_sequence) (h : wf s) : 0 ≤ s.get_capacity := by
  obtain ⟨h0, h1, _, _⟩ := h; omega

theorem set_size_size (s : codeunit_sequence) (n : Int) (h0 : 0 ≤ n) (h1 : n ≤ s.get_capacity) :
    (s.set_size n).size = n := by
  unfold codeunit_sequence.set_size
  cases ha : s.alloc
  · have := get_capacity_short s ha
    simp [codeunit_sequence.is_short, ha]; omega
  · simp [codeunit_sequence.is_short, ha]

theorem set_size_data (s : codeunit_sequence) (n : Int) : (s.set_size n).data = s.data := by
  unfold codeunit_sequence.set_size; split <;> rfl

theorem set_size_alloc (s : codeunit_sequence) (n : Int) : (s.set_size n).alloc = s.alloc := by
  unfold codeunit_sequence.set_size; split <;> rfl

theorem set_size_capacity (s : codeunit_sequence) (n : Int) :
    (s.set_size n).capacity = s.capacity := by
  unfold codeunit_sequence.set_size; split <;> rfl

theorem set_size_get_capacity (s : codeunit_sequence) (n : Int) :
    (s.set_size n).get_capacity = s.get_capacity := by
  simp [codeunit_sequence.get_capacity, codeunit_sequence.is_short, set_size_alloc,
    set_size_capacity]

theorem reserve_noop (junk : Nat → Nat) (s : codeunit_sequence) (n : Int)
    (h : n ≤ s.get_capacity) : reserve junk s n = some s := by
  unfold reserve; rw [if_pos h]

theorem reserve_grow (junk : Nat → Nat) (s : codeunit_sequence) (n : Int) (hs : wf s)
    (h1 : s.get_capacity < n) (h2 : n + 1 < 1073741824) :
    ∃ (s' : codeunit_sequence) (m : Int) (fresh : List Nat), reserve junk s n = some s' ∧
      is_next_power_of_two m (n + 1) ∧
      s'.alloc = true ∧ s'.capacity = m - 1 ∧ n ≤ s'.capacity ∧ s'.size = s.size ∧
      (fresh.length : Int) = m ∧ s'.data = s.view ++ fresh.drop s.size.toNat := by
  have hc := get_capacity_ge s hs
  obtain ⟨m, hm, hnp, _⟩ := get_capacity_spec (n + 1) (by omega) h2
  have hmn : n + 1 ≤ m := hnp.2.1
  obtain ⟨fresh, hd, hl⟩ := allocate_array_some junk m (by omega)
  have hv := length_view s hs
  obtain ⟨h0, hle, _, _⟩ := hs
  refine ⟨⟨true, s.size, m - 1, s.view ++ fresh.drop s.size.toNat⟩, m, fresh, ?_, hnp, rfl, rfl,
    by simp; omega, rfl, hl, rfl⟩
  unfold reserve
  rw [if_neg (by omega), wrap_i32_small _ (by omega) (by omega), hm]
  simp only [hd]
  have e := std_copy_eq s.view fresh 0 (by omega)
  simp only [Nat.cast_zero, List.take_zero, List.nil_append, Nat.zero_add] at e
  have e2 : s.view.length = s.size.toNat := by omega
  rw [e2] at e
  simp only [codeunit_sequence.view] at e ⊢
  rw [e]

theorem rd_wr_same (buf : List Nat) (i : Int) (c : Nat) (h0 : 0 ≤ i) (h : i < buf.length) :
    rd (wr buf i c) i = c := by
  obtain ⟨k, rfl⟩ := Int.eq_ofNat_of_zero_le h0
  have hk : k < buf.length := by omega
  simp [rd, wr, hk]

theorem take_wr (buf : List Nat) (i : Int) (c : Nat) (j : Nat) (h : (j : Int) ≤ i) :
    (wr buf i c).take j = buf.take j := by
  unfold wr
  split
  · rw [List.set_take]
    apply List.set_eq_of_length_le
    rw [List.length_take]; omega
  · rfl

/-- The tail of `+=` once the buffer is large enough: copy, terminate, set the size. -/
theorem append_core (s1 : codeunit_sequence) (v : List Nat) (h0 : 0 ≤ s1.size)
    (hcap : s1.size + v.length ≤ s1.get_capacity)
    (hlen : (s1.data.length : Int) = s1.get_capacity + 1) :
    let s2 : codeunit_sequence := { s1 with data := std_copy v s1.data s1.size }
    let s3 : codeunit_sequence := { s2 with data := wr s2.data (s1.size + v.length) 0 }
    let s4 := s3.set_size (s1.size + v.length)
    s4.view = s1.data.take s1.size.toNat ++ v ∧ s4.size = s1.size + v.length ∧
      rd s4.data s4.size = 0 ∧ s4.get_capacity = s1.get_capacity ∧ s4.alloc = s1.alloc ∧
      s4.data.length = s1.data.length := by
  intro s2 s3 s4
  have hg : s3.get_capacity = s1.get_capacity := rfl
  have hsz : s4.size = s1.size + v.length :=
    set_size_size s3 _ (by omega) (by rw [hg]; exact hcap)
  have hd : s4.data = wr (std_copy v s1.data s1.size) (s1.size + v.length) 0 :=
    set_size_data s3 _
  obtain ⟨k, hk⟩ := Int.eq_ofNat_of_zero_le h0
  have hcopy := std_copy_eq v s1.data k (by omega)
  rw [← hk] at hcopy
  refine ⟨?_, hsz, ?_, ?_, ?_, ?_⟩
  · rw [view_eq, hd, hsz]
    have e : (s1.size + (v.length : Int)).toNat = k + v.length := by omega
    rw [e, take_wr _ _ _ _ (by omega), hcopy, hk]
    have hl : (s1.data.take k ++ v).length = k + v.length := by simp; omega
    rw [← hl, List.take_left]; simp
  · rw [hd, hsz]
    exact rd_wr_same _ _ _ (by omega) (by rw [length_std_copy]; omega)
  · exact set_size_get_capacity s3 _
  · exact set_size_alloc s3 _
  · rw [hd, length_wr, length_std_copy]

theorem append_view_none (junk : Nat → Nat) (s : codeunit_sequence) (v : List Nat)
    (h : reserve junk s (s.size + (v.length : Int)) = none) : append_view junk s v = none := by
  unfold append_view
  simp only [codeunit_sequence_view.size, h]

theorem append_view_spec (junk : Nat → Nat) (s : codeunit_sequence) (v : List Nat) (hs : wf s)
    (h : s.size + v.length + 1 < 1073741824) :
    ∃ s', append_view junk s v = some s' ∧ s'.view = s.view ++ v ∧
      s'.size = s.size + v.length ∧ rd s'.data s'.size = 0 ∧ s'.size ≤ s'.get_capacity ∧
      wf s' := by
  have hv := length_view s hs
  by_cases hc : s.size + v.length ≤ s.get_capacity
  · have hr := reserve_noop junk s _ hc
    obtain ⟨h0, h1, h2, h3⟩ := hs
    obtain ⟨e1, e2, e3, e4, e5, e6⟩ := append_core s v h0 hc h2
    refine ⟨_, ?_, ?_, e2, e3, ?_, ?_⟩
    · unfold append_view
      simp only [codeunit_sequence_view.size, hr]
    · rw [e1, view_eq]
    · rw [e2, e4]; exact hc
    · exact ⟨by rw [e2]; omega, by rw [e2, e4]; exact hc, by rw [e6, e4]; exact h2, e3⟩
  · obtain ⟨s1, m, fresh, hr, hnp, ha, hcap, hn, hsz, hfl, hdata⟩ :=
      reserve_grow junk s _ hs (by omega) h
    have hg : s1.get_capacity = m - 1 := by rw [get_capacity_heap s1 ha, hcap]
    obtain ⟨h0, h1, h2, h3⟩ := hs
    have hl1 : (s1.data.length : Int) = s1.get_capacity + 1 := by
      rw [hdata, hg]; simp; omega
    have hcap1 : s1.size + v.length ≤ s1.get_capacity := by
      rw [hsz, get_capacity_heap s1 ha]; exact hn
    obtain ⟨e1, e2, e3, e4, e5, e6⟩ := append_core s1 v (by rw [hsz]; exact h0) hcap1 hl1
    refine ⟨_, ?_, ?_, by rw [e2, hsz], e3, ?_, ?_⟩
    · unfold append_view
      simp only [codeunit_sequence_view.size, hr]
      rw [← hsz]
    · rw [e1, hdata, hsz]
      have : s.size.toNat = s.view.length := by omega
      rw [this, List.take_left]
    · rw [e2, e4]; exact hcap1
    · exact ⟨by rw [e2, hsz]; omega, by rw [e2, e4]; exact hcap1, by rw [e6, e4]; exact hl1, e3⟩

end ostr

/-! ## Claims: construction, `reserve`, `+=` -/

namespace ostr

open codeunit_sequence

/-- C8: at the requested size `2^30 - 1`, which the claim covers, `details::get_capacity`
is called with `2^30`, its `1 << 31` wraps, it returns `-2^30`, and the constructor
asks the allocator for a negative count: no heap buffer of `2^30` bytes with
capacity `2^30 - 1` is produced. -/
theorem C8_ctor_i32_at_boundary (junk : Nat → Nat) :
    details.get_capacity (1073741823 + 1) = some (-1073741824) ∧
      ctor_i32 junk 1073741823 = none :=
  ⟨by decide, rfl⟩

/-- C9 (as stated, refuted): for the empty inline sequence and `n = 2^30`, which
exceeds the capacity 15, `reserve(n)` produces no sequence at all, so it does not
end heap-backed with capacity `next_power_of_two(n + 1) - 1`. -/
theorem C9_reserve_counterexample :
    wf empty_store ∧ empty_store.get_capacity < 1073741824 ∧
      reserve junk_cd empty_store 1073741824 = none := by
  decide

/-- C9 (amended): for every sequence `s` and every `n` with `n + 1 < 2^30` (so for
every such `n ≥ 0`): if
`n ≤ get_capacity()` then `reserve(n)` changes nothing; otherwise the sequence
becomes heap-backed with `get_capacity() = next_power_of_two(n + 1) - 1 ≥ n`, and
its size and its first `size` bytes are the same as before. -/
theorem C9_reserve (junk : Nat → Nat) (s : codeunit_sequence) (n : Int) (hs : wf s)
    (h2 : n + 1 < 1073741824) :
    (n ≤ s.get_capacity → reserve junk s n = some s) ∧
      (s.get_capacity < n →
        ∃ (s' : codeunit_sequence) (m : Int), reserve junk s n = some s' ∧ s'.alloc = true ∧
          is_next_power_of_two m (n + 1) ∧ s'.get_capacity = m - 1 ∧ n ≤ s'.get_capacity ∧
          s'.size = s.size ∧ s'.view = s.view) := by
  refine ⟨reserve_noop junk s n, fun h1 => ?_⟩
  obtain ⟨s1, m, fresh, hr, hnp, ha, hcap, hn, hsz, _, hdata⟩ := reserve_grow junk s n hs h1 h2
  have hv := length_view s hs
  refine ⟨s1, m, hr, ha, hnp, by rw [get_capacity_heap s1 ha, hcap],
    by rw [get_capacity_heap s1 ha]; exact hn, hsz, ?_⟩
  rw [view_eq s1, hdata, hsz]
  have : s.size.toNat = s.view.length := by omega
  rw [this, List.take_left]

/-- C9 (amended), at the inline sequence `"abc"` and `n = 20`. -/
theorem C9_reserve_witness :
    wf (inline_of [97, 98, 99]) ∧ (20 : Int) + 1 < 1073741824 ∧
      ((20 ≤ (inline_of [97, 98, 99]).get_capacity →
          reserve junk_cd (inline_of [97, 98, 99]) 20 = some (inline_of [97, 98, 99])) ∧
        ((inline_of [97, 98, 99]).get_capacity < 20 →
          ∃ (s' : codeunit_sequence) (m : Int),
            reserve junk_cd (inline_of [97, 98, 99]) 20 = some s' ∧ s'.alloc = true ∧
            is_next_power_of_two m (20 + 1) ∧ s'.get_capacity = m - 1 ∧
            20 ≤ s'.get_capacity ∧ s'.size = (inline_of [97, 98, 99]).size ∧
            s'.view = (inline_of [97, 98, 99]).view)) :=
  ⟨by decide, by decide,
    C9_reserve junk_cd (inline_of [97, 98, 99]) 20 (by decide) (by decide)⟩

/-- C10 (as stated, refuted): appending a view of `2^30` bytes to the empty inline
sequence produces no sequence, so the content is not `c ++ v`. -/
theorem C10_append_counterexample :
    wf empty_store ∧
      append_view junk_cd empty_store (List.replicate 1073741824 0) = none := by
  refine ⟨by decide, ?_⟩
  apply append_view_none
  rw [List.length_replicate]
  decide

/-- C10 (amended): for every sequence `s` with content `c` and every view `v` (a
list of bytes, so not a part of the buffer of `s`) with `len(c) + len(v) + 1 < 2^30`,
after `s += v` the content is `c ++ v`, the size is `len(c) + len(v)`, index `size`
holds the terminator and `get_capacity() ≥ size`, on both sides of the inline
boundary. -/
theorem C10_append_view (junk : Nat → Nat) (s : codeunit_sequence) (v : codeunit_sequence_view)
    (hs : wf s) (h : s.size + v.length + 1 < 1073741824) :
    ∃ s', append_view junk s v = some s' ∧ s'.view = s.view ++ v ∧
      s'.size = s.size + v.length ∧ rd s'.data s'.size = 0 ∧ s'.size ≤ s'.get_capacity := by
  obtain ⟨s', h1, h2, h3, h4, h5, _⟩ := append_view_spec junk s v hs h
  exact ⟨s', h1, h2, h3, h4, h5⟩

/-- C10 (amended), at a 14-byte inline sequence and a 3-byte view: the append
crosses the inline boundary. -/
theorem C10_append_view_witness :
    wf (inline_of [1, 2, 3, 4, 5, 6, 7, 8, 9, 10, 11, 12, 13, 14]) ∧
      (inline_of [1, 2, 3, 4, 5, 6, 7, 8, 9, 10, 11, 12, 13, 14]).size + ([1, 2, 3] : List Nat).length
        + 1 < 1073741824 ∧
      ∃ s', append_view junk_cd (inline_of [1, 2, 3, 4, 5, 6, 7, 8, 9, 10, 11, 12, 13, 14])
          [1, 2, 3] = some s' ∧
        s'.view = (inline_of [1, 2, 3, 4, 5, 6, 7, 8, 9, 10, 11, 12, 13, 14]).view ++ [1, 2, 3] ∧
        s'.size = (inline_of [1, 2, 3, 4, 5, 6, 7, 8, 9, 10, 11, 12, 13, 14]).size
          + ([1, 2, 3] : List Nat).length ∧
        rd s'.data s'.size = 0 ∧ s'.size ≤ s'.get_capacity :=
  ⟨by decide, by decide,
    C10_append_view junk_cd (inline_of [1, 2, 3, 4, 5, 6, 7, 8, 9, 10, 11, 12, 13, 14]) [1, 2, 3]
      (by decide) (by decide)⟩

end ostr

/-! ## Ranges -/

namespace ostr

open codeunit_sequence

theorem select_min_bounds (r : index_interval) (size : Int) (h : 0 ≤ size) :
    0 ≤ (r.select size).get_inclusive_min ∧ (r.select size).get_inclusive_min ≤ size := by
  simp only [index_interval.select, index_interval.get_inclusive_min, index_interval.clamp]
  omega

theorem select_max_bounds (r : index_interval) (size : Int) (h : 0 ≤ size) :
    0 ≤ (r.select size).get_exclusive_max ∧ (r.select size).get_exclusive_max ≤ size := by
  simp only [index_interval.select, index_interval.get_exclusive_max, index_interval.clamp]
  omega

theorem select_eq (r : index_interval) (size : Int) :
    r.select size = ⟨bound.inclusive (r.select size).get_inclusive_min,
      bound.exclusive (r.select size).get_exclusive_max⟩ := rfl

theorem is_empty_iff (r : index_interval) :
    r.is_empty = true ↔ r.get_exclusive_max ≤ r.get_inclusive_min := by
  simp [index_interval.is_empty]

theorem select_select (r : index_interval) (size : Int) (h : 0 ≤ size) :
    (r.select size).select size = r.select size := by
  have h1 := select_min_bounds r size h
  have h2 := select_max_bounds r size h
  rw [select_eq r size] at h1 h2 ⊢
  simp only [index_interval.get_inclusive_min, index_interval.get_exclusive_max] at h1 h2
  simp only [index_interval.select, index_interval.from_end, index_interval.clamp,
    index_interval.get_inclusive_min, index_interval.get_exclusive_max]
  congr 2 <;> split <;> omega

end ostr

/-! ## `subsequence` -/

namespace ostr

open codeunit_sequence

theorem slice_natCast (buf : List Nat) (a b : Nat) :
    slice buf (a : Int) (b : Int) = (buf.take b).drop a := by
  simp [slice]

theorem slice_of_le (buf : List Nat) (lo hi : Int) (h : hi ≤ lo) :
    slice buf lo hi = [] := by
  unfold slice
  apply List.drop_eq_nil_of_le
  rw [List.length_take]; omega

theorem slice_take (buf : List Nat) (n : Nat) (lo hi : Int) (h : hi ≤ n) :
    slice (buf.take n) lo hi = slice buf lo hi := by
  unfold slice
  rw [List.take_take, Nat.min_eq_left (by omega)]

theorem wr_same (buf : List Nat) (i : Int) (c : Nat) (h : rd buf i = c) :
    wr buf i c = buf := by
  unfold wr
  split
  · rename_i h0
    unfold rd at h
    rw [if_pos h0] at h
    by_cases hl : i.toNat < buf.length
    · apply List.ext_getElem (by simp)
      intro n h1 h2
      rw [List.getElem_set]
      split
      · rename_i hn; subst hn
        rw [List.getD_eq_getElem _ _ hl] at h; exact h.symm
      · rfl
    · exact List.set_eq_of_length_le (by omega)
  · rfl

theorem empty_spec (s : codeunit_sequence) (hs : wf s) :
    s.empty.view = [] ∧ s.empty.size = 0 ∧ rd s.empty.data s.empty.size = 0 ∧
      s.empty.get_capacity = s.get_capacity ∧ s.empty.alloc = s.alloc ∧
      s.empty.data.length = s.data.length := by
  have hc := get_capacity_ge s hs
  obtain ⟨h0, h1, h2, h3⟩ := hs
  have e1 : s.empty.size = 0 := set_size_size s 0 (le_refl 0) hc
  have e2 : s.empty.data = wr s.data 0 0 := by
    show wr (s.set_size 0).data 0 0 = _
    rw [set_size_data]
  refine ⟨by rw [view_eq, e1]; simp, e1, ?_, ?_, ?_, ?_⟩
  · rw [e1, e2]; exact rd_wr_same _ _ _ (le_refl 0) (by omega)
  · show (codeunit_sequence.mk (s.set_size 0).alloc _ (s.set_size 0).capacity _).get_capacity = _
    simp [codeunit_sequence.get_capacity, codeunit_sequence.is_short, set_size_alloc,
      set_size_capacity]
  · exact set_size_alloc s 0
  · rw [e2, length_wr]

theorem subsequence_spec (s : codeunit_sequence) (r : index_interval) (hs : wf s) :
    (s.subsequence r).view =
        slice s.view (r.select s.size).get_inclusive_min (r.select s.size).get_exclusive_max ∧
      (s.subsequence r).size =
        max 0 ((r.select s.size).get_exclusive_max - (r.select s.size).get_inclusive_min) ∧
      rd (s.subsequence r).data (s.subsequence r).size = 0 ∧
      (s.subsequence r).get_capacity = s.get_capacity ∧
      (s.subsequence r).alloc = s.alloc ∧
      (s.subsequence r).data.length = s.data.length := by
  have hmin := select_min_bounds r s.size hs.1
  have hmax := select_max_bounds r s.size hs.1
  have hseq := select_eq r s.size
  generalize (r.select s.size).get_inclusive_min = lo at hmin hseq ⊢
  generalize (r.select s.size).get_exclusive_max = hi at hmax hseq ⊢
  unfold codeunit_sequence.subsequence
  simp only [hseq]
  have hmine : (index_interval.mk (bound.inclusive lo) (bound.exclusive hi)).get_inclusive_min = lo :=
    rfl
  have hmaxe : (index_interval.mk (bound.inclusive lo) (bound.exclusive hi)).get_exclusive_max = hi :=
    rfl
  by_cases he : hi ≤ lo
  · have hie : (index_interval.mk (bound.inclusive lo) (bound.exclusive hi)).is_empty = true := by
      rw [is_empty_iff]; exact he
    rw [if_pos hie]
    obtain ⟨e1, e2, e3, e4, e5, e6⟩ := empty_spec s hs
    exact ⟨by rw [e1, slice_of_le _ _ _ he], by rw [e2]; omega, e3, e4, e5, e6⟩
  · have hie : ¬ (index_interval.mk (bound.inclusive lo) (bound.exclusive hi)).is_empty = true := by
      rw [is_empty_iff]; exact he
    rw [if_neg hie]
    have hv := length_view s hs
    obtain ⟨h0, h1, h2, h3⟩ := hs
    by_cases hu : index_interval.mk (bound.inclusive lo) (bound.exclusive hi)
        = index_interval.from_universal s.size
    · rw [if_pos hu]
      simp only [index_interval.from_universal, index_interval.mk.injEq, bound.inclusive.injEq,
        bound.exclusive.injEq] at hu
      obtain ⟨rfl, rfl⟩ := hu
      refine ⟨?_, by omega, h3, rfl, rfl, rfl⟩
      rw [view_eq]
      unfold slice
      simp
    · rw [if_neg hu]
      simp only [hmine, hmaxe, index_interval.size, if_neg hie]
      obtain ⟨a, rfl⟩ := Int.eq_ofNat_of_zero_le hmin.1
      obtain ⟨b, rfl⟩ := Int.eq_ofNat_of_zero_le hmax.1
      obtain ⟨n, hn⟩ := Int.eq_ofNat_of_zero_le h0
      have hab : a < b := by omega
      have hbn : b ≤ n := by omega
      have hlen : n < s.data.length := by omega
      -- the buffer after the optional shift
      have key : ∀ (s1 : codeunit_sequence), s1.alloc = s.alloc → s1.capacity = s.capacity →
          s1.data.length = s.data.length → s1.data.take (b - a) = (s.data.take b).drop a →
          let s2 : codeunit_sequence := { s1 with data := wr s1.data ((b : Int) - a) 0 }
          (s2.set_size ((b : Int) - a)).view = slice s.view a b ∧
          (s2.set_size ((b : Int) - a)).size = max 0 ((b : Int) - a) ∧
          rd (s2.set_size ((b : Int) - a)).data (s2.set_size ((b : Int) - a)).size = 0 ∧
          (s2.set_size ((b : Int) - a)).get_capacity = s.get_capacity ∧
          (s2.set_size ((b : Int) - a)).alloc = s.alloc ∧
          (s2.set_size ((b : Int) - a)).data.length = s.data.length := by
        intro s1 ha hcp hl ht s2
        have hg : s2.get_capacity = s.get_capacity := by
          simp [s2, codeunit_sequence.get_capacity, codeunit_sequence.is_short, ha, hcp]
        have esz : (s2.set_size ((b : Int) - a)).size = (b : Int) - a :=
          set_size_size s2 _ (by omega) (by rw [hg]; omega)
        have ed : (s2.set_size ((b : Int) - a)).data = wr s1.data ((b : Int) - a) 0 :=
          set_size_data s2 _
        refine ⟨?_, by rw [esz]; omega, ?_, ?_, ?_, ?_⟩
        · rw [view_eq, esz, ed, view_eq s, hn]
          have e : ((b : Int) - a).toNat = b - a := by omega
          rw [e, take_wr _ _ _ _ (by omega), ht, slice_natCast]
          simp only [Int.toNat_ofNat]
          rw [List.take_take, Nat.min_eq_left hbn]
        · rw [esz, ed]; exact rd_wr_same _ _ _ (by omega) (by rw [hl]; omega)
        · rw [set_size_get_capacity, hg]
        · rw [set_size_alloc]; exact ha
        · rw [ed, length_wr, hl]
      by_cases ha0 : (a : Int) ≠ 0
      · rw [if_pos ha0]
        have e : ((b : Int) - a).toNat = b - a := by omega
        have hm := move_fwd_eq (b - a) s.data a 0 (by omega) (by omega)
        refine key _ rfl rfl ?_ ?_
        · simp only [e, Nat.cast_zero] at hm ⊢
          rw [length_move_fwd]
        · simp only [e, Nat.cast_zero] at hm ⊢
          rw [hm]
          simp only [List.take_zero, List.nil_append, Nat.zero_add]
          have hl2 : ((s.data.drop a).take (b - a)).length = b - a := by
            rw [List.length_take, List.length_drop]; omega
          rw [List.take_append_of_le_length (by omega), List.take_of_length_le (by omega)]
          rw [List.drop_take]
      · rw [if_neg ha0]
        have ha : a = 0 := by omega
        subst ha
        refine key s rfl rfl rfl ?_
        simp

theorem subsequence_full (s : codeunit_sequence) (r : index_interval) (hs : wf s)
    (hlo : (r.select s.size).get_inclusive_min = 0)
    (hhi : (r.select s.size).get_exclusive_max = s.size) : s.subsequence r = s := by
  have hseq := select_eq r s.size
  rw [hlo, hhi] at hseq
  unfold codeunit_sequence.subsequence
  simp only [hseq]
  obtain ⟨h0, h1, h2, h3⟩ := hs
  by_cases he : s.size ≤ 0
  · have hz : s.size = 0 := by omega
    have hie : (index_interval.mk (bound.inclusive 0) (bound.exclusive s.size)).is_empty = true := by
      rw [is_empty_iff]; exact he
    rw [if_pos hie]
    unfold codeunit_sequence.empty
    have e : s.set_size 0 = s := by
      unfold codeunit_sequence.set_size
      split <;> (cases s; simp_all)
    simp only [e]
    rw [hz] at h3
    rw [wr_same _ _ _ h3]
  · have hie : ¬ (index_interval.mk (bound.inclusive 0) (bound.exclusive s.size)).is_empty = true := by
      rw [is_empty_iff]; exact he
    rw [if_neg hie]
    exact if_pos rfl

end ostr

/-! ## The range splice `replace(range, destination)` -/

namespace ostr

open codeunit_sequence

theorem splice_assign_eq (d buf : List Nat) (k : Int) :
    splice_assign d buf k = std_copy d buf k := by
  induction d generalizing buf k with
  | nil => rfl
  | cons c cs ih => simp [splice_assign, std_copy, ih]

theorem rd_append_right (A B : List Nat) (i : Nat) (h : A.length ≤ i) :
    rd (A ++ B) (i : Int) = rd B ((i - A.length : Nat) : Int) := by
  rw [rd_natCast, rd_natCast]
  simp [List.getElem?_append_right h]

theorem rd_drop (buf : List Nat) (k i : Nat) : rd (buf.drop k) (i : Int) = rd buf ((k + i : Nat) : Int) := by
  rw [rd_natCast, rd_natCast]
  simp

theorem suffix_select (b n : Int) (hb : 0 ≤ b) (hbn : b ≤ n) :
    ((index_interval.mk (bound.inclusive b) bound.infinity).select n).get_inclusive_min = b ∧
      ((index_interval.mk (bound.inclusive b) bound.infinity).select n).get_exclusive_max = n ∧
      ((index_interval.mk (bound.inclusive b) bound.infinity).select n).size = n - b := by
  simp only [index_interval.select, index_interval.from_end, index_interval.clamp,
    index_interval.get_inclusive_min, index_interval.get_exclusive_max, index_interval.size,
    index_interval.is_empty]
  refine ⟨?_, ?_, ?_⟩
  · split <;> omega
  · omega
  · split <;> split <;> simp_all <;> omega

/-- Writing the terminator after the bytes `P` and setting the size to their count. -/
theorem finish_spec (s : codeunit_sequence) (P tl : List Nat)
    (hlen : (P ++ tl).length = s.data.length) (htl : 0 < tl.length)
    (hcap : (P.length : Int) ≤ s.get_capacity) :
    let s3 : codeunit_sequence :=
      codeunit_sequence.mk s.alloc s.size s.capacity (wr (P ++ tl) (P.length : Int) 0)
    (s3.set_size P.length).view = P ∧ (s3.set_size P.length).size = P.length ∧
      rd (s3.set_size P.length).data (s3.set_size P.length).size = 0 ∧
      (s3.set_size P.length).get_capacity = s.get_capacity ∧
      (s3.set_size P.length).alloc = s.alloc ∧
      (s3.set_size P.length).data.length = s.data.length := by
  intro s3
  have hg : s3.get_capacity = s.get_capacity := rfl
  have esz : (s3.set_size P.length).size = P.length :=
    set_size_size s3 _ (by omega) (by rw [hg]; exact hcap)
  have ed : (s3.set_size P.length).data = wr (P ++ tl) (P.length : Int) 0 := set_size_data s3 _
  refine ⟨?_, esz, ?_, ?_, ?_, ?_⟩
  · rw [view_eq, esz, ed]
    simp only [Int.toNat_ofNat]
    rw [take_wr _ _ _ _ (le_refl _), List.take_left]
  · rw [esz, ed]
    refine rd_wr_same _ _ _ (by omega) ?_
    rw [List.length_append]; omega
  · rw [set_size_get_capacity, hg]
  · rw [set_size_alloc]
  · rw [ed, length_wr, hlen]

theorem replace_range_empty (s : codeunit_sequence) (r : index_interval)
    (d : codeunit_sequence_view) (h : (r.select s.size).is_empty = true) :
    s.replace_range r d = s := by
  unfold codeunit_sequence.replace_range
  simp only [h, if_true]

theorem replace_range_spec (s : codeunit_sequence) (r : index_interval)
    (d : codeunit_sequence_view) (hs : wf s)
    (hne : (r.select s.size).get_inclusive_min < (r.select s.size).get_exclusive_max)
    (hd : (d.length : Int) ≤
      (r.select s.size).get_exclusive_max - (r.select s.size).get_inclusive_min) :
    (s.replace_range r d).view =
        slice s.view 0 (r.select s.size).get_inclusive_min ++ d ++
          slice s.view (r.select s.size).get_exclusive_max s.size ∧
      (s.replace_range r d).size = s.size + d.length -
        ((r.select s.size).get_exclusive_max - (r.select s.size).get_inclusive_min) ∧
      rd (s.replace_range r d).data (s.replace_range r d).size = 0 ∧
      (s.replace_range r d).get_capacity = s.get_capacity ∧
      (s.replace_range r d).alloc = s.alloc ∧
      (s.replace_range r d).data.length = s.data.length := by
  have hmin := select_min_bounds r s.size hs.1
  have hmax := select_max_bounds r s.size hs.1
  have hseq := select_eq r s.size
  generalize (r.select s.size).get_inclusive_min = lo at hmin hseq hne hd ⊢
  generalize (r.select s.size).get_exclusive_max = hi at hmax hseq hne hd ⊢
  generalize hres : s.replace_range r d = res
  unfold codeunit_sequence.replace_range at hres
  simp only [hseq] at hres
  have hie : ¬ (index_interval.mk (bound.inclusive lo) (bound.exclusive hi)).is_empty = true := by
    rw [is_empty_iff]; simp only [index_interval.get_inclusive_min,
      index_interval.get_exclusive_max]; omega
  rw [if_neg hie] at hres
  have hmine : (index_interval.mk (bound.inclusive lo) (bound.exclusive hi)).get_inclusive_min = lo :=
    rfl
  have hmaxe : (index_interval.mk (bound.inclusive lo) (bound.exclusive hi)).get_exclusive_max = hi :=
    rfl
  have hsize : (index_interval.mk (bound.inclusive lo) (bound.exclusive hi)).size = hi - lo := by
    simp only [index_interval.size, if_neg hie, hmine, hmaxe, Bool.false_eq_true, if_false]
  simp only [hmine, hmaxe, hsize, codeunit_sequence_view.size, splice_assign_eq] at hres
  rw [if_pos (by omega)] at hres
  obtain ⟨h0, h1, h2, h3⟩ := hs
  obtain ⟨a, rfl⟩ := Int.eq_ofNat_of_zero_le hmin.1
  obtain ⟨b, rfl⟩ := Int.eq_ofNat_of_zero_le hmax.1
  obtain ⟨n, hn⟩ := Int.eq_ofNat_of_zero_le h0
  have hab : a < b := by omega
  have hbn : b ≤ n := by omega
  have hlen : n < s.data.length := by omega
  have hdl : d.length ≤ b - a := by omega
  have hcopy := std_copy_eq d s.data a (by omega)
  have hsv : s.view = s.data.take n := by rw [view_eq, hn]; simp
  have hrd : rd s.data (n : Int) = 0 := by rw [← hn]; exact h3
  have hl : (s.data.take a ++ d).length = a + d.length := by
    rw [List.length_append, List.length_take]; omega
  have hview : slice (s.data.take n) ((0 : Nat) : Int) a ++ d ++ slice (s.data.take n) b n
      = s.data.take a ++ d ++ (s.data.drop b).take (n - b) := by
    rw [slice_natCast, slice_natCast]
    simp only [List.drop_zero, List.take_take, Nat.min_eq_left (by omega : a ≤ n), Nat.min_self]
    rw [List.drop_take]
  rw [hsv, hn, show (0 : Int) = ((0 : Nat) : Int) by rfl, hview]
  by_cases hdel : (d.length : Int) - ((b : Int) - a) ≠ 0
  · rw [if_pos hdel] at hres
    obtain ⟨f1, _, f3⟩ := suffix_select (b : Int) s.size (by omega) (by omega)
    simp only [f1, f3] at hres
    have e1 : (s.size - (b : Int)).toNat = n - b := by omega
    have e2 : (b : Int) + ((d.length : Int) - ((b : Int) - a)) = ((a + d.length : Nat) : Int) := by
      push_cast; ring
    have e3 : s.size + ((d.length : Int) - ((b : Int) - a)) = ((a + d.length + (n - b) : Nat) : Int) := by
      push_cast; omega
    rw [e1, e2, e3, hcopy] at hres
    have hm := move_fwd_eq (n - b) (s.data.take a ++ d ++ s.data.drop (a + d.length)) b
      (a + d.length) (by omega) (by simp; omega)
    have ht : (s.data.take a ++ d ++ s.data.drop (a + d.length)).take (a + d.length)
        = s.data.take a ++ d := by
      rw [← hl, List.take_left]
    have hdr : (s.data.take a ++ d ++ s.data.drop (a + d.length)).drop b = s.data.drop b := by
      rw [show b = (s.data.take a ++ d).length + (b - (a + d.length)) by omega, List.drop_append]
      rw [List.drop_drop]; congr 1; omega
    rw [ht, hdr] at hm
    rw [hm] at hres
    have hpl : (s.data.take a ++ d ++ (s.data.drop b).take (n - b)).length
        = a + d.length + (n - b) := by
      rw [List.length_append, hl, List.length_take, List.length_drop]; omega
    have htll : (List.drop (a + d.length + (n - b))
        (s.data.take a ++ d ++ s.data.drop (a + d.length))).length
        = s.data.length - (a + d.length + (n - b)) := by
      rw [List.length_drop, List.length_append, hl, List.length_drop]; omega
    generalize List.drop (a + d.length + (n - b))
      (s.data.take a ++ d ++ s.data.drop (a + d.length)) = tl at htll hres
    rw [← hpl] at hres
    have hfin := finish_spec s (s.data.take a ++ d ++ (s.data.drop b).take (n - b)) tl
      (by rw [List.length_append, hpl, htll]; omega)
      (by rw [htll]; omega)
      (by rw [hpl]; omega)
    simp only at hfin
    rw [hres] at hfin
    obtain ⟨g1, g2, g3, g4, g5, g6⟩ := hfin
    exact ⟨g1, by rw [g2, hpl]; push_cast; omega, g3, g4, g5, g6⟩
  · rw [if_neg hdel] at hres
    have hdb : a + d.length = b := by omega
    rw [hcopy, hdb] at hres
    subst hres
    rw [hdb] at hl
    refine ⟨?_, by simp only; omega, ?_, rfl, rfl, ?_⟩
    · rw [view_eq]
      simp only [hn, Int.toNat_ofNat]
      rw [show n = (s.data.take a ++ d).length + (n - b) by omega, List.take_append]
      rw [← show n = (s.data.take a ++ d).length + (n - b) by omega, List.take_drop]
    · simp only [hn]
      rw [rd_append_right _ _ _ (by omega), hl, rd_drop]
      rw [show b + (n - b) = n by omega]; exact hrd
    · simp only [List.length_append, List.length_take, List.length_drop]; omega

end ostr

/-! ## Searching and the reference replace-all -/

namespace ostr

open codeunit_sequence

theorem replace_all_from_nil (p d : List Nat) (k : Nat) : replace_all_from p d k [] = [] := by
  cases k <;> rfl

theorem count_from_nil (p : List Nat) (k : Nat) : count_from p k [] = 0 := by
  cases k <;> rfl

theorem replace_all_from_skip (p d : List Nat) (k : Nat) (l : List Nat) :
    replace_all_from p d k l = replace_all_from p d 0 (l.drop k) := by
  induction k generalizing l with
  | zero => simp
  | succ k ih =>
    cases l with
    | nil => simp [replace_all_from_nil]
    | cons c cs => rw [replace_all_from, ih]; simp

theorem count_from_skip (p : List Nat) (k : Nat) (l : List Nat) :
    count_from p k l = count_from p 0 (l.drop k) := by
  induction k generalizing l with
  | zero => simp
  | succ k ih =>
    cases l with
    | nil => simp [count_from_nil]
    | cons c cs => rw [count_from, ih]; simp

theorem drop_pred_tail (p : List Nat) (c : Nat) (cs : List Nat) (hp : p ≠ []) :
    cs.drop (p.length - 1) = (c :: cs).drop p.length := by
  have : 0 < p.length := List.length_pos.mpr hp
  rw [show p.length = (p.length - 1) + 1 by omega, List.drop_succ_cons]
  simp

theorem replace_all_match (p d : List Nat) (c : Nat) (cs : List Nat) (hp : p ≠ [])
    (h : p <+: c :: cs) :
    replace_all_from p d 0 (c :: cs) = d ++ replace_all_from p d 0 ((c :: cs).drop p.length) := by
  rw [replace_all_from, if_pos h, replace_all_from_skip, drop_pred_tail p c cs hp]

theorem replace_all_skip (p d : List Nat) (c : Nat) (cs : List Nat) (h : ¬ p <+: c :: cs) :
    replace_all_from p d 0 (c :: cs) = c :: replace_all_from p d 0 cs := by
  rw [replace_all_from, if_neg h]

theorem count_match (p : List Nat) (c : Nat) (cs : List Nat) (hp : p ≠ []) (h : p <+: c :: cs) :
    count_from p 0 (c :: cs) = count_from p 0 ((c :: cs).drop p.length) + 1 := by
  rw [count_from, if_pos h, count_from_skip, drop_pred_tail p c cs hp]

theorem count_skip (p : List Nat) (c : Nat) (cs : List Nat) (h : ¬ p <+: c :: cs) :
    count_from p 0 (c :: cs) = count_from p 0 cs := by
  rw [count_from, if_neg h]

theorem find_first_nil (p : List Nat) (hp : p ≠ []) : find_first p [] = none := by
  simp [find_first, hp]

theorem find_first_match (p : List Nat) (c : Nat) (cs : List Nat) (h : p <+: c :: cs) :
    find_first p (c :: cs) = some 0 := by
  rw [find_first, if_pos h]

theorem find_first_skip (p : List Nat) (c : Nat) (cs : List Nat) (h : ¬ p <+: c :: cs) :
    find_first p (c :: cs) = (find_first p cs).map (· + 1) := by
  rw [find_first, if_neg h]
  cases find_first p cs <;> rfl

theorem find_first_zero (p : List Nat) (l : List Nat) (hp : p ≠ []) (h : find_first p l = some 0) :
    p <+: l := by
  cases l with
  | nil => rw [find_first_nil p hp] at h; cases h
  | cons c cs =>
    by_contra hc
    rw [find_first_skip p c cs hc] at h
    cases hf : find_first p cs <;> simp [hf] at h

/-- The count of matches is zero exactly when there is no first match. -/
theorem count_from_eq_zero (p : List Nat) (l : List Nat) (hp : p ≠ []) :
    count_from p 0 l = 0 ↔ find_first p l = none := by
  induction l with
  | nil => simp [count_from_nil, find_first_nil p hp]
  | cons c cs ih =>
    by_cases h : p <+: c :: cs
    · rw [count_match p c cs hp h, find_first_match p c cs h]; simp
    · rw [count_skip p c cs h, find_first_skip p c cs h, ih]
      cases find_first p cs <;> simp

theorem find_first_none_iff (p : List Nat) (l : List Nat) (hp : p ≠ []) :
    find_first p l = none ↔ ¬ p <:+: l := by
  induction l with
  | nil =>
    simp [find_first_nil p hp, hp]
  | cons c cs ih =>
    by_cases h : p <+: c :: cs
    · rw [find_first_match p c cs h]
      simp only [reduceCtorEq, false_iff, not_not]
      exact h.isInfix
    · rw [find_first_skip p c cs h]
      rw [List.infix_cons_iff]
      constructor
      · intro hn
        have : find_first p cs = none := by
          cases hf : find_first p cs <;> simp [hf] at hn ⊢
        rw [ih] at this
        rintro (h1 | h2)
        · exact h h1
        · exact this h2
      · intro hn
        have : find_first p cs = none := by
          rw [ih]; exact fun h2 => hn (Or.inr h2)
        rw [this]; rfl

theorem replace_all_none (p d : List Nat) (l : List Nat)
    (h : find_first p l = none) : replace_all_from p d 0 l = l := by
  induction l with
  | nil => rfl
  | cons c cs ih =>
    by_cases hm : p <+: c :: cs
    · rw [find_first_match p c cs hm] at h; cases h
    · rw [find_first_skip p c cs hm] at h
      have : find_first p cs = none := by
        cases hf : find_first p cs <;> simp [hf] at h ⊢
      rw [replace_all_skip p d c cs hm, ih this]

theorem length_replace_all (p d : List Nat) (hp : p ≠ []) (n : Nat) (l : List Nat)
    (hl : l.length ≤ n) :
    ((replace_all_from p d 0 l).length : Int)
      = l.length + ((d.length : Int) - p.length) * count_from p 0 l := by
  induction n generalizing l with
  | zero =>
    have : l = [] := List.length_eq_zero.mp (by omega)
    subst this; simp [replace_all_from_nil, count_from_nil]
  | succ n ih =>
    cases l with
    | nil => simp [replace_all_from_nil, count_from_nil]
    | cons c cs =>
      by_cases hm : p <+: c :: cs
      · have hpl : p.length ≤ (c :: cs).length := hm.length_le
        have hp0 : 0 < p.length := List.length_pos.mpr hp
        have hdl : ((c :: cs).drop p.length).length = (c :: cs).length - p.length := by simp
        rw [replace_all_match p d c cs hp hm, count_match p c cs hp hm, List.length_append]
        push_cast
        rw [ih _ (by rw [hdl]; simp at hl ⊢; omega), hdl]
        have : (((c :: cs).length - p.length : Nat) : Int) = ((c :: cs).length : Int) - p.length := by
          omega
        rw [this]; ring
      · rw [replace_all_skip p d c cs hm, count_skip p c cs hm, List.length_cons]
        push_cast
        rw [ih cs (by simp at hl; omega)]
        simp; ring

end ostr

/-! ## The forward pass against the reference -/

namespace ostr

open codeunit_sequence

theorem drop_take_cons (D : List Nat) (r hi : Nat) (h1 : r < hi) (h2 : hi ≤ D.length) :
    (D.take hi).drop r = D.getD r 0 :: (D.take hi).drop (r + 1) := by
  have hr : r < (D.take hi).length := by rw [List.length_take]; omega
  rw [List.drop_eq_getElem_cons hr, List.getElem_take, List.getD_eq_getElem _ _ (by omega)]

theorem drop_cons_getD (D : List Nat) (r : Nat) (h : r < D.length) :
    D.drop r = D.getD r 0 :: D.drop (r + 1) := by
  rw [List.drop_eq_getElem_cons h, List.getD_eq_getElem _ _ h]

theorem pending_zero (p d D : List Nat) (lo hi : Nat) :
    pending p d D lo hi 0
      = D.take lo ++ replace_all_from p d 0 ((D.take hi).drop lo) ++ D.drop hi := by
  simp [pending]

theorem next_match_eq_self (p D : List Nat) (lo hi r : Nat) (hp : p ≠ [])
    (h : next_match p D lo hi r = (r : Int)) :
    lo ≤ r ∧ p <+: (D.take hi).drop r := by
  unfold next_match at h
  cases hf : find_first p ((D.take hi).drop (max r lo)) with
  | none => rw [hf] at h; simp [index_invalid] at h
  | some j =>
    rw [hf] at h
    simp only at h
    have h1 : max r lo + j = r := by exact_mod_cast h
    have hj : j = 0 := by omega
    have hm : max r lo = r := by omega
    subst hj
    rw [hm] at hf
    exact ⟨by omega, find_first_zero p _ hp hf⟩

theorem pending_match (p d D : List Nat) (lo hi r : Nat) (hp : p ≠ []) (hhi : hi ≤ D.length)
    (h : next_match p D lo hi r = (r : Int)) :
    pending p d D lo hi r = d ++ pending p d D lo hi (r + p.length) ∧ lo ≤ r ∧
      r + p.length ≤ hi := by
  obtain ⟨hlo, hpre⟩ := next_match_eq_self p D lo hi r hp h
  have hlen : p.length ≤ ((D.take hi).drop r).length := hpre.length_le
  rw [List.length_drop, List.length_take] at hlen
  have hp0 : 0 < p.length := List.length_pos.mpr hp
  have hr : r + p.length ≤ hi := by omega
  refine ⟨?_, hlo, hr⟩
  unfold pending
  have e1 : (D.take lo).drop r = [] := List.drop_eq_nil_of_le (by rw [List.length_take]; omega)
  have e2 : (D.take lo).drop (r + p.length) = [] :=
    List.drop_eq_nil_of_le (by rw [List.length_take]; omega)
  rw [e1, e2, Nat.max_eq_left hlo, Nat.max_eq_left (by omega : lo ≤ r + p.length),
    Nat.max_eq_right (by omega : r ≤ hi), Nat.max_eq_right hr]
  have hcons := drop_take_cons D r hi (by omega) hhi
  rw [hcons] at hpre ⊢
  rw [replace_all_match p d _ _ hp hpre, ← hcons, List.drop_drop]
  simp [Nat.add_comm]

theorem pending_skip (p d D : List Nat) (lo hi r : Nat) (hp : p ≠ []) (hlohi : lo ≤ hi)
    (hhi : hi ≤ D.length) (hr : r < D.length) (h : next_match p D lo hi r ≠ (r : Int)) :
    pending p d D lo hi r = D.getD r 0 :: pending p d D lo hi (r + 1) ∧
      next_match p D lo hi (r + 1) = next_match p D lo hi r := by
  by_cases h1 : r < lo
  · -- before the window
    have e1 : (D.take lo).drop r = D.getD r 0 :: (D.take lo).drop (r + 1) :=
      drop_take_cons D r lo h1 (by omega)
    unfold pending next_match
    rw [e1, Nat.max_eq_right (by omega : r ≤ lo), Nat.max_eq_right (by omega : r + 1 ≤ lo),
      Nat.max_eq_right (by omega : r ≤ hi), Nat.max_eq_right (by omega : r + 1 ≤ hi)]
    simp
  · by_cases h2 : r < hi
    · -- inside the window, no match starts here
      have e1 : (D.take lo).drop r = [] := List.drop_eq_nil_of_le (by rw [List.length_take]; omega)
      have e2 : (D.take lo).drop (r + 1) = [] :=
        List.drop_eq_nil_of_le (by rw [List.length_take]; omega)
      have hcons := drop_take_cons D r hi h2 hhi
      have hnm : ¬ p <+: D.getD r 0 :: (D.take hi).drop (r + 1) := by
        intro hm
        apply h
        unfold next_match
        rw [Nat.max_eq_left (by omega : lo ≤ r), hcons, find_first_match p _ _ hm]
        simp
      unfold pending next_match
      rw [e1, e2, Nat.max_eq_left (by omega : lo ≤ r), Nat.max_eq_left (by omega : lo ≤ r + 1),
        Nat.max_eq_right (by omega : r ≤ hi), Nat.max_eq_right (by omega : r + 1 ≤ hi), hcons,
        replace_all_skip p d _ _ hnm, find_first_skip p _ _ hnm]
      refine ⟨by simp, ?_⟩
      cases find_first p ((D.take hi).drop (r + 1)) with
      | none => rfl
      | some j => simp only [Option.map_some']; push_cast; ring_nf
    · -- after the window
      have e1 : (D.take lo).drop r = [] := List.drop_eq_nil_of_le (by rw [List.length_take]; omega)
      have e2 : (D.take lo).drop (r + 1) = [] :=
        List.drop_eq_nil_of_le (by rw [List.length_take]; omega)
      have e3 : (D.take hi).drop (max r lo) = [] :=
        List.drop_eq_nil_of_le (by rw [List.length_take]; omega)
      have e4 : (D.take hi).drop (max (r + 1) lo) = [] :=
        List.drop_eq_nil_of_le (by rw [List.length_take]; omega)
      unfold pending next_match
      rw [e1, e2, e3, e4, Nat.max_eq_left (by omega : hi ≤ r),
        Nat.max_eq_left (by omega : hi ≤ r + 1), drop_cons_getD D r hr, find_first_nil p hp]
      simp [replace_all_from_nil]

theorem length_pending_ge (p d D : List Nat) (lo hi r : Nat) :
    D.length - max r hi ≤ (pending p d D lo hi r).length := by
  unfold pending
  simp only [List.length_append, List.length_drop]
  omega

theorem length_pending_after (p d D : List Nat) (lo hi r : Nat) (hlohi : lo ≤ hi) (h : hi ≤ r) :
    (pending p d D lo hi r).length = D.length - r := by
  unfold pending
  have e1 : (D.take lo).drop r = [] := List.drop_eq_nil_of_le (by rw [List.length_take]; omega)
  have e3 : (D.take hi).drop (max r lo) = [] :=
    List.drop_eq_nil_of_le (by rw [List.length_take]; omega)
  rw [e1, e3, Nat.max_eq_left h]
  simp [replace_all_from_nil]

theorem length_pending_zero (p d D : List Nat) (lo hi : Nat) (hp : p ≠ []) (hlohi : lo ≤ hi)
    (hhi : hi ≤ D.length) :
    ((pending p d D lo hi 0).length : Int)
      = D.length + ((d.length : Int) - p.length) * count_from p 0 ((D.take hi).drop lo) := by
  rw [pending_zero]
  simp only [List.length_append, Nat.cast_add]
  rw [length_replace_all p d hp _ _ (le_refl _)]
  simp only [List.length_take, List.length_drop]
  have : min lo D.length = lo := by omega
  have : min hi D.length = hi := by omega
  push_cast
  omega

end ostr

namespace ostr

open codeunit_sequence

theorem find_first_some_bound (p : List Nat) (l : List Nat) (j : Nat) (hp : p ≠ [])
    (h : find_first p l = some j) : j + p.length ≤ l.length := by
  induction l generalizing j with
  | nil => rw [find_first_nil p hp] at h; cases h
  | cons c cs ih =>
    by_cases hm : p <+: c :: cs
    · rw [find_first_match p c cs hm] at h
      cases h
      simpa using hm.length_le
    · rw [find_first_skip p c cs hm] at h
      cases hf : find_first p cs with
      | none => rw [hf] at h; cases h
      | some k =>
        rw [hf] at h
        simp only [Option.map_some', Option.some.injEq] at h
        subst h
        have := ih k hf
        simp only [List.length_cons]; omega

theorem next_match_bounds (p D : List Nat) (lo hi r m : Nat) (hp : p ≠ [])
    (h : next_match p D lo hi r = (m : Int)) : max r lo ≤ m ∧ m + p.length ≤ hi := by
  unfold next_match at h
  cases hf : find_first p ((D.take hi).drop (max r lo)) with
  | none => rw [hf] at h; simp [index_invalid] at h
  | some j =>
    rw [hf] at h
    simp only at h
    have h1 : max r lo + j = m := by exact_mod_cast h
    have h2 := find_first_some_bound p _ j hp hf
    have hp0 : 0 < p.length := List.length_pos.mpr hp
    rw [List.length_drop, List.length_take] at h2
    omega

theorem next_match_cases (p D : List Nat) (lo hi r : Nat) :
    next_match p D lo hi r = index_invalid ∨ ∃ m : Nat, next_match p D lo hi r = (m : Int) := by
  unfold next_match
  cases find_first p ((D.take hi).drop (max r lo)) with
  | none => exact Or.inl rfl
  | some j => exact Or.inr ⟨_, rfl⟩

theorem pending_after (p d D : List Nat) (lo hi r : Nat) (hlohi : lo ≤ hi) (h : hi ≤ r) :
    pending p d D lo hi r = D.drop r := by
  unfold pending
  have e1 : (D.take lo).drop r = [] := List.drop_eq_nil_of_le (by rw [List.length_take]; omega)
  have e3 : (D.take hi).drop (max r lo) = [] :=
    List.drop_eq_nil_of_le (by rw [List.length_take]; omega)
  rw [e1, e3, Nat.max_eq_left h]
  simp [replace_all_from_nil]

theorem pending_none (p d D : List Nat) (lo hi : Nat) (hp : p ≠ []) (hlohi : lo ≤ hi)
    (hhi : hi ≤ D.length) (k r : Nat) (hk : D.length - r ≤ k)
    (h : next_match p D lo hi r = index_invalid) : pending p d D lo hi r = D.drop r := by
  induction k generalizing r with
  | zero => exact pending_after p d D lo hi r hlohi (by omega)
  | succ k ih =>
    by_cases hr : r < D.length
    · have hne : next_match p D lo hi r ≠ (r : Int) := by
        rw [h]; simp [index_invalid]
      obtain ⟨e1, e2⟩ := pending_skip p d D lo hi r hp hlohi hhi hr hne
      rw [e1, ih (r + 1) (by omega) (by rw [e2, h]), ← drop_cons_getD D r hr]
    · exact pending_after p d D lo hi r hlohi (by omega)

theorem pending_to_match (p d D : List Nat) (lo hi : Nat) (hp : p ≠ []) (hlohi : lo ≤ hi)
    (hhi : hi ≤ D.length) (k r m : Nat) (hm : r + k = m)
    (h : next_match p D lo hi r = (m : Int)) :
    pending p d D lo hi r = (D.drop r).take k ++ pending p d D lo hi m ∧
      next_match p D lo hi m = (m : Int) := by
  induction k generalizing r with
  | zero =>
    have : r = m := by omega
    subst this
    exact ⟨by simp, h⟩
  | succ k ih =>
    have hb := next_match_bounds p D lo hi r m hp h
    have hp0 : 0 < p.length := List.length_pos.mpr hp
    have hr : r < D.length := by omega
    have hne : next_match p D lo hi r ≠ (r : Int) := by
      rw [h]; intro hc
      have : m = r := by exact_mod_cast hc
      omega
    obtain ⟨e1, e2⟩ := pending_skip p d D lo hi r hp hlohi hhi hr hne
    obtain ⟨e3, e4⟩ := ih (r + 1) (by omega) (by rw [e2, h])
    refine ⟨?_, e4⟩
    rw [e1, e3, drop_cons_getD D r hr, List.take_succ_cons]
    simp

theorem next_match_congr (p D D0 : List Nat) (lo hi r : Nat) (h : D.drop r = D0.drop r) :
    next_match p D lo hi r = next_match p D0 lo hi r := by
  unfold next_match
  have e : (D.take hi).drop (max r lo) = (D0.take hi).drop (max r lo) := by
    rw [List.drop_take, List.drop_take]
    have : ∀ X : List Nat, X.drop (max r lo) = (X.drop r).drop (max r lo - r) := by
      intro X; rw [List.drop_drop]; congr 1; omega
    rw [this D, this D0, h]
  rw [e]

theorem intersect_from_select (lo hi : Nat) (k n : Int) (hk : 0 ≤ k) (hkn : k ≤ n)
    (hlo : (lo : Int) ≤ n) (hhi : (hi : Int) ≤ n) :
    ((index_interval.mk (bound.inclusive (lo : Int)) (bound.exclusive (hi : Int))).intersect
        ⟨bound.inclusive k, bound.infinity⟩).select n
      = ⟨bound.inclusive (max k lo), bound.exclusive (hi : Int)⟩ := by
  simp only [index_interval.intersect, index_interval.select, index_interval.from_end,
    index_interval.clamp, index_interval.get_inclusive_min]
  congr 2
  · split <;> omega
  · split <;> omega

theorem view_size (s : codeunit_sequence) (h0 : 0 ≤ s.size) (hl : s.size ≤ s.data.length) :
    s.view.size = s.size := by
  rw [codeunit_sequence_view.size, view_eq, List.length_take]; omega

theorem index_of_eq (s : codeunit_sequence) (p : List Nat) (rg : index_interval)
    (lo hi r : Nat) (h0 : 0 ≤ s.size) (hl : s.size ≤ s.data.length) (hhi : (hi : Int) ≤ s.size)
    (hsel : rg.select s.size = ⟨bound.inclusive ((max r lo : Nat) : Int), bound.exclusive (hi : Int)⟩) :
    s.index_of p rg = next_match p s.data lo hi r := by
  unfold codeunit_sequence.index_of codeunit_sequence_view.index_of next_match
  simp only [view_size s h0 hl, hsel, index_interval.get_inclusive_min,
    index_interval.get_exclusive_max]
  rw [slice_natCast, view_eq, List.take_take, Nat.min_eq_left (by omega)]
  cases find_first p ((s.data.take hi).drop (max r lo)) with
  | none => rfl
  | some j => simp

end ostr

/-! ## The loops of the pattern replace -/

namespace ostr

open codeunit_sequence

theorem std_copy_take (d buf : List Nat) (k : Nat) (h : k + d.length ≤ buf.length) :
    (std_copy d buf (k : Int)).take (k + d.length) = buf.take k ++ d := by
  rw [std_copy_eq d buf k h]
  have hl : (buf.take k ++ d).length = k + d.length := by
    rw [List.length_append, List.length_take]; omega
  rw [← hl, List.take_left]

theorem std_copy_drop (d buf : List Nat) (k j : Nat) (h : k + d.length ≤ buf.length)
    (hj : k + d.length ≤ j) : (std_copy d buf (k : Int)).drop j = buf.drop j := by
  rw [std_copy_eq d buf k h]
  have hl : (buf.take k ++ d).length = k + d.length := by
    rw [List.length_append, List.length_take]; omega
  rw [show j = (buf.take k ++ d).length + (j - (k + d.length)) by omega, List.drop_append,
    List.drop_drop]
  congr 1; omega

theorem wr_take_succ (buf : List Nat) (i c : Nat) (h : i < buf.length) :
    (wr buf (i : Int) c).take (i + 1) = buf.take i ++ [c] := by
  rw [wr_natCast, List.set_eq_take_cons_drop _ h]
  have hl : (buf.take i).length = i := by rw [List.length_take]; omega
  rw [List.take_append_eq_append_take, hl]
  simp [List.take_of_length_le, hl]

theorem wr_drop (buf : List Nat) (i c j : Nat) (h : i < j) :
    (wr buf (i : Int) c).drop j = buf.drop j := by
  rw [wr_natCast, List.drop_set_of_lt _ _ h]

theorem take_split (D : List Nat) (r m : Nat) (h : r ≤ m) :
    D.take m = D.take r ++ (D.drop r).take (m - r) := by
  rw [show m = r + (m - r) by omega, List.take_add]
  simp

theorem drop_of_drop_eq (D D0 : List Nat) (r j : Nat) (h : D.drop r = D0.drop r) (hj : r ≤ j) :
    D.drop j = D0.drop j := by
  have : ∀ X : List Nat, X.drop j = (X.drop r).drop (j - r) := by
    intro X; rw [List.drop_drop]; congr 1; omega
  rw [this D, this D0, h]

theorem equal_loop_spec (p d D0 : List Nat) (lo hi n : Nat) (hp : p ≠ [])
    (hpd : d.length = p.length) (hlohi : lo ≤ hi) (hhin : hi ≤ n) (hnl : n ≤ D0.length)
    (fuel : Nat) (s : codeunit_sequence) (rg : index_interval) (r : Nat)
    (hsz : s.size = n) (hlen : s.data.length = D0.length) (hr : r ≤ hi)
    (hsel : rg.select n = ⟨bound.inclusive ((max r lo : Nat) : Int), bound.exclusive (hi : Int)⟩)
    (hdrop : s.data.drop r = D0.drop r)
    (htake : s.data.take r ++ pending p d D0 lo hi r = pending p d D0 lo hi 0)
    (hfuel : hi + 1 - r ≤ fuel) :
    replace_equal_loop p d ⟨bound.inclusive (lo : Int), bound.exclusive (hi : Int)⟩ fuel s rg
      = some { s with data := pending p d D0 lo hi 0 } := by
  induction fuel generalizing s rg r with
  | zero => omega
  | succ fuel ih =>
    have hidx : s.index_of p rg = next_match p D0 lo hi r := by
      rw [index_of_eq s p rg lo hi r (by omega) (by omega) (by omega) (by rw [hsz]; exact hsel)]
      exact next_match_congr p s.data D0 lo hi r hdrop
    rw [replace_equal_loop]
    simp only [hidx]
    rcases next_match_cases p D0 lo hi r with hnone | ⟨m, hm⟩
    · rw [if_pos hnone]
      have e := pending_none p d D0 lo hi hp hlohi (by omega) _ r (le_refl _) hnone
      rw [e, ← hdrop, List.take_append_drop] at htake
      rw [← htake]
    · have hb := next_match_bounds p D0 lo hi r m hp hm
      have hne : next_match p D0 lo hi r ≠ index_invalid := by
        rw [hm]; simp [index_invalid]
      have hp0 : 0 < p.length := List.length_pos.mpr hp
      rw [if_neg hne, hm]
      obtain ⟨e1, e2⟩ := pending_to_match p d D0 lo hi hp hlohi (by omega) (m - r) r m
        (by omega) hm
      obtain ⟨e3, _, e5⟩ := pending_match p d D0 lo hi m hp (by omega) e2
      have hcast : (m : Int) + codeunit_sequence_view.size d = ((m + d.length : Nat) : Int) := by
        simp [codeunit_sequence_view.size]
      rw [hcast]
      have hmd : m + d.length ≤ s.data.length := by omega
      apply ih _ _ (m + d.length)
      · exact hsz
      · simp only; rw [length_std_copy]; exact hlen
      · omega
      · have := intersect_from_select lo hi ((m + d.length : Nat) : Int) n (by omega)
          (by push_cast; omega) (by omega) (by omega)
        rw [this]
        congr 2
        push_cast; rfl
      · simp only
        rw [std_copy_drop d s.data m _ hmd (le_refl _)]
        exact drop_of_drop_eq _ _ r _ hdrop (by omega)
      · simp only
        rw [std_copy_take d s.data m hmd, take_split s.data r m (by omega), hdrop, hpd, ← htake,
          e1, e3]
        simp
      · omega

end ostr

namespace ostr

open codeunit_sequence

theorem getD_of_drop_eq (D D0 : List Nat) (r : Nat) (h : D.drop r = D0.drop r) :
    D.getD r 0 = D0.getD r 0 := by
  have e : ∀ X : List Nat, X.getD r 0 = (X.drop r).getD 0 0 := by
    intro X; simp
  rw [e D, e D0, h]

theorem shrink_loop_spec (p d D0 : List Nat) (lo hi n ans : Nat) (hp : p ≠ [])
    (hpd : d.length < p.length) (hlohi : lo ≤ hi) (hhin : hi ≤ n) (hnl : n < D0.length)
    (hF : (pending p d D0 lo hi 0).length = ans + (D0.length - n))
    (fuel : Nat) (s : codeunit_sequence) (i r : Nat) (offset found : Int)
    (hsz : s.size = n) (hlen : s.data.length = D0.length)
    (hir : i ≤ r) (hrn : r ≤ n) (hia : i ≤ ans)
    (hoff : offset = (r : Int) - i) (hfound : found = next_match p D0 lo hi r)
    (hdrop : s.data.drop r = D0.drop r)
    (htake : s.data.take i ++ pending p d D0 lo hi r = pending p d D0 lo hi 0)
    (hfuel : n + 1 - r ≤ fuel) :
    ∃ s', replace_shrink_loop p d ⟨bound.inclusive (lo : Int), bound.exclusive (hi : Int)⟩
        (ans : Int) fuel s i offset found = some s' ∧
      s'.alloc = s.alloc ∧ s'.size = s.size ∧ s'.capacity = s.capacity ∧
      s'.data.length = D0.length ∧
      s'.data.take (ans + 1) = (pending p d D0 lo hi 0).take (ans + 1) := by
  induction fuel generalizing s i r offset found with
  | zero => omega
  | succ fuel ih =>
    subst hoff hfound
    rw [replace_shrink_loop]
    by_cases hmatch : next_match p D0 lo hi r = (r : Int)
    · rw [if_pos (by rw [hmatch]; ring)]
      obtain ⟨e1, hlor, hrhi⟩ := pending_match p d D0 lo hi r hp (by omega) hmatch
      have hp0 : 0 < p.length := List.length_pos.mpr hp
      have hid : i + d.length ≤ s.data.length := by omega
      have htake1 : (std_copy d s.data (i : Int)).take (i + d.length)
          ++ pending p d D0 lo hi (r + p.length) = pending p d D0 lo hi 0 := by
        rw [std_copy_take d s.data i hid, ← htake, e1]; simp
      have hdrop1 : (std_copy d s.data (i : Int)).drop (r + p.length) = D0.drop (r + p.length) := by
        rw [std_copy_drop d s.data i _ hid (by omega)]
        exact drop_of_drop_eq _ _ r _ hdrop (by omega)
      have hia1 : i + d.length ≤ ans := by
        have h1 := congrArg List.length htake1
        rw [List.length_append, List.length_take, length_std_copy, hF] at h1
        have h2 := length_pending_ge p d D0 lo hi (r + p.length)
        omega
      have hres := ih (codeunit_sequence.mk s.alloc s.size s.capacity (std_copy d s.data (i : Int)))
        (i + d.length) (r + p.length)
        ((r : Int) - i - (codeunit_sequence_view.size d - codeunit_sequence_view.size p))
        (next_match p D0 lo hi (r + p.length)) hsz (by simp only; rw [length_std_copy]; exact hlen)
        (by omega) (by omega) hia1
        (by simp only [codeunit_sequence_view.size]; push_cast; ring) rfl hdrop1 htake1 (by omega)
      obtain ⟨s', g1, g2, g3, g4, g5, g6⟩ := hres
      refine ⟨s', ?_, g2, g3, g4, g5, g6⟩
      have hidx : (codeunit_sequence.mk s.alloc s.size s.capacity
          (std_copy d s.data (i : Int))).index_of p
          ((index_interval.mk (bound.inclusive (lo : Int)) (bound.exclusive (hi : Int))).intersect
            ⟨bound.inclusive ((i : Int) + (d.length : Int) + ((r : Int) - i
              - ((d.length : Int) - (p.length : Int)))), bound.infinity⟩)
          = next_match p D0 lo hi (r + p.length) := by
        have hk : (i : Int) + (d.length : Int) + ((r : Int) - i
            - ((d.length : Int) - (p.length : Int)))
            = ((r + p.length : Nat) : Int) := by
          push_cast; ring
        rw [hk, index_of_eq _ p _ lo hi (r + p.length) (by simp only; omega)
          (by simp only; rw [length_std_copy]; omega) (by simp only; omega)]
        · exact next_match_congr p _ D0 lo hi _ hdrop1
        · simp only
          rw [hsz, intersect_from_select lo hi _ n (by omega) (by push_cast; omega) (by omega)
            (by omega)]
          congr 2
          push_cast; rfl
      simp only [codeunit_sequence_view.size] at g1 ⊢
      push_cast at g1
      rw [hidx]
      exact g1
    · rw [if_neg (by intro hc; apply hmatch; rw [← hc]; ring)]
      obtain ⟨e1, e2⟩ := pending_skip p d D0 lo hi r hp hlohi (by omega) (by omega) hmatch
      have hrd : rd s.data ((i : Int) + ((r : Int) - i)) = D0.getD r 0 := by
        rw [show (i : Int) + ((r : Int) - i) = (r : Int) by ring, rd_natCast]
        exact getD_of_drop_eq _ _ r hdrop
      have hil : i < s.data.length := by omega
      have htake1 : (wr s.data (i : Int) (D0.getD r 0)).take (i + 1)
          ++ pending p d D0 lo hi (r + 1) = pending p d D0 lo hi 0 := by
        rw [wr_take_succ _ _ _ hil, ← htake, e1]; simp
      have hdrop1 : (wr s.data (i : Int) (D0.getD r 0)).drop (r + 1) = D0.drop (r + 1) := by
        rw [wr_drop _ _ _ _ (by omega)]
        exact drop_of_drop_eq _ _ r _ hdrop (by omega)
      simp only [hrd]
      by_cases hcont : (i : Int) + 1 ≤ (ans : Int)
      · rw [if_pos hcont]
        have hrn1 : r + 1 ≤ n := by
          by_contra hc
          have h1 := congrArg List.length htake1
          rw [List.length_append, List.length_take, length_wr, hF,
            length_pending_after p d D0 lo hi (r + 1) hlohi (by omega)] at h1
          omega
        exact ih (codeunit_sequence.mk s.alloc s.size s.capacity
            (wr s.data (i : Int) (D0.getD r 0))) (i + 1) (r + 1) _ _ hsz
          (by simp only; rw [length_wr]; exact hlen) (by omega) hrn1 (by omega)
          (by push_cast; ring) e2.symm hdrop1 htake1 (by omega)
      · rw [if_neg hcont]
        have hia2 : i = ans := by omega
        subst hia2
        refine ⟨_, rfl, rfl, rfl, rfl, ?_, ?_⟩
        · simp only; rw [length_wr]; exact hlen
        · simp only
          rw [← htake1]
          have hl : ((wr s.data (i : Int) (D0.getD r 0)).take (i + 1)).length = i + 1 := by
            rw [List.length_take, length_wr]; omega
          rw [show List.take (i + 1) (List.take (i + 1) (wr s.data (↑i) (D0.getD r 0)) ++
              pending p d D0 lo hi (r + 1)) = List.take (i + 1) (wr s.data (↑i) (D0.getD r 0)) from by
            nth_rewrite 1 [← hl]; rw [List.take_left]]

end ostr

namespace ostr

open codeunit_sequence

theorem realloc_loop_spec (s : codeunit_sequence) (p d : List Nat) (lo hi n ans M : Nat)
    (hp : p ≠ []) (hlohi : lo ≤ hi) (hhin : hi ≤ n) (hnl : n < s.data.length)
    (hsz : s.size = n)
    (hF : (pending p d s.data lo hi 0).length = ans + (s.data.length - n)) (hM : ans < M)
    (fuel : Nat) (data : List Nat) (i r : Nat) (offset found : Int)
    (hlen : data.length = M) (hrn : r ≤ n) (hia : i ≤ ans)
    (hoff : offset = (r : Int) - i) (hfound : found = next_match p s.data lo hi r)
    (htake : data.take i ++ pending p d s.data lo hi r = pending p d s.data lo hi 0)
    (hfuel : n + 1 - r ≤ fuel) :
    ∃ data', replace_realloc_loop s p d ⟨bound.inclusive (lo : Int), bound.exclusive (hi : Int)⟩
        (ans : Int) fuel data i offset found = some data' ∧
      data'.length = M ∧
      data'.take (ans + 1) = (pending p d s.data lo hi 0).take (ans + 1) := by
  induction fuel generalizing data i r offset found with
  | zero => omega
  | succ fuel ih =>
    subst hoff hfound
    rw [replace_realloc_loop]
    by_cases hmatch : next_match p s.data lo hi r = (r : Int)
    · rw [if_pos (by rw [hmatch]; ring)]
      obtain ⟨e1, hlor, hrhi⟩ := pending_match p d s.data lo hi r hp (by omega) hmatch
      have hp0 : 0 < p.length := List.length_pos.mpr hp
      have hia1 : i + d.length ≤ ans := by
        have h1 := congrArg List.length htake
        rw [e1, List.length_append, List.length_append, List.length_take, hF] at h1
        have h2 := length_pending_ge p d s.data lo hi (r + p.length)
        omega
      have hid : i + d.length ≤ data.length := by omega
      have htake1 : (std_copy d data (i : Int)).take (i + d.length)
          ++ pending p d s.data lo hi (r + p.length) = pending p d s.data lo hi 0 := by
        rw [std_copy_take d data i hid, ← htake, e1]; simp
      have hres := ih (std_copy d data (i : Int)) (i + d.length) (r + p.length)
        ((r : Int) - i - ((d.length : Int) - (p.length : Int)))
        (next_match p s.data lo hi (r + p.length)) (by rw [length_std_copy]; exact hlen)
        (by omega) hia1 (by push_cast; ring) rfl htake1 (by omega)
      obtain ⟨data', g1, g2, g3⟩ := hres
      refine ⟨data', ?_, g2, g3⟩
      have hidx : s.index_of p
          ((index_interval.mk (bound.inclusive (lo : Int)) (bound.exclusive (hi : Int))).intersect
            ⟨bound.inclusive ((i : Int) + (d.length : Int) + ((r : Int) - i
              - ((d.length : Int) - (p.length : Int)))), bound.infinity⟩)
          = next_match p s.data lo hi (r + p.length) := by
        have hk : (i : Int) + (d.length : Int) + ((r : Int) - i
            - ((d.length : Int) - (p.length : Int)))
            = ((r + p.length : Nat) : Int) := by
          push_cast; ring
        rw [hk, index_of_eq s p _ lo hi (r + p.length) (by omega) (by omega) (by omega)]
        rw [hsz, intersect_from_select lo hi _ n (by omega) (by push_cast; omega) (by omega)
          (by omega)]
        congr 2
        push_cast; rfl
      simp only [codeunit_sequence_view.size] at g1 ⊢
      push_cast at g1
      rw [hidx]
      exact g1
    · rw [if_neg (by intro hc; apply hmatch; rw [← hc]; ring)]
      obtain ⟨e1, e2⟩ := pending_skip p d s.data lo hi r hp hlohi (by omega) (by omega) hmatch
      have hrd : rd s.data ((i : Int) + ((r : Int) - i)) = s.data.getD r 0 := by
        rw [show (i : Int) + ((r : Int) - i) = (r : Int) by ring, rd_natCast]
      have hil : i < data.length := by omega
      have htake1 : (wr data (i : Int) (s.data.getD r 0)).take (i + 1)
          ++ pending p d s.data lo hi (r + 1) = pending p d s.data lo hi 0 := by
        rw [wr_take_succ _ _ _ hil, ← htake, e1]; simp
      simp only [hrd]
      by_cases hcont : (i : Int) + 1 ≤ (ans : Int)
      · rw [if_pos hcont]
        have hrn1 : r + 1 ≤ n := by
          by_contra hc
          have h1 := congrArg List.length htake1
          rw [List.length_append, List.length_take, length_wr, hF,
            length_pending_after p d s.data lo hi (r + 1) hlohi (by omega)] at h1
          omega
        exact ih (wr data (i : Int) (s.data.getD r 0)) (i + 1) (r + 1) _ _
          (by rw [length_wr]; exact hlen) hrn1 (by omega)
          (by push_cast; ring) e2.symm htake1 (by omega)
      · rw [if_neg hcont]
        have hia2 : i = ans := by omega
        subst hia2
        refine ⟨_, rfl, ?_, ?_⟩
        · rw [length_wr]; exact hlen
        · rw [← htake1]
          have hl : ((wr data (i : Int) (s.data.getD r 0)).take (i + 1)).length = i + 1 := by
            rw [List.length_take, length_wr]; omega
          rw [show List.take (i + 1) (List.take (i + 1) (wr data (↑i) (s.data.getD r 0)) ++
              pending p d s.data lo hi (r + 1)) = List.take (i + 1) (wr data (↑i) (s.data.getD r 0)) from by
            nth_rewrite 1 [← hl]; rw [List.take_left]]

end ostr

/-! ## The pattern replace -/

namespace ostr

open codeunit_sequence

theorem replace_all_in_natCast (p d c : List Nat) (lo hi : Nat) :
    replace_all_in p d c (lo : Int) (hi : Int)
      = c.take lo ++ replace_all_from p d 0 ((c.take hi).drop lo) ++ c.drop (max lo hi) := by
  unfold replace_all_in
  rw [show (0 : Int) = ((0 : Nat) : Int) by rfl, slice_natCast, slice_natCast]
  have : (max (lo : Int) (hi : Int)).toNat = max lo hi := by omega
  rw [this]; simp

theorem pending_zero_split (p d D : List Nat) (lo hi n : Nat) (hlohi : lo ≤ hi) (hhin : hi ≤ n) :
    pending p d D lo hi 0 = replace_all_in p d (D.take n) lo hi ++ D.drop n := by
  rw [pending_zero, replace_all_in_natCast, Nat.max_eq_right hlohi]
  simp only [List.take_take, Nat.min_eq_left (by omega : lo ≤ n), Nat.min_eq_left hhin,
    List.append_assoc]
  congr 2
  rw [List.drop_take]
  have := List.take_append_drop (n - hi) (D.drop hi)
  rw [List.drop_drop, show hi + (n - hi) = n by omega] at this
  exact this.symm

theorem replace_all_in_id (p d c : List Nat) (lo hi : Nat)
    (h : find_first p ((c.take hi).drop lo) = none) :
    replace_all_in p d c (lo : Int) (hi : Int) = c := by
  rw [replace_all_in_natCast, replace_all_none p d _ h]
  by_cases hlohi : lo ≤ hi
  · rw [Nat.max_eq_right hlohi, List.drop_take, List.append_assoc]
    have h1 := List.take_append_drop (hi - lo) (c.drop lo)
    rw [List.drop_drop, show lo + (hi - lo) = hi by omega] at h1
    rw [h1, List.take_append_drop]
  · rw [Nat.max_eq_left (by omega)]
    have : (c.take hi).drop lo = [] := List.drop_eq_nil_of_le (by rw [List.length_take]; omega)
    rw [this, List.append_nil, List.take_append_drop]

/-- The common start of the pattern replace: the resolved window and the count. -/
theorem replace_window (s : codeunit_sequence) (r : index_interval) (p : List Nat) (hs : wf s) :
    ∃ lo hi n : Nat, r.select s.size = ⟨bound.inclusive (lo : Int), bound.exclusive (hi : Int)⟩ ∧
      s.size = n ∧ lo ≤ n ∧ hi ≤ n ∧ n < s.data.length ∧
      (s.subview (r.select s.size)).count p = (count_from p 0 ((s.data.take hi).drop lo) : Nat) ∧
      s.view = s.data.take n := by
  have hmin := select_min_bounds r s.size hs.1
  have hmax := select_max_bounds r s.size hs.1
  have hseq := select_eq r s.size
  have hss := select_select r s.size hs.1
  obtain ⟨h0, h1, h2, h3⟩ := hs
  obtain ⟨lo, hlo⟩ := Int.eq_ofNat_of_zero_le hmin.1
  obtain ⟨hi, hhi⟩ := Int.eq_ofNat_of_zero_le hmax.1
  obtain ⟨n, hn⟩ := Int.eq_ofNat_of_zero_le h0
  rw [hlo, hhi] at hseq
  refine ⟨lo, hi, n, hseq, hn, by omega, by omega, by omega, ?_, by rw [view_eq, hn]; simp⟩
  unfold codeunit_sequence.subview codeunit_sequence_view.subview codeunit_sequence_view.count
  rw [view_size s h0 (by omega), hss, hseq]
  simp only [index_interval.get_inclusive_min, index_interval.get_exclusive_max]
  rw [slice_natCast, view_eq, List.take_take, Nat.min_eq_left (by omega)]

theorem is_empty_false_of_ne (p : codeunit_sequence_view) (hp : p ≠ []) :
    codeunit_sequence_view.is_empty p = false := by
  cases p with
  | nil => exact absurd rfl hp
  | cons c cs => rfl

theorem replace_no_match (junk : Nat → Nat) (fuel : Nat) (s : codeunit_sequence)
    (p d : codeunit_sequence_view) (r : index_interval)
    (h : p = [] ∨ (s.subview (r.select s.size)).count p = 0) :
    replace junk fuel s p d r = some s := by
  unfold replace
  by_cases hp : p = []
  · subst hp; rfl
  · rw [is_empty_false_of_ne p hp]
    rcases h with h | h
    · exact absurd h hp
    · simp only [Bool.false_eq_true, if_false, h, if_true]

theorem replace_equal_unfold (junk : Nat → Nat) (fuel : Nat) (s : codeunit_sequence)
    (p d : codeunit_sequence_view) (r : index_interval) (hp : p ≠ [])
    (hc : (s.subview (r.select s.size)).count p ≠ 0) (hpd : d.length = p.length) :
    replace junk fuel s p d r
      = replace_equal_loop p d (r.select s.size) fuel s (r.select s.size) := by
  unfold replace
  rw [is_empty_false_of_ne p hp]
  simp only [Bool.false_eq_true, if_false, hc, codeunit_sequence_view.size, hpd, sub_self,
    if_true]

theorem replace_shrink_unfold (junk : Nat → Nat) (fuel : Nat) (s : codeunit_sequence)
    (p d : codeunit_sequence_view) (r : index_interval) (hp : p ≠ [])
    (hc : (s.subview (r.select s.size)).count p ≠ 0) (hpd : d.length < p.length) :
    replace junk fuel s p d r
      = match (if s.index_of p (r.select s.size)
            ≤ s.size + ((d.length : Int) - p.length) * (s.subview (r.select s.size)).count p then
          replace_shrink_loop p d (r.select s.size)
            (s.size + ((d.length : Int) - p.length) * (s.subview (r.select s.size)).count p) fuel s
            (s.index_of p (r.select s.size)) 0 (s.index_of p (r.select s.size))
          else some s) with
        | none => none
        | some s1 => some (s1.set_size
            (s.size + ((d.length : Int) - p.length) * (s.subview (r.select s.size)).count p)) := by
  unfold replace
  rw [is_empty_false_of_ne p hp]
  have h1 : ¬ ((d.length : Int) - p.length = 0) := by omega
  have h2 : (d.length : Int) - p.length < 0 := by omega
  simp only [Bool.false_eq_true, if_false, hc, codeunit_sequence_view.size, h1, h2, if_true]

theorem replace_realloc_unfold (junk : Nat → Nat) (fuel : Nat) (s : codeunit_sequence)
    (p d : codeunit_sequence_view) (r : index_interval) (hp : p ≠ [])
    (hc : (s.subview (r.select s.size)).count p ≠ 0) (hpd : p.length < d.length)
    (hcap : s.get_capacity
      < s.size + ((d.length : Int) - p.length) * (s.subview (r.select s.size)).count p) :
    replace junk fuel s p d r
      = match details.get_capacity (wrap_i32
            (s.size + ((d.length : Int) - p.length) * (s.subview (r.select s.size)).count p + 1)) with
        | none => none
        | some memory_capacity =>
          match allocator.allocate_array junk memory_capacity with
          | none => none
          | some data =>
            match (if 0 ≤ s.size
                  + ((d.length : Int) - p.length) * (s.subview (r.select s.size)).count p then
                replace_realloc_loop s p d (r.select s.size)
                  (s.size + ((d.length : Int) - p.length) * (s.subview (r.select s.size)).count p)
                  fuel data 0 0 (s.index_of p (r.select s.size))
                else some data) with
            | none => none
            | some data1 => some ⟨true,
                s.size + ((d.length : Int) - p.length) * (s.subview (r.select s.size)).count p,
                memory_capacity - 1, data1⟩ := by
  unfold replace
  rw [is_empty_false_of_ne p hp]
  have h1 : ¬ ((d.length : Int) - p.length = 0) := by omega
  have h2 : ¬ ((d.length : Int) - p.length < 0) := by omega
  simp only [Bool.false_eq_true, if_false, hc, codeunit_sequence_view.size, h1, h2, hcap, if_true]

end ostr

namespace ostr

open codeunit_sequence

theorem length_replace_all_in (p d c : List Nat) (lo hi : Nat) (hp : p ≠ [])
    (hlo : lo ≤ c.length) (hhi : hi ≤ c.length) :
    ((replace_all_in p d c (lo : Int) (hi : Int)).length : Int)
      = c.length + ((d.length : Int) - p.length) * count_in p c (lo : Int) (hi : Int) := by
  rw [replace_all_in_natCast]
  unfold count_in
  rw [slice_natCast]
  simp only [List.length_append, Nat.cast_add]
  rw [length_replace_all p d hp _ _ (le_refl _)]
  simp only [List.length_take, List.length_drop]
  have : min lo c.length = lo := by omega
  have : min hi c.length = hi := by omega
  push_cast
  omega

/-- With at least one match in the window, the window is not inverted and the first
search of the replace finds the first match. -/
theorem replace_first_match (s : codeunit_sequence) (p : List Nat) (sel : index_interval)
    (lo hi n : Nat) (hp : p ≠ [])
    (hsel : sel = ⟨bound.inclusive (lo : Int), bound.exclusive (hi : Int)⟩)
    (hsz : s.size = n) (hlo : lo ≤ n) (hhi : hi ≤ n) (hnl : n < s.data.length)
    (hc : count_from p 0 ((s.data.take hi).drop lo) ≠ 0) :
    lo ≤ hi ∧ ∃ m : Nat, s.index_of p sel = (m : Int) ∧ next_match p s.data lo hi 0 = (m : Int) := by
  have hlohi : lo ≤ hi := by
    by_contra hcon
    apply hc
    have : (s.data.take hi).drop lo = [] := List.drop_eq_nil_of_le (by rw [List.length_take]; omega)
    rw [this, count_from_nil]
  refine ⟨hlohi, ?_⟩
  have hidx : s.index_of p sel = next_match p s.data lo hi 0 := by
    apply index_of_eq s p sel lo hi 0 (by omega) (by omega) (by omega)
    rw [hsel, hsz]
    simp only [index_interval.select, index_interval.from_end, index_interval.clamp]
    congr 2
    · have : ((max 0 lo : Nat) : Int) = lo := by simp
      rw [this]; split <;> omega
    · split <;> omega
  rcases next_match_cases p s.data lo hi 0 with hnone | ⟨m, hm⟩
  · exfalso
    apply hc
    rw [count_from_eq_zero p _ hp]
    unfold next_match at hnone
    simp only [Nat.zero_max] at hnone
    cases hf : find_first p ((s.data.take hi).drop lo) with
    | none => rfl
    | some j => rw [hf] at hnone; simp [index_invalid] at hnone; omega
  · exact ⟨m, by rw [hidx, hm], hm⟩

theorem mk_eta (s : codeunit_sequence) :
    codeunit_sequence.mk s.alloc s.size s.capacity s.data = s := by
  cases s; rfl

theorem replace_equal_spec (junk : Nat → Nat) (fuel : Nat) (s : codeunit_sequence)
    (p d : codeunit_sequence_view) (r : index_interval) (hs : wf s) (hp : p ≠ [])
    (hpd : d.length = p.length) (hfuel : s.size + 1 ≤ (fuel : Int)) :
    replace junk fuel s p d r
      = some (codeunit_sequence.mk s.alloc s.size s.capacity
          (replace_all_in p d s.view (r.select s.size).get_inclusive_min
            (r.select s.size).get_exclusive_max ++ s.data.drop s.size.toNat)) := by
  obtain ⟨lo, hi, n, hsel, hsz, hlo, hhi, hnl, hcnt, hview⟩ := replace_window s r p hs
  have hmine : (r.select s.size).get_inclusive_min = (lo : Int) := by rw [hsel]; rfl
  have hmaxe : (r.select s.size).get_exclusive_max = (hi : Int) := by rw [hsel]; rfl
  rw [hmine, hmaxe, hview]
  have hn : s.size.toNat = n := by omega
  rw [hn]
  by_cases hc : count_from p 0 ((s.data.take hi).drop lo) = 0
  · rw [replace_no_match junk fuel s p d r (Or.inr (by rw [hcnt, hc]; rfl))]
    have hff : find_first p (((s.data.take n).take hi).drop lo) = none := by
      rw [List.take_take, Nat.min_eq_left hhi]
      exact (count_from_eq_zero p _ hp).mp hc
    rw [replace_all_in_id p d _ lo hi hff, List.take_append_drop, mk_eta]
  · obtain ⟨hlohi, m, _, _⟩ := replace_first_match s p _ lo hi n hp hsel hsz hlo hhi hnl hc
    rw [replace_equal_unfold junk fuel s p d r hp (by rw [hcnt]; exact_mod_cast hc) hpd, hsel]
    rw [equal_loop_spec p d s.data lo hi n hp hpd hlohi hhi (by omega) fuel s _ 0 hsz rfl
      (by omega) ?_ rfl (by simp) (by omega)]
    · rw [pending_zero_split p d s.data lo hi n hlohi hhi]
    · rw [← hsel, ← hsz, select_select r s.size hs.1, hsel]
      simp

end ostr

namespace ostr

open codeunit_sequence

theorem content_of_take (data C : List Nat) (ans : Nat) (hC : C.length = ans)
    (h : data.take (ans + 1) = C ++ [0]) :
    data.take ans = C ∧ rd data (ans : Int) = 0 ∧ ans < data.length := by
  have hl : ans < data.length := by
    have := congrArg List.length h
    rw [List.length_take, List.length_append, hC] at this
    simp at this; omega
  refine ⟨?_, ?_, hl⟩
  · have : data.take ans = (data.take (ans + 1)).take ans := by
      rw [List.take_take, Nat.min_eq_left (by omega)]
    rw [this, h, ← hC, List.take_left]
  · rw [rd_natCast]
    have : data.getD ans 0 = (data.take (ans + 1)).getD ans 0 := by
      simp only [List.getD_eq_getElem?_getD]
      rw [List.getElem?_take_of_lt (by omega)]
    rw [this, h]
    simp [hC]

theorem pending_zero_take (p d D : List Nat) (lo hi n ans : Nat) (hlohi : lo ≤ hi)
    (hhin : hi ≤ n) (hnl : n < D.length) (hrd : D.getD n 0 = 0)
    (hC : (replace_all_in p d (D.take n) lo hi).length = ans) :
    (pending p d D lo hi 0).take (ans + 1) = replace_all_in p d (D.take n) lo hi ++ [0] := by
  rw [pending_zero_split p d D lo hi n hlohi hhin, ← hC, List.take_append,
    drop_cons_getD D n hnl, hrd]
  simp

/-- The facts about the reference result that the shrinking and the growing passes
share: its length and the final size computed by the replace. -/
theorem answer_size_facts (p d D : List Nat) (lo hi n : Nat) (hp : p ≠ []) (hlohi : lo ≤ hi)
    (hhin : hi ≤ n) (hnl : n < D.length) :
    ∃ ans : Nat, (replace_all_in p d (D.take n) lo hi).length = ans ∧
      (ans : Int) = n + ((d.length : Int) - p.length) * count_from p 0 ((D.take hi).drop lo) ∧
      (pending p d D lo hi 0).length = ans + (D.length - n) ∧
      count_in p (D.take n) lo hi = count_from p 0 ((D.take hi).drop lo) := by
  have hci : count_in p (D.take n) lo hi = count_from p 0 ((D.take hi).drop lo) := by
    unfold count_in
    rw [slice_natCast, List.take_take, Nat.min_eq_left hhin]
  have hl := length_replace_all_in p d (D.take n) lo hi hp
    (by rw [List.length_take]; omega) (by rw [List.length_take]; omega)
  rw [hci, List.length_take, Nat.min_eq_left (by omega)] at hl
  refine ⟨_, rfl, hl, ?_, hci⟩
  rw [pending_zero_split p d D lo hi n hlohi hhin, List.length_append, List.length_drop]

theorem replace_shrink_spec (junk : Nat → Nat) (fuel : Nat) (s : codeunit_sequence)
    (p d : codeunit_sequence_view) (r : index_interval) (hs : wf s) (hp : p ≠ [])
    (hpd : d.length < p.length) (hfuel : s.size + 1 ≤ (fuel : Int)) :
    ∃ s', replace junk fuel s p d r = some s' ∧
      s'.view = replace_all_in p d s.view (r.select s.size).get_inclusive_min
        (r.select s.size).get_exclusive_max ∧
      s'.size = s.size + ((d.length : Int) - p.length) *
        count_in p s.view (r.select s.size).get_inclusive_min
          (r.select s.size).get_exclusive_max ∧
      rd s'.data s'.size = 0 ∧ s'.get_capacity = s.get_capacity ∧ s'.alloc = s.alloc ∧
      s'.data.length = s.data.length := by
  obtain ⟨lo, hi, n, hsel, hsz, hlo, hhi, hnl, hcnt, hview⟩ := replace_window s r p hs
  have hmine : (r.select s.size).get_inclusive_min = (lo : Int) := by rw [hsel]; rfl
  have hmaxe : (r.select s.size).get_exclusive_max = (hi : Int) := by rw [hsel]; rfl
  rw [hmine, hmaxe, hview]
  have hrd0 : s.data.getD n 0 = 0 := by
    have := hs.2.2.2
    rw [hsz, rd_natCast] at this; exact this
  by_cases hc : count_from p 0 ((s.data.take hi).drop lo) = 0
  · rw [replace_no_match junk fuel s p d r (Or.inr (by rw [hcnt, hc]; rfl))]
    have hff : find_first p (((s.data.take n).take hi).drop lo) = none := by
      rw [List.take_take, Nat.min_eq_left hhi]
      exact (count_from_eq_zero p _ hp).mp hc
    have hci : count_in p (s.data.take n) lo hi = 0 := by
      unfold count_in
      rw [slice_natCast, List.take_take, Nat.min_eq_left hhi]; exact hc
    refine ⟨s, rfl, ?_, ?_, hs.2.2.2, rfl, rfl, rfl⟩
    · rw [replace_all_in_id p d _ lo hi hff, hview]
    · rw [hci]; simp
  · obtain ⟨hlohi, m, hidx, hnm⟩ := replace_first_match s p _ lo hi n hp hsel hsz hlo hhi hnl hc
    obtain ⟨ans, hC, hans, hF, hci⟩ := answer_size_facts p d s.data lo hi n hp hlohi hhi hnl
    have hb := next_match_bounds p s.data lo hi 0 m hp hnm
    obtain ⟨e1, e2⟩ := pending_to_match p d s.data lo hi hp hlohi (by omega) m 0 m (by omega) hnm
    have hp0 : 0 < p.length := List.length_pos.mpr hp
    have htake : s.data.take m ++ pending p d s.data lo hi m = pending p d s.data lo hi 0 := by
      rw [e1]; simp
    have hma : m ≤ ans := by
      have h1 := congrArg List.length htake
      rw [List.length_append, List.length_take, hF] at h1
      have h2 := length_pending_ge p d s.data lo hi m
      omega
    have hans' : s.size + ((d.length : Int) - p.length) * (s.subview (r.select s.size)).count p
        = (ans : Int) := by
      rw [hcnt, hans, hsz]
    rw [replace_shrink_unfold junk fuel s p d r hp (by rw [hcnt]; exact_mod_cast hc) hpd, hans',
      hidx, if_pos (by exact_mod_cast hma), hsel]
    obtain ⟨s1, g1, g2, g3, g4, g5, g6⟩ := shrink_loop_spec p d s.data lo hi n ans hp hpd hlohi
      hhi hnl hF fuel s m m 0 (m : Int) hsz rfl (le_refl _) (by omega) hma (by ring) e2.symm rfl
      htake (by omega)
    rw [g1]
    rw [pending_zero_take p d s.data lo hi n ans hlohi hhi hnl hrd0 hC] at g6
    obtain ⟨c1, c2, c3⟩ := content_of_take s1.data _ ans hC g6
    have hg : s1.get_capacity = s.get_capacity := by
      simp [codeunit_sequence.get_capacity, codeunit_sequence.is_short, g2, g4]
    have hale : (ans : Int) ≤ s.get_capacity := by
      have := hs.2.1
      have hcn : (0 : Int) ≤ count_from p 0 ((s.data.take hi).drop lo) := by positivity
      have : ((d.length : Int) - p.length) * count_from p 0 ((s.data.take hi).drop lo) ≤ 0 :=
        mul_nonpos_of_nonpos_of_nonneg (by omega) hcn
      omega
    have esz : (s1.set_size (ans : Int)).size = ans :=
      set_size_size s1 _ (by omega) (by rw [hg]; exact hale)
    refine ⟨_, rfl, ?_, ?_, ?_, ?_, ?_, ?_⟩
    · rw [view_eq, esz, set_size_data]; simpa using c1
    · rw [esz, hans, hci, hsz]
    · rw [esz, set_size_data]; exact c2
    · rw [set_size_get_capacity, hg]
    · rw [set_size_alloc, g2]
    · rw [set_size_data, g5]

end ostr

namespace ostr

open codeunit_sequence

theorem replace_realloc_spec (junk : Nat → Nat) (fuel : Nat) (s : codeunit_sequence)
    (p d : codeunit_sequence_view) (r : index_interval) (hs : wf s) (hp : p ≠ [])
    (hpd : p.length < d.length)
    (hcap : s.get_capacity < s.size + ((d.length : Int) - p.length) *
      count_in p s.view (r.select s.size).get_inclusive_min (r.select s.size).get_exclusive_max)
    (hbound : s.size + ((d.length : Int) - p.length) *
      count_in p s.view (r.select s.size).get_inclusive_min (r.select s.size).get_exclusive_max
        + 1 < 1073741824)
    (hfuel : s.size + 1 ≤ (fuel : Int)) :
    ∃ (s' : codeunit_sequence) (m : Int), replace junk fuel s p d r = some s' ∧
      s'.alloc = true ∧
      s'.view = replace_all_in p d s.view (r.select s.size).get_inclusive_min
        (r.select s.size).get_exclusive_max ∧
      s'.size = s.size + ((d.length : Int) - p.length) *
        count_in p s.view (r.select s.size).get_inclusive_min
          (r.select s.size).get_exclusive_max ∧
      rd s'.data s'.size = 0 ∧ is_next_power_of_two m (s'.size + 1) ∧
      s'.get_capacity = m - 1 ∧ (s'.data.length : Int) = m := by
  obtain ⟨lo, hi, n, hsel, hsz, hlo, hhi, hnl, hcnt, hview⟩ := replace_window s r p hs
  have hmine : (r.select s.size).get_inclusive_min = (lo : Int) := by rw [hsel]; rfl
  have hmaxe : (r.select s.size).get_exclusive_max = (hi : Int) := by rw [hsel]; rfl
  rw [hmine, hmaxe, hview] at hcap hbound ⊢
  have hrd0 : s.data.getD n 0 = 0 := by
    have := hs.2.2.2
    rw [hsz, rd_natCast] at this; exact this
  have hci0 : count_in p (s.data.take n) lo hi = count_from p 0 ((s.data.take hi).drop lo) := by
    unfold count_in
    rw [slice_natCast, List.take_take, Nat.min_eq_left hhi]
  have hc : count_from p 0 ((s.data.take hi).drop lo) ≠ 0 := by
    intro hc
    rw [hci0, hc] at hcap
    have := hs.2.1
    simp at hcap; omega
  obtain ⟨hlohi, m0, hidx, hnm⟩ := replace_first_match s p _ lo hi n hp hsel hsz hlo hhi hnl hc
  obtain ⟨ans, hC, hans, hF, hci⟩ := answer_size_facts p d s.data lo hi n hp hlohi hhi hnl
  have hans' : s.size + ((d.length : Int) - p.length) * (s.subview (r.select s.size)).count p
      = (ans : Int) := by
    rw [hcnt, hans, hsz]
  have hans2 : s.size + ((d.length : Int) - p.length) * (count_in p (s.data.take n) lo hi : Nat)
      = (ans : Int) := by
    rw [hci, hans, hsz]
  rw [hans2] at hcap hbound ⊢
  obtain ⟨m, hm, hnp, _⟩ := get_capacity_spec ((ans : Int) + 1) (by omega) hbound
  have hmn : (ans : Int) + 1 ≤ m := hnp.2.1
  obtain ⟨fresh, hfr, hfl⟩ := allocate_array_some junk m (by omega)
  obtain ⟨data1, g1, g2, g3⟩ := realloc_loop_spec s p d lo hi n ans m.toNat hp hlohi hhi hnl hsz
    hF (by omega) fuel fresh 0 0 0 (m0 : Int) (by omega) (by omega) (by omega) (by simp) hnm.symm
    (by simp) (by omega)
  rw [pending_zero_take p d s.data lo hi n ans hlohi hhi hnl hrd0 hC] at g3
  obtain ⟨c1, c2, c3⟩ := content_of_take data1 _ ans hC g3
  refine ⟨⟨true, ans, m - 1, data1⟩, m, ?_, rfl, ?_, rfl, c2, hnp, rfl, by simp only; omega⟩
  · rw [replace_realloc_unfold junk fuel s p d r hp (by rw [hcnt]; exact_mod_cast hc) hpd
      (by rw [hans']; exact hcap), hans', wrap_i32_small _ (by omega) (by omega), hm]
    simp only [hfr]
    rw [if_pos (by omega), hidx, hsel]
    simp only [Nat.cast_zero] at g1
    rw [g1]
  · rw [view_eq]; simpa using c1

end ostr

namespace ostr

open codeunit_sequence

theorem replace_realloc_none (junk : Nat → Nat) (fuel : Nat) (s : codeunit_sequence)
    (p d : codeunit_sequence_view) (r : index_interval) (hp : p ≠ [])
    (hc : (s.subview (r.select s.size)).count p ≠ 0) (hpd : p.length < d.length)
    (hcap : s.get_capacity
      < s.size + ((d.length : Int) - p.length) * (s.subview (r.select s.size)).count p)
    (m : Int)
    (hm : details.get_capacity (wrap_i32
      (s.size + ((d.length : Int) - p.length) * (s.subview (r.select s.size)).count p + 1))
        = some m)
    (hneg : m < 0) : replace junk fuel s p d r = none := by
  rw [replace_realloc_unfold junk fuel s p d r hp hc hpd hcap, hm]
  simp only [allocator.allocate_array, hneg, if_true]

end ostr

/-! ## Claims: the pattern replace, the range splice, `subsequence` -/

namespace ostr

open codeunit_sequence

/-- C2: on `"aaa"` (inline, capacity 15) `replace("aa", "bbb")` takes the in-place
backward branch and yields `"abbb"`, the rightmost occurrence replaced, while the
reference replace-all (the occurrence that `count` counted) is `"bbba"`; the same
fifteen `'a'` give `"bbb"` seven times then `"a"` through the re-allocating branch
and `"a"` then `"bbb"` seven times in place.  The example of the spec, `"aba"` with
`"a" -> "aa"`, gives `"aabaa"`. -/
theorem C2_replace_in_place_rightmost_first :
    (replace junk_cd 8 (inline_of [97, 98, 97]) [97] [97, 97] all_range).map
        codeunit_sequence.view = some [97, 97, 98, 97, 97] ∧
      wf ex_aaa ∧
      replace junk_cd 8 ex_aaa [97, 97] [98, 98, 98] all_range
        = some ⟨false, 4, 0, [97, 98, 98, 98, 0, 0, 0, 0, 0, 0, 0, 0, 0, 0, 0, 0]⟩ ∧
      replace_all_in [97, 97] [98, 98, 98] ex_aaa.view 0 3 = [98, 98, 98, 97] ∧
      wf ex_a15_inline ∧ wf ex_a15_heap ∧ ex_a15_inline.view = ex_a15_heap.view ∧
      (replace junk_cd 40 ex_a15_inline [97, 97] [98, 98, 98] all_range).map
          codeunit_sequence.view
        = some (List.replicate 21 98 ++ [97]) ∧
      (replace junk_cd 40 ex_a15_heap [97, 97] [98, 98, 98] all_range).map
          codeunit_sequence.view
        = some (97 :: List.replicate 21 98) := by
  decide

/-- C3 (as stated, refuted): on the one-byte sequence `"a"`, replacing `"a"` by a
view of `2^30` bytes needs a re-allocation for the final size `2^30`; the replace
produces no sequence, so the result is not the reference replace-all in a buffer
of capacity `next_power_of_two(answer_size + 1) - 1`. -/
theorem C3_replace_realloc_counterexample :
    wf (inline_of [97]) ∧
      replace junk_cd 8 (inline_of [97]) [97] (List.replicate 1073741824 0) all_range = none := by
  refine ⟨by decide, ?_⟩
  apply replace_realloc_none junk_cd 8 (inline_of [97]) [97] (List.replicate 1073741824 0)
    all_range (by decide) (by decide) (by rw [List.length_replicate]; decide)
    (by rw [List.length_replicate]; decide) (-2147483648)
  · rw [List.length_replicate]; decide
  · decide

/-- C3 (amended): for every null-terminated sequence `s`, non-empty pattern `p`,
longer replacement `d` and range `r` with `get_capacity() < answer_size` and
`answer_size + 1 < 2^30`, `replace(p, d, r)` returns (with fuel above the size) and
leaves `s` in heap mode holding exactly the reference replace-all of the window,
with `size = answer_size`, a terminator at index `size` and
`capacity = next_power_of_two(answer_size + 1) - 1`. -/
theorem C3_replace_realloc (junk : Nat → Nat) (fuel : Nat) (s : codeunit_sequence)
    (p d : codeunit_sequence_view) (r : index_interval) (hs : wf s) (hp : p ≠ [])
    (hpd : p.length < d.length)
    (hcap : s.get_capacity < s.size + ((d.length : Int) - p.length) *
      count_in p s.view (r.select s.size).get_inclusive_min (r.select s.size).get_exclusive_max)
    (hbound : s.size + ((d.length : Int) - p.length) *
      count_in p s.view (r.select s.size).get_inclusive_min (r.select s.size).get_exclusive_max
        + 1 < 1073741824)
    (hfuel : s.size + 1 ≤ (fuel : Int)) :
    ∃ (s' : codeunit_sequence) (m : Int), replace junk fuel s p d r = some s' ∧
      s'.alloc = true ∧
      s'.view = replace_all_in p d s.view (r.select s.size).get_inclusive_min
        (r.select s.size).get_exclusive_max ∧
      s'.size = s.size + ((d.length : Int) - p.length) *
        count_in p s.view (r.select s.size).get_inclusive_min
          (r.select s.size).get_exclusive_max ∧
      rd s'.data s'.size = 0 ∧ is_next_power_of_two m (s'.size + 1) ∧
      s'.get_capacity = m - 1 := by
  obtain ⟨s', m, h1, h2, h3, h4, h5, h6, h7, _⟩ :=
    replace_realloc_spec junk fuel s p d r hs hp hpd hcap hbound hfuel
  exact ⟨s', m, h1, h2, h3, h4, h5, h6, h7⟩

/-- C3 (amended) at the 14-byte `"xaaaxxxxxxxxxx"` with `"aa" -> "bbbbb"`: the final
size 17 exceeds the inline capacity. -/
theorem C3_replace_realloc_witness :
    wf ex_xaaa ∧ ([97, 97] : List Nat) ≠ [] ∧
      ([97, 97] : List Nat).length < ([98, 98, 98, 98, 98] : List Nat).length ∧
      ex_xaaa.get_capacity < ex_xaaa.size
        + ((([98, 98, 98, 98, 98] : List Nat).length : Int) - ([97, 97] : List Nat).length) *
          count_in [97, 97] ex_xaaa.view (all_range.select ex_xaaa.size).get_inclusive_min
            (all_range.select ex_xaaa.size).get_exclusive_max ∧
      ex_xaaa.size
        + ((([98, 98, 98, 98, 98] : List Nat).length : Int) - ([97, 97] : List Nat).length) *
          count_in [97, 97] ex_xaaa.view (all_range.select ex_xaaa.size).get_inclusive_min
            (all_range.select ex_xaaa.size).get_exclusive_max + 1 < 1073741824 ∧
      ex_xaaa.size + 1 ≤ ((15 : Nat) : Int) ∧
      ∃ (s' : codeunit_sequence) (m : Int),
        replace junk_cd 15 ex_xaaa [97, 97] [98, 98, 98, 98, 98] all_range = some s' ∧
        s'.alloc = true ∧
        s'.view = replace_all_in [97, 97] [98, 98, 98, 98, 98] ex_xaaa.view
          (all_range.select ex_xaaa.size).get_inclusive_min
          (all_range.select ex_xaaa.size).get_exclusive_max ∧
        s'.size = ex_xaaa.size
          + ((([98, 98, 98, 98, 98] : List Nat).length : Int) - ([97, 97] : List Nat).length) *
            count_in [97, 97] ex_xaaa.view (all_range.select ex_xaaa.size).get_inclusive_min
              (all_range.select ex_xaaa.size).get_exclusive_max ∧
        rd s'.data s'.size = 0 ∧ is_next_power_of_two m (s'.size + 1) ∧
        s'.get_capacity = m - 1 :=
  ⟨by decide, by decide, by decide, by decide, by decide, by decide,
    C3_replace_realloc junk_cd 15 ex_xaaa [97, 97] [98, 98, 98, 98, 98] all_range (by decide)
      (by decide) (by decide) (by decide) (by decide) (by decide)⟩

/-- The equal-length replace with a pattern and a replacement whose bytes lie outside
the buffer: with fuel above the size it returns; the buffer then holds the reference
replace-all of the window followed by the bytes it held from index `size` on; size,
capacity and representation are unchanged. -/
theorem replace_equal_content (junk : Nat → Nat) (fuel : Nat) (s : codeunit_sequence)
    (p d : codeunit_sequence_view) (r : index_interval) (hs : wf s) (hp : p ≠ [])
    (hpd : d.length = p.length) (hfuel : s.size + 1 ≤ (fuel : Int)) :
    ∃ s', replace junk fuel s p d r = some s' ∧
      s'.data = replace_all_in p d s.view (r.select s.size).get_inclusive_min
        (r.select s.size).get_exclusive_max ++ s.data.drop s.size.toNat ∧
      s'.view = replace_all_in p d s.view (r.select s.size).get_inclusive_min
        (r.select s.size).get_exclusive_max ∧
      s'.size = s.size ∧ s'.capacity = s.capacity ∧ s'.alloc = s.alloc ∧
      s'.get_capacity = s.get_capacity := by
  refine ⟨_, replace_equal_spec junk fuel s p d r hs hp hpd hfuel, rfl, ?_, rfl, rfl, rfl, rfl⟩
  have hmin := select_min_bounds r s.size hs.1
  have hmax := select_max_bounds r s.size hs.1
  have hv := length_view s hs
  obtain ⟨lo, hlo⟩ := Int.eq_ofNat_of_zero_le hmin.1
  obtain ⟨hi, hhi⟩ := Int.eq_ofNat_of_zero_le hmax.1
  rw [hlo, hhi]
  have hl := length_replace_all_in p d s.view lo hi hp (by omega) (by omega)
  rw [hpd, sub_self, zero_mul, add_zero] at hl
  rw [view_eq (codeunit_sequence.mk _ _ _ _)]
  simp only
  have e : s.size.toNat = (replace_all_in p d s.view (lo : Int) (hi : Int)).length := by omega
  rw [e, List.take_left]

/-- C5: for every sequence `s`, replacement `d` and range `r`, if the pattern is
empty or does not occur inside the window `r.select(size)` of the content, then
`replace(pattern, d, r)` returns `s` itself: content, size, capacity and
representation are unchanged (whatever the fuel). -/
theorem C5_replace_noop (junk : Nat → Nat) (fuel : Nat) (s : codeunit_sequence)
    (p d : codeunit_sequence_view) (r : index_interval) (hs : wf s)
    (h : p = [] ∨ ¬ p <:+: slice s.view (r.select s.size).get_inclusive_min
      (r.select s.size).get_exclusive_max) :
    replace junk fuel s p d r = some s := by
  apply replace_no_match
  rcases h with h | h
  · exact Or.inl h
  · by_cases hp : p = []
    · exact Or.inl hp
    · right
      obtain ⟨lo, hi, n, hsel, hsz, hlo, hhi, hnl, hcnt, hview⟩ := replace_window s r p hs
      have hmine : (r.select s.size).get_inclusive_min = (lo : Int) := by rw [hsel]; rfl
      have hmaxe : (r.select s.size).get_exclusive_max = (hi : Int) := by rw [hsel]; rfl
      rw [hmine, hmaxe, hview, slice_natCast, List.take_take, Nat.min_eq_left hhi] at h
      rw [hcnt]
      have := (count_from_eq_zero p _ hp).mpr ((find_first_none_iff p _ hp).mpr h)
      rw [this]; rfl

/-- C5 at `"abc"` with the absent pattern `"x"`. -/
theorem C5_replace_noop_witness :
    wf ex_abc ∧
      (([120] : List Nat) = [] ∨ ¬ ([120] : List Nat) <:+: slice ex_abc.view
        (all_range.select ex_abc.size).get_inclusive_min
        (all_range.select ex_abc.size).get_exclusive_max) ∧
      replace junk_cd 0 ex_abc [120] [121, 122] all_range = some ex_abc :=
  ⟨by decide, by decide,
    C5_replace_noop junk_cd 0 ex_abc [120] [121, 122] all_range (by decide) (by decide)⟩

/-- C7 (amended): for every null-terminated sequence `s` with content `c` and every
range `r` with resolved selection `[min, max)`: after `subsequence(r)` the content
is `c[min..max)` (empty when `min ≥ max`), the size is `max(0, max - min)`, index
`size` holds the terminator, capacity, representation and buffer length are as
before (no re-allocation), and `s` is untouched when `[min, max) = [0, size)`. -/
theorem C7_subsequence (s : codeunit_sequence) (r : index_interval) (hs : wf s) :
    (s.subsequence r).view =
        slice s.view (r.select s.size).get_inclusive_min (r.select s.size).get_exclusive_max ∧
      (s.subsequence r).size =
        max 0 ((r.select s.size).get_exclusive_max - (r.select s.size).get_inclusive_min) ∧
      rd (s.subsequence r).data (s.subsequence r).size = 0 ∧
      (s.subsequence r).get_capacity = s.get_capacity ∧
      (s.subsequence r).alloc = s.alloc ∧
      (s.subsequence r).data.length = s.data.length ∧
      ((r.select s.size).get_inclusive_min = 0 → (r.select s.size).get_exclusive_max = s.size →
        s.subsequence r = s) := by
  obtain ⟨h1, h2, h3, h4, h5, h6⟩ := subsequence_spec s r hs
  exact ⟨h1, h2, h3, h4, h5, h6, subsequence_full s r hs⟩

/-- C7 (amended) at the 14-byte sequence and the range `[2, 5)`: the content becomes
`"234"`. -/
theorem C7_subsequence_witness :
    wf ex_14 ∧ (ex_14.subsequence range_2_5).view = [50, 51, 52] ∧
      ((ex_14.subsequence range_2_5).view =
          slice ex_14.view (range_2_5.select ex_14.size).get_inclusive_min
            (range_2_5.select ex_14.size).get_exclusive_max ∧
        (ex_14.subsequence range_2_5).size =
          max 0 ((range_2_5.select ex_14.size).get_exclusive_max
            - (range_2_5.select ex_14.size).get_inclusive_min) ∧
        rd (ex_14.subsequence range_2_5).data (ex_14.subsequence range_2_5).size = 0 ∧
        (ex_14.subsequence range_2_5).get_capacity = ex_14.get_capacity ∧
        (ex_14.subsequence range_2_5).alloc = ex_14.alloc ∧
        (ex_14.subsequence range_2_5).data.length = ex_14.data.length ∧
        ((range_2_5.select ex_14.size).get_inclusive_min = 0 →
          (range_2_5.select ex_14.size).get_exclusive_max = ex_14.size →
          ex_14.subsequence range_2_5 = ex_14)) :=
  ⟨by decide, by decide, C7_subsequence ex_14 range_2_5 (by decide)⟩

end ostr

/-! ## `write_at`, `operator[]` and `reverse` -/

namespace ostr

open codeunit_sequence

theorem rd_wr (buf : List Nat) (i j : Int) (c : Nat) (h0 : 0 ≤ i) (h : i < buf.length) :
    rd (wr buf i c) j = if j = i then c else rd buf j := by
  by_cases hj : j = i
  · subst hj; rw [if_pos rfl]; exact rd_wr_same buf j c h0 h
  · rw [if_neg hj]
    unfold rd wr
    rw [if_pos h0]
    by_cases hj0 : 0 ≤ j
    · rw [if_pos hj0, if_pos hj0]
      simp only [List.getD_eq_getElem?_getD]
      rw [List.getElem?_set_ne (by omega)]
    · rw [if_neg hj0, if_neg hj0]

theorem write_at_spec (s : codeunit_sequence) (i : Int) (c : Nat) (hs : wf s)
    (h1 : -s.size ≤ i) (h2 : i < s.size) :
    rd (s.write_at i c).data (if i ≥ 0 then i else i + s.size) = c ∧
      (∀ j : Int, j ≠ (if i ≥ 0 then i else i + s.size) →
        rd (s.write_at i c).data j = rd s.data j) ∧
      (s.write_at i c).size = s.size ∧ (s.write_at i c).get_capacity = s.get_capacity ∧
      (s.write_at i c).alloc = s.alloc ∧
      (s.write_at i c).operator_index_pos i = (if i ≥ 0 then i else i + s.size) ∧
      (s.write_at i c).operator_index i = c := by
  obtain ⟨h0, hcap, hlen, _⟩ := hs
  have hpos : i + (if i ≥ 0 then 0 else s.size) = (if i ≥ 0 then i else i + s.size) := by
    split <;> simp
  have hb0 : 0 ≤ (if i ≥ 0 then i else i + s.size) := by split <;> omega
  have hb1 : (if i ≥ 0 then i else i + s.size) < s.data.length := by split <;> omega
  have hd : (s.write_at i c).data = wr s.data (if i ≥ 0 then i else i + s.size) c := by
    unfold codeunit_sequence.write_at; rw [hpos]
  have hp : (s.write_at i c).operator_index_pos i = (if i ≥ 0 then i else i + s.size) := by
    unfold codeunit_sequence.operator_index_pos
    exact hpos
  refine ⟨?_, ?_, rfl, rfl, rfl, hp, ?_⟩
  · rw [hd]; exact rd_wr_same _ _ _ hb0 hb1
  · intro j hj
    rw [hd, rd_wr _ _ _ _ hb0 hb1, if_neg hj]
  · unfold codeunit_sequence.operator_index
    rw [hp, hd]; exact rd_wr_same _ _ _ hb0 hb1

end ostr
namespace ostr
open codeunit_sequence

theorem length_reverse_loop (sel : index_interval) (k : Nat) (data : List Nat) (i : Int) :
    (reverse_loop sel k data i).length = data.length := by
  induction k generalizing data i with
  | zero => rfl
  | succ k ih => rw [reverse_loop, ih, length_wr, length_wr]

theorem reverse_loop_rd (sel : index_interval) (lo hi : Int)
    (hmin : sel.get_inclusive_min = lo) (hmax : sel.get_inclusive_max = hi - 1)
    (k : Nat) (data : List Nat) (i : Int) (h0 : 0 ≤ lo) (hi0 : 0 ≤ i)
    (hb : lo + 2 * (i + k) ≤ hi) (hl : hi ≤ data.length) (x : Int) :
    rd (reverse_loop sel k data i) x
      = if (lo + i ≤ x ∧ x < lo + i + k) ∨ (hi - i - k ≤ x ∧ x < hi - i) then
          rd data (lo + hi - 1 - x)
        else rd data x := by
  induction k generalizing data i with
  | zero =>
    rw [reverse_loop, if_neg]
    push_cast; omega
  | succ k ih =>
    rw [reverse_loop, hmin, hmax]
    rw [ih _ (i + 1) (by omega) (by push_cast at hb ⊢; omega)
      (by rw [length_wr, length_wr]; exact hl)]
    have hf : lo + i < data.length := by push_cast at hb; omega
    have hbk : hi - 1 - i < data.length := by omega
    have hbk0 : 0 ≤ hi - 1 - i := by push_cast at hb; omega
    rw [rd_wr _ _ _ _ hbk0 (by rw [length_wr]; exact hbk), rd_wr _ _ _ _ (by omega) hf,
      rd_wr _ _ _ _ hbk0 (by rw [length_wr]; exact hbk), rd_wr _ _ _ _ (by omega) hf]
    push_cast at hb ⊢
    split_ifs <;> first | rfl | (congr 1; omega)

theorem list_ext_rd (a b : List Nat) (hl : a.length = b.length)
    (h : ∀ x : Int, rd a x = rd b x) : a = b := by
  apply List.ext_getElem hl
  intro n h1 h2
  have := h (n : Int)
  rw [rd_natCast, rd_natCast, List.getD_eq_getElem _ _ h1, List.getD_eq_getElem _ _ h2] at this
  exact this

theorem eq_of_fields (a b : codeunit_sequence) (h1 : a.alloc = b.alloc) (h2 : a.size = b.size)
    (h3 : a.capacity = b.capacity) (h4 : a.data = b.data) : a = b := by
  cases a; cases b; simp_all

theorem reverse_rd (s : codeunit_sequence) (r : index_interval) (h0 : 0 ≤ s.size)
    (hl : s.size ≤ s.data.length) (x : Int) :
    rd (s.reverse r).data x
      = if (r.select s.size).get_inclusive_min ≤ x ∧ x < (r.select s.size).get_exclusive_max then
          rd s.data ((r.select s.size).get_inclusive_min + (r.select s.size).get_exclusive_max
            - 1 - x)
        else rd s.data x := by
  have hmin := select_min_bounds r s.size h0
  have hmax := select_max_bounds r s.size h0
  have hseq := select_eq r s.size
  generalize (r.select s.size).get_inclusive_min = lo at hmin hseq ⊢
  generalize (r.select s.size).get_exclusive_max = hi at hmax hseq ⊢
  unfold codeunit_sequence.reverse
  simp only [hseq]
  by_cases he : hi ≤ lo
  · have hsz : (index_interval.mk (bound.inclusive lo) (bound.exclusive hi)).size = 0 := by
      unfold index_interval.size
      rw [if_pos ((is_empty_iff (index_interval.mk (bound.inclusive lo) (bound.exclusive hi))).mpr
        he)]
    rw [hsz, if_neg (by omega)]
    rfl
  · have hsz : (index_interval.mk (bound.inclusive lo) (bound.exclusive hi)).size = hi - lo := by
      unfold index_interval.size
      rw [if_neg (by rw [is_empty_iff]; exact he)]
      rfl
    rw [hsz]
    have hk : (((hi - lo) / 2).toNat : Int) = (hi - lo) / 2 := by omega
    rw [reverse_loop_rd (index_interval.mk (bound.inclusive lo) (bound.exclusive hi)) lo hi rfl
      rfl _ _ 0 (by omega) (le_refl 0) (by omega) (by omega) x]
    rw [hk]
    split_ifs <;> first | rfl | (congr 1; omega)

theorem reverse_fields (s : codeunit_sequence) (r : index_interval) :
    (s.reverse r).size = s.size ∧ (s.reverse r).capacity = s.capacity ∧
      (s.reverse r).alloc = s.alloc ∧ (s.reverse r).get_capacity = s.get_capacity ∧
      (s.reverse r).data.length = s.data.length := by
  refine ⟨rfl, rfl, rfl, rfl, ?_⟩
  unfold codeunit_sequence.reverse
  exact length_reverse_loop _ _ _ _

theorem reverse_reverse (s : codeunit_sequence) (r : index_interval) (h0 : 0 ≤ s.size)
    (hl : s.size ≤ s.data.length) : (s.reverse r).reverse r = s := by
  obtain ⟨f1, f2, f3, _, f5⟩ := reverse_fields s r
  obtain ⟨g1, g2, g3, _, g5⟩ := reverse_fields (s.reverse r) r
  have hd : ((s.reverse r).reverse r).data = s.data := by
    apply list_ext_rd _ _ (by rw [g5, f5])
    intro x
    rw [reverse_rd (s.reverse r) r (by rw [f1]; exact h0) (by rw [f1, f5]; exact hl) x, f1]
    split_ifs with hx
    · rw [reverse_rd s r h0 hl, if_pos (by omega)]
      congr 1; omega
    · rw [reverse_rd s r h0 hl, if_neg hx]
  exact eq_of_fields _ _ (by rw [g3, f3]) (by rw [g1, f1]) (by rw [g2, f2]) hd

end ostr

/-! ## Claims on `write_at`, `reverse`, `details::get_capacity` and the terminator -/

namespace ostr

open codeunit_sequence

/-- C19: for a sequence of size `n > 0` that satisfies the data-model invariants, an
index `i` with `-n ≤ i < n` and a byte `c`, `write_at(i, c)` sets the byte at position
`i` (when `i ≥ 0`) or `i + n` (when `i < 0`) to `c`, leaves every other byte of the
buffer, the size, the capacity and the representation unchanged, and the non-const
`operator[](i)` afterwards designates that same position and reads `c`. -/
theorem C19_write_at (s : codeunit_sequence) (i : Int) (c : Nat) (hs : wf s)
    (_hn : 0 < s.size) (h1 : -s.size ≤ i) (h2 : i < s.size) :
    rd (s.write_at i c).data (if i ≥ 0 then i else i + s.size) = c ∧
      (∀ j : Int, j ≠ (if i ≥ 0 then i else i + s.size) →
        rd (s.write_at i c).data j = rd s.data j) ∧
      (s.write_at i c).size = s.size ∧ (s.write_at i c).get_capacity = s.get_capacity ∧
      (s.write_at i c).alloc = s.alloc ∧
      (s.write_at i c).operator_index_pos i = (if i ≥ 0 then i else i + s.size) ∧
      (s.write_at i c).operator_index i = c :=
  write_at_spec s i c hs h1 h2

/-- C19, instance: on `"abc"` the index `-1` addresses the last byte, `write_at(-1, 'z')`
gives `"abz"`. -/
theorem C19_write_at_witness :
    wf ex_abc ∧ (ex_abc.write_at (-1) 122).view = [97, 98, 122] ∧
      (ex_abc.write_at (-1) 122).operator_index_pos (-1) = 2 ∧
      (ex_abc.write_at (-1) 122).operator_index (-1) = 122 :=
  ⟨by decide, by decide,
    by
      have h := (C19_write_at ex_abc (-1) 122 (by decide) (by decide) (by decide)
        (by decide)).2.2.2.2.2.1
      simpa using h,
    (C19_write_at ex_abc (-1) 122 (by decide) (by decide) (by decide) (by decide)).2.2.2.2.2.2⟩

/-- C14: for a sequence that satisfies the data-model invariants and a range whose
resolved selection is `[min, max)`, after `reverse(range)` the byte at `min + i` is the
old byte at `max - 1 - i` for every `0 ≤ i < max - min`, every byte outside
`[min, max)` is unchanged, so are the size, the capacity and the representation, and a
second `reverse(range)` gives back the sequence. -/
theorem C14_reverse (s : codeunit_sequence) (r : index_interval) (hs : wf s) :
    (∀ i : Int, 0 ≤ i →
        i < (r.select s.size).get_exclusive_max - (r.select s.size).get_inclusive_min →
        rd (s.reverse r).data ((r.select s.size).get_inclusive_min + i)
          = rd s.data ((r.select s.size).get_exclusive_max - 1 - i)) ∧
      (∀ x : Int, ¬ ((r.select s.size).get_inclusive_min ≤ x ∧
          x < (r.select s.size).get_exclusive_max) →
        rd (s.reverse r).data x = rd s.data x) ∧
      (s.reverse r).size = s.size ∧ (s.reverse r).get_capacity = s.get_capacity ∧
      (s.reverse r).alloc = s.alloc ∧
      (s.reverse r).reverse r = s := by
  obtain ⟨h0, hcap, hlen, _⟩ := hs
  have hl : s.size ≤ s.data.length := by omega
  obtain ⟨f1, _, f3, f4, _⟩ := reverse_fields s r
  refine ⟨?_, ?_, f1, f4, f3, reverse_reverse s r h0 hl⟩
  · intro i hi0 hi1
    rw [reverse_rd s r h0 hl, if_pos ⟨by omega, by omega⟩]
    congr 1; omega
  · intro x hx
    rw [reverse_rd s r h0 hl, if_neg hx]

/-- C14, instance: `"0123456789abcd"` reversed over `[2, 5)` is `"0143256789abcd"`, and
reversed again it is the original. -/
theorem C14_reverse_witness :
    wf ex_14 ∧ (ex_14.reverse range_2_5).view
        = [48, 49, 52, 51, 50, 53, 54, 55, 56, 57, 97, 98, 99, 100] ∧
      (ex_14.reverse range_2_5).reverse range_2_5 = ex_14 :=
  ⟨by decide, by decide, (C14_reverse ex_14 range_2_5 (by decide)).2.2.2.2.2⟩

/-- C20: at `v = 2^30`, which the claim covers, the loop of `details::get_capacity`
ends with `bit_pos = 31`, `1 << 31` and `v << 1` both wrap to `-2^31`, and the function
returns `-2^30` instead of `2^30`; one below the boundary, at `v = 2^30 - 1`, and one
above the previous power of two, at `v = 2^29 + 1`, it returns `2^30`. -/
theorem C20_get_capacity_at_boundary :
    details.get_capacity_loop 33 1073741824 0 = some 31 ∧
      wrap_i32 (2 ^ 31) = -2147483648 ∧ wrap_i32 (1073741824 * 2) = -2147483648 ∧
      details.get_capacity 1073741824 = some (-1073741824) ∧
      details.get_capacity 1073741823 = some 1073741824 ∧
      details.get_capacity 536870913 = some 1073741824 ∧
      details.get_capacity 536870912 = some 536870912 := by
  decide

/-- C17: the constructor from a size above 15 allocates the heap buffer and writes
nothing into it, and `reserve` beyond the capacity copies the `size` content bytes
into the new buffer and not the terminator: in both results the byte at index `size()`
is whatever the allocated storage held (`junk`), here `0xCD`.  The sibling `empty(size)`
does write the terminator into its new buffer. -/
theorem C17_terminator_not_written (junk : Nat → Nat) :
    (∃ s, ctor_i32 junk 16 = some s ∧ s.alloc = true ∧ s.size = 0 ∧
        rd s.data s.size = junk 0) ∧
      (∃ s, reserve junk ex_abc 16 = some s ∧ s.alloc = true ∧ s.size = 3 ∧
        s.view = [97, 98, 99] ∧ rd s.data s.size = junk 3) ∧
      (∃ s, ctor_i32 junk_cd 16 = some s ∧ rd s.data s.size = 205) ∧
      (∃ s, reserve junk_cd ex_abc 16 = some s ∧ rd s.data s.size = 205) ∧
      wf ex_abc ∧
      (∃ s, empty_size junk ex_abc 16 = some s ∧ s.alloc = true ∧ rd s.data s.size = 0) :=
  ⟨⟨_, rfl, rfl, rfl, rfl⟩, ⟨_, rfl, rfl, rfl, rfl, rfl⟩, ⟨_, rfl, rfl⟩, ⟨_, rfl, rfl⟩,
    by decide, ⟨_, rfl, rfl, rfl⟩⟩

end ostr

/-! ## `self_trim_start`, `self_trim_end`, `self_trim` -/

namespace ostr

open codeunit_sequence

theorem subsequence_wf (s : codeunit_sequence) (r : index_interval) (hs : wf s) :
    wf (s.subsequence r) := by
  obtain ⟨_, e2, e3, e4, _, e6⟩ := subsequence_spec s r hs
  have hmin := select_min_bounds r s.size hs.1
  have hmax := select_max_bounds r s.size hs.1
  obtain ⟨h0, h1, h2, _⟩ := hs
  refine ⟨by rw [e2]; omega, by rw [e2, e4]; omega, by rw [e6, e4]; exact h2, e3⟩

theorem empty_wf (s : codeunit_sequence) (hs : wf s) : wf s.empty := by
  obtain ⟨_, e2, e3, e4, _, e6⟩ := empty_spec s hs
  have hc := get_capacity_ge s hs
  obtain ⟨h0, h1, h2, _⟩ := hs
  refine ⟨by rw [e2], by rw [e2, e4]; exact hc, by rw [e6, e4]; exact h2, e3⟩

theorem prefix_select (i n : Int) (h0 : 0 ≤ i) (h1 : i < n) :
    ((index_interval.mk (bound.inclusive 0) (bound.inclusive i)).select n).get_inclusive_min = 0 ∧
      ((index_interval.mk (bound.inclusive 0) (bound.inclusive i)).select n).get_exclusive_max
        = i + 1 := by
  simp only [index_interval.select, index_interval.from_end, index_interval.clamp,
    index_interval.get_inclusive_min, index_interval.get_exclusive_max]
  refine ⟨by simp, ?_⟩
  rw [if_neg (by omega)]; omega

theorem read_at_nonneg (v : codeunit_sequence_view) (k : Nat) :
    codeunit_sequence_view.read_at v (k : Int) = v.getD k 0 := by
  unfold codeunit_sequence_view.read_at
  rw [if_pos (by omega), add_zero, rd_natCast]

theorem trim_start_loop_spec (s : codeunit_sequence) (cs : codeunit_sequence_view)
    (hs : wf s) (k : Nat) (i : Nat) (hk : ((i + k : Nat) : Int) = s.size) :
    (self_trim_start_loop s cs k i).view
        = (s.view.drop i).dropWhile (codeunit_sequence_view.contains cs) ∧
      wf (self_trim_start_loop s cs k i) ∧
      (self_trim_start_loop s cs k i).get_capacity = s.get_capacity ∧
      (self_trim_start_loop s cs k i).alloc = s.alloc := by
  have hlen := length_view s hs
  induction k generalizing i with
  | zero =>
    obtain ⟨e1, _, _, e4, e5, _⟩ := empty_spec s hs
    refine ⟨?_, empty_wf s hs, e4, e5⟩
    show s.empty.view = _
    rw [e1, List.drop_eq_nil_of_le (by omega)]; rfl
  | succ k ih =>
    have hi : i < s.view.length := by omega
    have hd := drop_cons_getD s.view i hi
    unfold self_trim_start_loop
    rw [read_at_nonneg]
    by_cases hc : codeunit_sequence_view.contains cs (s.view.getD i 0) = true
    · simp only [hc, Bool.not_true, Bool.false_eq_true, if_false]
      have := ih (i + 1) (by rw [← hk]; push_cast; omega)
      push_cast at this
      rw [hd, List.dropWhile_cons_of_pos hc]
      exact this
    · simp only [hc, Bool.not_false, if_true]
      obtain ⟨e1, _, _, e4, e5, _⟩ :=
        subsequence_spec s ⟨bound.inclusive (i : Int), bound.infinity⟩ hs
      obtain ⟨m1, m2, _⟩ := suffix_select (i : Int) s.size (by omega) (by omega)
      refine ⟨?_, subsequence_wf s _ hs, e4, e5⟩
      rw [e1, m1, m2, hd, List.dropWhile_cons_of_neg hc, ← hd]
      unfold slice
      rw [List.take_of_length_le (by omega)]
      simp

theorem trim_end_loop_spec (s : codeunit_sequence) (cs : codeunit_sequence_view)
    (hs : wf s) (k : Nat) (hk : (k : Int) ≤ s.size) :
    (self_trim_end_loop s cs k).view
        = (s.view.take k).rdropWhile (codeunit_sequence_view.contains cs) ∧
      wf (self_trim_end_loop s cs k) ∧
      (self_trim_end_loop s cs k).get_capacity = s.get_capacity ∧
      (self_trim_end_loop s cs k).alloc = s.alloc := by
  have hlen := length_view s hs
  induction k with
  | zero =>
    obtain ⟨e1, _, _, e4, e5, _⟩ := empty_spec s hs
    refine ⟨?_, empty_wf s hs, e4, e5⟩
    show s.empty.view = _
    rw [e1]; simp [List.rdropWhile]
  | succ k ih =>
    have hi : k < s.view.length := by omega
    have ht : s.view.take (k + 1) = s.view.take k ++ [s.view.getD k 0] := by
      rw [List.take_succ, List.getD_eq_getElem _ _ hi, List.getElem?_eq_getElem hi]; rfl
    unfold self_trim_end_loop
    simp only []
    rw [read_at_nonneg]
    by_cases hc : codeunit_sequence_view.contains cs (s.view.getD k 0) = true
    · simp only [hc, Bool.not_true, Bool.false_eq_true, if_false]
      rw [ht, List.rdropWhile_concat_pos _ _ _ hc]
      exact ih (by omega)
    · simp only [hc, Bool.not_false, if_true]
      obtain ⟨e1, _, _, e4, e5, _⟩ :=
        subsequence_spec s ⟨bound.inclusive 0, bound.inclusive (k : Int)⟩ hs
      obtain ⟨m1, m2⟩ := prefix_select (k : Int) s.size (by omega) (by omega)
      refine ⟨?_, subsequence_wf s _ hs, e4, e5⟩
      rw [e1, m1, m2, ht, List.rdropWhile_concat_neg _ _ _ hc, ← ht]
      have hsl := slice_natCast s.view 0 (k + 1)
      push_cast at hsl
      rw [hsl, List.drop_zero]

theorem dropWhile_decomp (P : Nat → Bool) (l : List Nat) :
    ∃ p, l = p ++ l.dropWhile P ∧ (∀ b ∈ p, P b = true) ∧
      ∀ b, (l.dropWhile P).head? = some b → P b = false := by
  refine ⟨l.takeWhile P, (List.takeWhile_append_dropWhile P l).symm,
    fun b hb => List.mem_takeWhile_imp hb, fun b hb => ?_⟩
  have := List.head?_dropWhile_not P l
  rw [hb] at this
  exact this

theorem rdropWhile_decomp (P : Nat → Bool) (l : List Nat) :
    ∃ q, l = l.rdropWhile P ++ q ∧ (∀ b ∈ q, P b = true) ∧
      ∀ b, (l.rdropWhile P).getLast? = some b → P b = false := by
  refine ⟨l.rtakeWhile P, ?_, fun b hb => List.mem_rtakeWhile_imp hb, fun b hb => ?_⟩
  · unfold List.rdropWhile List.rtakeWhile
    rw [← List.reverse_append, List.takeWhile_append_dropWhile, List.reverse_reverse]
  · unfold List.rdropWhile at hb
    rw [List.getLast?_reverse] at hb
    have := List.head?_dropWhile_not P l.reverse
    rw [hb] at this
    exact this

theorem getLast?_suffix (p t : List Nat) (b : Nat) (h : t.getLast? = some b) :
    (p ++ t).getLast? = some b := by
  rw [List.getLast?_append, h]; rfl

theorem view_nil_of_size (s : codeunit_sequence) (h : s.size = 0) : s.view = [] := by
  rw [view_eq, h]; rfl

theorem self_trim_start_spec (s : codeunit_sequence) (cs : codeunit_sequence_view)
    (hs : wf s) :
    (s.self_trim_start cs).view = s.view.dropWhile (codeunit_sequence_view.contains cs) ∧
      wf (s.self_trim_start cs) ∧ (s.self_trim_start cs).get_capacity = s.get_capacity ∧
      (s.self_trim_start cs).alloc = s.alloc := by
  unfold codeunit_sequence.self_trim_start codeunit_sequence.is_empty
  by_cases hz : s.size = 0
  · rw [if_pos (by simpa using hz)]
    refine ⟨?_, hs, rfl, rfl⟩
    rw [view_nil_of_size s hz]; rfl
  · rw [if_neg (by simpa using hz)]
    have h := trim_start_loop_spec s cs hs s.size.toNat 0 (by have := hs.1; omega)
    simpa using h

theorem self_trim_end_spec (s : codeunit_sequence) (cs : codeunit_sequence_view)
    (hs : wf s) :
    (s.self_trim_end cs).view = s.view.rdropWhile (codeunit_sequence_view.contains cs) ∧
      wf (s.self_trim_end cs) ∧ (s.self_trim_end cs).get_capacity = s.get_capacity ∧
      (s.self_trim_end cs).alloc = s.alloc := by
  unfold codeunit_sequence.self_trim_end codeunit_sequence.is_empty
  by_cases hz : s.size = 0
  · rw [if_pos (by simpa using hz)]
    refine ⟨?_, hs, rfl, rfl⟩
    rw [view_nil_of_size s hz]; rfl
  · rw [if_neg (by simpa using hz)]
    have h := trim_end_loop_spec s cs hs s.size.toNat (by have := hs.1; omega)
    have hlen := length_view s hs
    rw [List.take_of_length_le (by have := hs.1; omega)] at h
    exact h

theorem self_trim_spec (s : codeunit_sequence) (cs : codeunit_sequence_view) (hs : wf s) :
    (s.self_trim cs).view
        = (s.view.rdropWhile (codeunit_sequence_view.contains cs)).dropWhile
            (codeunit_sequence_view.contains cs) ∧
      wf (s.self_trim cs) ∧ (s.self_trim cs).get_capacity = s.get_capacity ∧
      (s.self_trim cs).alloc = s.alloc := by
  obtain ⟨a1, a2, a3, a4⟩ := self_trim_end_spec s cs hs
  obtain ⟨b1, b2, b3, b4⟩ := self_trim_start_spec (s.self_trim_end cs) cs a2
  unfold codeunit_sequence.self_trim
  exact ⟨by rw [b1, a1], b2, by rw [b3, a3], by rw [b4, a4]⟩

theorem contains_iff (cs : codeunit_sequence_view) (b : Nat) :
    codeunit_sequence_view.contains cs b = true ↔ b ∈ cs := by
  simp [codeunit_sequence_view.contains]

theorem contains_false_iff (cs : codeunit_sequence_view) (b : Nat) :
    codeunit_sequence_view.contains cs b = false ↔ b ∉ cs := by
  simp [codeunit_sequence_view.contains]

/-- The three trims with a character set whose bytes lie outside the buffer: the
content `c` splits as `p ++ t ++ q` (as `p ++ t`, as `t ++ q`) around the content `t`
left, every byte of `p` and of `q` is in the set, and neither the first nor the last
byte of `t` (when `t` has one) is.  The results satisfy the invariants again. -/
theorem self_trim_decomp (s : codeunit_sequence) (cs : codeunit_sequence_view) (hs : wf s) :
    (∃ p q, s.view = p ++ (s.self_trim cs).view ++ q ∧
        (∀ b ∈ p, b ∈ cs) ∧ (∀ b ∈ q, b ∈ cs) ∧
        (∀ b, (s.self_trim cs).view.head? = some b → b ∉ cs) ∧
        (∀ b, (s.self_trim cs).view.getLast? = some b → b ∉ cs)) ∧
      (∃ p, s.view = p ++ (s.self_trim_start cs).view ∧ (∀ b ∈ p, b ∈ cs) ∧
        (∀ b, (s.self_trim_start cs).view.head? = some b → b ∉ cs)) ∧
      (∃ q, s.view = (s.self_trim_end cs).view ++ q ∧ (∀ b ∈ q, b ∈ cs) ∧
        (∀ b, (s.self_trim_end cs).view.getLast? = some b → b ∉ cs)) ∧
      wf (s.self_trim cs) ∧ wf (s.self_trim_start cs) ∧ wf (s.self_trim_end cs) := by
  obtain ⟨a1, a2, _⟩ := self_trim_end_spec s cs hs
  obtain ⟨b1, b2, _⟩ := self_trim_start_spec s cs hs
  obtain ⟨c1, c2, _⟩ := self_trim_spec s cs hs
  obtain ⟨q, hq, hq1, hq2⟩ := rdropWhile_decomp (codeunit_sequence_view.contains cs) s.view
  obtain ⟨p, hp, hp1, hp2⟩ := dropWhile_decomp (codeunit_sequence_view.contains cs) s.view
  obtain ⟨p', hp', hp1', hp2'⟩ := dropWhile_decomp (codeunit_sequence_view.contains cs)
    (s.view.rdropWhile (codeunit_sequence_view.contains cs))
  refine ⟨⟨p', q, ?_, fun b hb => (contains_iff cs b).mp (hp1' b hb),
      fun b hb => (contains_iff cs b).mp (hq1 b hb), ?_, ?_⟩,
    ⟨p, by rw [b1]; exact hp, fun b hb => (contains_iff cs b).mp (hp1 b hb), ?_⟩,
    ⟨q, by rw [a1]; exact hq, fun b hb => (contains_iff cs b).mp (hq1 b hb), ?_⟩,
    c2, b2, a2⟩
  · rw [c1, ← hp']; exact hq
  · intro b hb; rw [c1] at hb; exact (contains_false_iff cs b).mp (hp2' b hb)
  · intro b hb; rw [c1] at hb
    have := getLast?_suffix p' _ b hb
    rw [← hp'] at this
    exact (contains_false_iff cs b).mp (hq2 b this)
  · intro b hb; rw [b1] at hb; exact (contains_false_iff cs b).mp (hp2 b hb)
  · intro b hb; rw [a1] at hb; exact (contains_false_iff cs b).mp (hq2 b hb)

end ostr

/-! ## `split` -/

namespace ostr

open codeunit_sequence

theorem segments_from_nil (sp : List Nat) (k : Nat) (cur : List Nat) (fresh : Bool) :
    segments_from sp k cur fresh [] = if fresh then [] else [cur] := by
  cases k <;> rfl

theorem segments_from_skip (sp : List Nat) (k : Nat) (cur : List Nat) (fresh : Bool)
    (l : List Nat) :
    segments_from sp k cur fresh l = segments_from sp 0 cur fresh (l.drop k) := by
  induction k generalizing l with
  | zero => simp
  | succ k ih =>
    cases l with
    | nil => simp [segments_from_nil]
    | cons c cs => rw [segments_from, ih]; simp

theorem segments_from_fresh (sp : List Nat) (cur : List Nat) (f g : Bool) (l : List Nat)
    (hl : l ≠ []) : segments_from sp 0 cur f l = segments_from sp 0 cur g l := by
  cases l with
  | nil => exact absurd rfl hl
  | cons c cs => rw [segments_from, segments_from]

theorem segments_from_none (sp : List Nat) (cur : List Nat) (fresh : Bool) (l : List Nat)
    (hl : l ≠ []) (h : find_first sp l = none) :
    segments_from sp 0 cur fresh l = [cur ++ l] := by
  induction l generalizing cur fresh with
  | nil => exact absurd rfl hl
  | cons c cs ih =>
    by_cases hm : sp <+: c :: cs
    · rw [find_first_match sp c cs hm] at h; cases h
    · rw [find_first_skip sp c cs hm] at h
      have hn : find_first sp cs = none := by
        cases hf : find_first sp cs with
        | none => rfl
        | some k => rw [hf] at h; cases h
      rw [segments_from, if_neg hm]
      cases cs with
      | nil => rw [segments_from_nil]; simp
      | cons c2 cs2 =>
        rw [ih (cur ++ [c]) false (by simp) hn]; simp

theorem segments_from_some (sp : List Nat) (hp : sp ≠ []) (cur : List Nat) (fresh : Bool)
    (l : List Nat) (j : Nat) (h : find_first sp l = some j) :
    segments_from sp 0 cur fresh l
      = (cur ++ l.take j) :: segments_from sp 0 [] true (l.drop (j + sp.length)) := by
  induction l generalizing cur fresh j with
  | nil => rw [find_first_nil sp hp] at h; cases h
  | cons c cs ih =>
    by_cases hm : sp <+: c :: cs
    · rw [find_first_match sp c cs hm] at h
      cases h
      rw [segments_from, if_pos hm, segments_from_skip, drop_pred_tail sp c cs hp]
      simp
    · rw [find_first_skip sp c cs hm] at h
      cases hf : find_first sp cs with
      | none => rw [hf] at h; cases h
      | some k =>
        rw [hf] at h
        cases h
        rw [segments_from, if_neg hm, ih (cur ++ [c]) false k hf]
        simp [Nat.add_right_comm]

theorem split_loop_spec (sp : List Nat) (hp : sp ≠ []) (cull : Bool) (fuel : Nat)
    (v : List Nat) (pieces : List (List Nat)) (count : Nat) (hf : v.length < fuel) :
    split_loop sp cull fuel v pieces count
      = some (pieces ++ (split_reference sp v).filter (fun p => !cull || !p.isEmpty),
          (count + (split_reference sp v).length) % 4294967296) := by
  induction fuel generalizing v pieces count with
  | zero => omega
  | succ fuel ih =>
    unfold split_loop codeunit_sequence_view.split split_reference
    cases hff : find_first sp v with
    | none =>
      simp only [codeunit_sequence_view.is_empty, List.isEmpty_nil, if_true]
      cases v with
      | nil =>
        rw [segments_from_nil]
        cases cull <;> simp
      | cons c cs =>
        rw [segments_from_none sp [] false _ (by simp) hff]
        cases cull <;> simp
    | some j =>
      have hb := find_first_some_bound sp v j hp hff
      have hpl : 0 < sp.length := List.length_pos.mpr hp
      rw [segments_from_some sp hp [] false v j hff]
      simp only [List.nil_append, codeunit_sequence_view.is_empty]
      by_cases hr : (v.drop (j + sp.length)).isEmpty = true
      · rw [if_pos hr]
        have : v.drop (j + sp.length) = [] := by simpa using hr
        rw [this, segments_from_nil]
        cases cull <;> by_cases hl : (List.take j v).isEmpty = true <;> simp [hl]
      · rw [if_neg hr]
        have hne : v.drop (j + sp.length) ≠ [] := by simpa using hr
        rw [ih _ _ _ (by rw [List.length_drop]; omega)]
        unfold split_reference
        rw [segments_from_fresh sp [] true false _ hne]
        cases cull <;> by_cases hl : (List.take j v).isEmpty = true <;>
          simp [hl, List.filter_cons] <;> omega

/-- C13: for a sequence `s` and a non-empty splitter, with fuel above the size of the
content, `split(splitter, cull_empty = false)` returns, in order, the segments of the
content delimited by the successive leftmost non-overlapping occurrences of the
splitter (an empty remainder after the last occurrence closes no segment), and
`split(splitter, cull_empty = true)` returns that list without its zero-length
pieces. -/
theorem C13_split (s : codeunit_sequence) (sp : codeunit_sequence_view) (hp : sp ≠ [])
    (fuel : Nat) (hf : s.view.length < fuel) :
    s.split sp false fuel = some (split_reference sp s.view) ∧
      s.split sp true fuel
        = some ((split_reference sp s.view).filter (fun p => !p.isEmpty)) := by
  unfold codeunit_sequence.split codeunit_sequence.split_into
  rw [split_loop_spec sp hp false fuel s.view [] 0 hf,
    split_loop_spec sp hp true fuel s.view [] 0 hf]
  simp

/-- C13, instance: `"a,b,,c"` split by `","` gives `["a", "b", "", "c"]` and, culled,
`["a", "b", "c"]`. -/
theorem C13_split_witness :
    ([44] : codeunit_sequence_view) ≠ [] ∧ ex_csv.view.length < 7 ∧
      ex_csv.split [44] false 7 = some [[97], [98], [], [99]] ∧
      ex_csv.split [44] true 7 = some [[97], [98], [99]] :=
  ⟨by decide, by decide,
    (C13_split ex_csv [44] (by decide) 7 (by decide)).1.trans (by decide),
    (C13_split ex_csv [44] (by decide) 7 (by decide)).2.trans (by decide)⟩

end ostr

/-! ## Construction from a view, equality and hash -/

namespace ostr

open codeunit_sequence

theorem ctor_view_none (junk : Nat → Nat) (sv : List Nat)
    (h : ctor_i32 junk (sv.length : Int) = none) : ctor_view junk sv = none := by
  unfold ctor_view
  simp only [codeunit_sequence_view.size, h]

theorem ctor_view_of (junk : Nat → Nat) (sv : List Nat) (s : codeunit_sequence)
    (hc : ctor_i32 junk (sv.length : Int) = some s) (hz : s.size = 0)
    (hcap : (sv.length : Int) ≤ s.get_capacity)
    (hlen : (s.data.length : Int) = s.get_capacity + 1) :
    ∃ y, ctor_view junk sv = some y ∧ y.view = sv ∧ y.size = sv.length ∧ wf y ∧
      y.alloc = s.alloc ∧ y.get_capacity = s.get_capacity := by
  have h := append_core s sv (by omega) (by omega) hlen
  simp only [hz, zero_add, Int.toNat_zero, List.take_zero, List.nil_append] at h
  obtain ⟨e1, e2, e3, e4, e5, e6⟩ := h
  refine ⟨_, ?_, e1, e2, ⟨by rw [e2]; omega, by rw [e2, e4]; exact hcap,
    by rw [e6, e4]; exact hlen, e3⟩, e5, e4⟩
  unfold ctor_view
  simp only [codeunit_sequence_view.size, hc, hz]

theorem ctor_view_spec (junk : Nat → Nat) (sv : List Nat)
    (h : (sv.length : Int) + 1 < 1073741824) :
    ∃ y, ctor_view junk sv = some y ∧ y.view = sv ∧ y.size = sv.length ∧ wf y ∧
      (y.alloc = true ↔ 15 < sv.length) := by
  by_cases hn : (sv.length : Int) ≤ 15
  · have hc := ctor_i32_inline junk (sv.length : Int) hn
    obtain ⟨y, h1, h2, h3, h4, h5, _⟩ := ctor_view_of junk sv empty_store hc rfl
      (by rw [get_capacity_short _ rfl]; exact hn) (by decide)
    refine ⟨y, h1, h2, h3, h4, ?_⟩
    rw [h5]
    constructor
    · intro hh; cases hh
    · intro hh; omega
  · obtain ⟨s, m, hc, _, ha, hz, hl, hcap, hle⟩ :=
      ctor_i32_heap junk (sv.length : Int) (by omega) h
    have hg := get_capacity_heap s ha
    obtain ⟨y, h1, h2, h3, h4, h5, _⟩ := ctor_view_of junk sv s hc hz
      (by rw [hg]; exact hle) (by rw [hg, hl, hcap]; ring)
    refine ⟨y, h1, h2, h3, h4, ?_⟩
    rw [h5, ha]
    constructor
    · intro _; omega
    · intro _; rfl

/-- Below the size `2^30 - 1` the construction `codeunit_sequence(x.view())` yields a
sequence `y` with the content of `x`, `y == x`, `x == y`, `x == x.view()`,
`y == x.view()`, and `y`, `x` and the view have the same hash; and any two sequences
with the same content compare equal both ways and hash equal, whatever their
representation and capacity. -/
theorem round_trip_spec (junk : Nat → Nat) (hash : codeunit_sequence_view → Nat)
    (x : codeunit_sequence) (hs : wf x) (h : x.size + 1 < 1073741824) :
    (∃ y, ctor_view junk x.view = some y ∧ y.view = x.view ∧ wf y ∧
        y.operator_eq x = true ∧ x.operator_eq y = true ∧
        y.operator_eq_view x.view = true ∧ y.get_hash hash = x.get_hash hash) ∧
      x.operator_eq_view x.view = true ∧ x.get_hash hash = hash x.view ∧
      ∀ a b : codeunit_sequence, a.view = b.view →
        a.operator_eq b = true ∧ b.operator_eq a = true ∧
          a.get_hash hash = b.get_hash hash := by
  have hv := length_view x hs
  obtain ⟨y, h1, h2, _, h4, _⟩ := ctor_view_spec junk x.view (by omega)
  refine ⟨⟨y, h1, h2, h4, ?_, ?_, ?_, ?_⟩, ?_, rfl, ?_⟩
  · simp [codeunit_sequence.operator_eq, codeunit_sequence_view.operator_eq, h2]
  · simp [codeunit_sequence.operator_eq, codeunit_sequence_view.operator_eq, h2]
  · simp [codeunit_sequence.operator_eq_view, codeunit_sequence_view.operator_eq, h2]
  · simp [codeunit_sequence.get_hash, h2]
  · simp [codeunit_sequence.operator_eq_view, codeunit_sequence_view.operator_eq]
  · intro a b hab
    simp [codeunit_sequence.operator_eq, codeunit_sequence_view.operator_eq,
      codeunit_sequence.get_hash, hab]

end ostr

/-! ## `text::from_utf32` -/

namespace ostr

open codeunit_sequence

theorem length_encode (c : Nat) :
    ((codepoint.encode c).length : Int) = unicode.parse_utf8_length_u32 c := by
  unfold codepoint.encode unicode.parse_utf8_length_u32
  split
  · rfl
  · split
    · rfl
    · split <;> rfl

theorem parse_utf8_length_u32_pos (c : Nat) : 0 < unicode.parse_utf8_length_u32 c := by
  unfold unicode.parse_utf8_length_u32
  split
  · decide
  · split
    · decide
    · split <;> decide

theorem utf8_total_nil : utf8_total [] = 0 := rfl

theorem utf8_total_cons (c : Nat) (u : List Nat) :
    utf8_total (c :: u) = unicode.parse_utf8_length_u32 c + utf8_total u := by
  simp [utf8_total]

theorem utf8_total_nonneg (u : List Nat) : 0 ≤ utf8_total u := by
  induction u with
  | nil => simp [utf8_total]
  | cons c u ih =>
    rw [utf8_total_cons]
    have := parse_utf8_length_u32_pos c
    omega

theorem utf8_total_append (u v : List Nat) :
    utf8_total (u ++ v) = utf8_total u + utf8_total v := by
  simp [utf8_total]

theorem utf8_concat_cons (c : Nat) (u : List Nat) :
    utf8_concat (c :: u) = codepoint.encode c ++ utf8_concat u := by
  simp [utf8_concat]

theorem utf8_total_replicate (n : Nat) (c : Nat) :
    utf8_total (List.replicate n c) = n * unicode.parse_utf8_length_u32 c := by
  induction n with
  | zero => simp [utf8_total]
  | succ n ih =>
    rw [List.replicate_succ, utf8_total_cons, ih]; push_cast; ring

theorem from_utf32_size_spec (u : List Nat) (hu : ∀ c ∈ u, c ≠ 0) (rest : List Nat)
    (size : Int) :
    text.from_utf32_size (u ++ 0 :: rest) size = size + utf8_total u := by
  induction u generalizing size with
  | nil => simp [text.from_utf32_size, utf8_total]
  | cons c u ih =>
    have hc : c ≠ 0 := hu c (by simp)
    rw [List.cons_append, text.from_utf32_size, if_pos hc,
      ih (fun d hd => hu d (by simp [hd])), utf8_total_cons]
    ring

theorem append_view_fit (junk : Nat → Nat) (s : codeunit_sequence) (v : List Nat)
    (h0 : 0 ≤ s.size) (hcap : s.size + v.length ≤ s.get_capacity)
    (hlen : (s.data.length : Int) = s.get_capacity + 1) :
    ∃ s1, append_view junk s v = some s1 ∧
      reserve junk s (s.size + (v.length : Int)) = some s ∧
      s1.view = s.view ++ v ∧ s1.size = s.size + v.length ∧ rd s1.data s1.size = 0 ∧
      s1.get_capacity = s.get_capacity ∧ s1.alloc = s.alloc ∧
      s1.data.length = s.data.length := by
  have hr := reserve_noop junk s (s.size + (v.length : Int)) hcap
  obtain ⟨e1, e2, e3, e4, e5, e6⟩ := append_core s v h0 hcap hlen
  refine ⟨_, ?_, hr, ?_, e2, e3, e4, e5, e6⟩
  · unfold append_view
    simp only [codeunit_sequence_view.size, hr]
  · rw [e1, view_eq]

theorem from_utf32_append_spec (junk : Nat → Nat) (u : List Nat) (hu : ∀ c ∈ u, c ≠ 0)
    (rest : List Nat) (s : codeunit_sequence) (h0 : 0 ≤ s.size)
    (hcap : s.size + utf8_total u ≤ s.get_capacity)
    (hlen : (s.data.length : Int) = s.get_capacity + 1) :
    ∃ s', text.from_utf32_append junk (u ++ 0 :: rest) s = some s' ∧
      s'.view = s.view ++ utf8_concat u ∧ s'.size = s.size + utf8_total u ∧
      s'.get_capacity = s.get_capacity ∧ s'.alloc = s.alloc ∧
      s'.data.length = s.data.length ∧ (u ≠ [] → rd s'.data s'.size = 0) := by
  induction u generalizing s with
  | nil =>
    refine ⟨s, ?_, by simp [utf8_concat], by simp [utf8_total], rfl, rfl, rfl,
      fun h => absurd rfl h⟩
    simp [text.from_utf32_append]
  | cons c u ih =>
    have hc : c ≠ 0 := hu c (by simp)
    have hu' : ∀ d ∈ u, d ≠ 0 := fun d hd => hu d (by simp [hd])
    rw [utf8_total_cons] at hcap
    have hnn := utf8_total_nonneg u
    have hle := length_encode c
    obtain ⟨s1, happ, _, e1, e2, e3, e4, e5, e6⟩ :=
      append_view_fit junk s (codepoint.encode c) h0 (by omega) hlen
    obtain ⟨s', k1, k2, k3, k4, k5, k6, k7⟩ := ih hu' s1 (by rw [e2]; omega)
      (by rw [e2, e4]; omega) (by rw [e6, e4]; exact hlen)
    refine ⟨s', ?_, ?_, ?_, ?_, ?_, ?_, ?_⟩
    · rw [List.cons_append, text.from_utf32_append, if_pos hc, happ]
      exact k1
    · rw [k2, e1, utf8_concat_cons, List.append_assoc]
    · rw [k3, e2, utf8_total_cons]; omega
    · rw [k4, e4]
    · rw [k5, e5]
    · rw [k6, e6]
    · intro _
      by_cases hn : u = []
      · subst hn
        simp only [List.nil_append, text.from_utf32_append] at k1
        simp only [ne_eq, not_true_eq_false, if_false] at k1
        cases k1
        exact e3
      · exact k7 hn

theorem ctor_i32_fit (junk : Nat → Nat) (n : Int) (h0 : 0 ≤ n) (h : n + 1 < 1073741824) :
    ∃ s0, ctor_i32 junk n = some s0 ∧ s0.size = 0 ∧ n ≤ s0.get_capacity ∧
      (s0.data.length : Int) = s0.get_capacity + 1 ∧ s0.view = [] ∧
      (n ≤ 15 → s0 = empty_store) := by
  by_cases hn : n ≤ 15
  · refine ⟨empty_store, ctor_i32_inline junk n hn, rfl, ?_, by decide, by decide,
      fun _ => rfl⟩
    rw [get_capacity_short _ rfl]; exact hn
  · obtain ⟨s, m, hc, _, ha, hz, hl, hcap, hle⟩ := ctor_i32_heap junk n (by omega) h
    have hg := get_capacity_heap s ha
    refine ⟨s, hc, hz, by rw [hg]; exact hle, by rw [hg, hl, hcap]; ring, ?_,
      fun hh => absurd hh hn⟩
    rw [view_eq, hz]; rfl

theorem from_utf32_append_split (junk : Nat → Nat) (u1 : List Nat)
    (hu : ∀ c ∈ u1, c ≠ 0) (rest : List Nat) (s s1 : codeunit_sequence)
    (h : text.from_utf32_append junk (u1 ++ [0]) s = some s1) :
    text.from_utf32_append junk (u1 ++ rest) s = text.from_utf32_append junk rest s1 := by
  induction u1 generalizing s with
  | nil =>
    simp only [List.nil_append, text.from_utf32_append, ne_eq, not_true_eq_false,
      if_false] at h
    cases h
    rfl
  | cons c u ih =>
    have hc : c ≠ 0 := hu c (by simp)
    rw [List.cons_append, text.from_utf32_append, if_pos hc] at h ⊢
    cases ha : append_view junk s (codepoint.encode c) with
    | none => rw [ha] at h; cases h
    | some s2 =>
      rw [ha] at h
      exact ih (fun d hd => hu d (by simp [hd])) s2 h

end ostr

/-! ## Claims on `text::from_utf32` -/

namespace ostr

open codeunit_sequence

theorem from_utf32_none (junk : Nat → Nat) (str : List Nat)
    (h : ctor_i32 junk (text.from_utf32_size str 0) = none) :
    text.from_utf32 junk str = none := by
  unfold text.from_utf32
  simp only [h]

theorem from_utf32_size_2p30 :
    text.from_utf32_size (List.replicate 1073741824 97 ++ [0]) 0 = 1073741824 := by
  rw [from_utf32_size_spec (List.replicate 1073741824 97)
      (fun c hc => by rw [List.eq_of_mem_replicate hc]; decide) [] 0,
    utf8_total_replicate]
  decide

/-- C16 (as stated, refuted): for the null-terminated array of `2^30` times the scalar
`'a'`, pass 1 computes the size `2^30`, the pre-sizing constructor produces nothing
(`details::get_capacity(2^30 + 1)` is negative), and no text comes back. -/
theorem C16_from_utf32_counterexample :
    is_scalar 97 ∧
      text.from_utf32_size (List.replicate 1073741824 97 ++ [0]) 0 = 1073741824 ∧
      text.from_utf32 junk_cd (List.replicate 1073741824 97 ++ [0]) = none := by
  refine ⟨by decide, from_utf32_size_2p30, ?_⟩
  apply from_utf32_none
  rw [from_utf32_size_2p30]
  decide

/-- C16 (amended): for every null-terminated array of Unicode scalars `u` whose UTF-8
encodings take `n` bytes with `n + 1 < 2^30`, `text::from_utf32` returns a text whose
bytes are the concatenation, in order, of the encodings of the scalars; its capacity,
representation and buffer length are those chosen by the pre-sizing constructor
`codeunit_sequence(n)`; and at every scalar `c` of the second pass, reached in the
state `s1`, the `reserve` inside `+=` returns at its capacity test (`s1` is unchanged,
no allocation), the capacity and representation of `s1` being those of the
constructed sequence. -/
theorem C16_from_utf32 (junk : Nat → Nat) (u : List Nat) (hu : ∀ c ∈ u, is_scalar c)
    (h : utf8_total u + 1 < 1073741824) :
    ∃ s0 t, text.from_utf32_size (u ++ [0]) 0 = utf8_total u ∧
      ctor_i32 junk (utf8_total u) = some s0 ∧
      text.from_utf32 junk (u ++ [0]) = some t ∧
      t.sequence_.view = utf8_concat u ∧ wf t.sequence_ ∧
      t.sequence_.get_capacity = s0.get_capacity ∧ t.sequence_.alloc = s0.alloc ∧
      t.sequence_.data.length = s0.data.length ∧
      ∀ u1 c u2, u = u1 ++ c :: u2 →
        ∃ s1 s2, text.from_utf32_append junk (u1 ++ [0]) s0 = some s1 ∧
          s1.get_capacity = s0.get_capacity ∧ s1.alloc = s0.alloc ∧
          s1.data.length = s0.data.length ∧
          reserve junk s1 (s1.size + (codepoint.encode c).size) = some s1 ∧
          append_view junk s1 (codepoint.encode c) = some s2 ∧
          text.from_utf32_append junk (u2 ++ [0]) s2 = some t.sequence_ := by
  have hu0 : ∀ c ∈ u, c ≠ 0 := fun c hc => by have := (hu c hc).1; omega
  have hnn := utf8_total_nonneg u
  have hsz : text.from_utf32_size (u ++ [0]) 0 = utf8_total u := by
    rw [from_utf32_size_spec u hu0 [] 0, zero_add]
  obtain ⟨s0, hc, hz, hcap, hlen, hv0, hin⟩ := ctor_i32_fit junk (utf8_total u) hnn h
  obtain ⟨s', k1, k2, k3, k4, k5, k6, k7⟩ :=
    from_utf32_append_spec junk u hu0 [] s0 (by omega) (by omega) hlen
  have hwf : wf s' := by
    refine ⟨by omega, by omega, by rw [k6, k4]; exact hlen, ?_⟩
    by_cases hn : u = []
    · subst hn
      have e0 := hin (by rw [utf8_total_nil]; decide)
      subst e0
      simp only [List.nil_append, text.from_utf32_append, ne_eq, not_true_eq_false,
        if_false] at k1
      cases k1
      decide
    · exact k7 hn
  refine ⟨s0, ⟨s'⟩, hsz, hc, ?_, ?_, hwf, k4, k5, k6, ?_⟩
  · unfold text.from_utf32
    simp only [hsz, hc, k1]
  · show s'.view = _
    rw [k2, hv0, List.nil_append]
  · intro u1 c u2 hsplit
    subst hsplit
    have hu1 : ∀ d ∈ u1, d ≠ 0 := fun d hd => hu0 d (by simp [hd])
    rw [utf8_total_append, utf8_total_cons] at hcap h
    have hn1 := utf8_total_nonneg u1
    have hn2 := utf8_total_nonneg u2
    have hle := length_encode c
    have hpos := parse_utf8_length_u32_pos c
    obtain ⟨s1, m1, m2, m3, m4, m5, m6, _⟩ :=
      from_utf32_append_spec junk u1 hu1 [] s0 (by omega) (by omega) hlen
    obtain ⟨s2, a1, a2, _⟩ := append_view_fit junk s1 (codepoint.encode c) (by omega)
      (by omega) (by rw [m6, m4]; exact hlen)
    refine ⟨s1, s2, m1, m4, m5, m6, a2, a1, ?_⟩
    have e := from_utf32_append_split junk u1 hu1 (c :: u2 ++ [0]) s0 s1 m1
    rw [List.append_assoc] at k1
    rw [show c :: u2 ++ [0] = c :: (u2 ++ [0]) by rfl] at e
    rw [List.cons_append, e, text.from_utf32_append,
      if_pos (hu0 c (by simp)), a1] at k1
    exact k1

/-- C16 (amended), instance: the scalars of `"Hé€"` followed by three times U+1F600
take 18 bytes; the text is heap-backed with the capacity 31 of the constructor. -/
theorem C16_from_utf32_witness :
    (∀ c ∈ ex_scalars, is_scalar c) ∧ utf8_total ex_scalars + 1 < 1073741824 ∧
      utf8_concat ex_scalars = [72, 195, 169, 226, 130, 172, 240, 159, 152, 128,
        240, 159, 152, 128, 240, 159, 152, 128] ∧
      ∃ s0 t, ctor_i32 junk_cd (utf8_total ex_scalars) = some s0 ∧
        text.from_utf32 junk_cd (ex_scalars ++ [0]) = some t ∧
        t.sequence_.view = utf8_concat ex_scalars ∧
        t.sequence_.get_capacity = s0.get_capacity ∧ t.sequence_.alloc = s0.alloc := by
  obtain ⟨s0, t, _, h2, h3, h4, _, h6, h7, _⟩ :=
    C16_from_utf32 junk_cd ex_scalars (by decide) (by decide)
  exact ⟨by decide, by decide, by decide, s0, t, h2, h3, h4, h6, h7⟩

end ostr

/-! ## The length/capacity invariant -/

namespace ostr

open codeunit_sequence

theorem get_capacity_congr (s t : codeunit_sequence) (ha : t.alloc = s.alloc)
    (hc : t.capacity = s.capacity) : t.get_capacity = s.get_capacity := by
  simp [codeunit_sequence.get_capacity, codeunit_sequence.is_short, ha, hc]

theorem same_store_refl (s : codeunit_sequence) (hs : size_in_capacity s) : same_store s s :=
  ⟨hs, rfl, rfl⟩

theorem same_store_of_size (s t : codeunit_sequence) (hs : size_in_capacity s)
    (ha : t.alloc = s.alloc) (hc : t.capacity = s.capacity) (hz : t.size = s.size) :
    same_store s t := by
  refine ⟨⟨by rw [hz]; exact hs.1, ?_⟩, ha, hc⟩
  rw [hz, get_capacity_congr s t ha hc]; exact hs.2

theorem same_store_trans (s t u : codeunit_sequence) (h1 : same_store s t)
    (h2 : same_store t u) : same_store s u :=
  ⟨h2.1, h2.2.1.trans h1.2.1, h2.2.2.trans h1.2.2⟩

theorem same_store_heap (s t : codeunit_sequence) (h : same_store s t)
    (hh : heap_above_inline s) : heap_above_inline t := by
  intro ha
  rw [h.2.2]
  exact hh (by rw [← h.2.1]; exact ha)

theorem same_store_set_size (s t : codeunit_sequence) (n : Int) (ha : t.alloc = s.alloc)
    (hc : t.capacity = s.capacity) (h0 : 0 ≤ n) (h1 : n ≤ s.get_capacity) :
    same_store s (t.set_size n) := by
  have hg := get_capacity_congr s t ha hc
  have hsz := set_size_size t n h0 (by rw [hg]; exact h1)
  refine ⟨⟨by rw [hsz]; exact h0, ?_⟩, by rw [set_size_alloc, ha],
    by rw [set_size_capacity, hc]⟩
  rw [hsz, set_size_get_capacity, hg]; exact h1

theorem empty_same_store (s : codeunit_sequence) (hs : size_in_capacity s) :
    same_store s s.empty := by
  obtain ⟨h0, h1⟩ := hs
  have h := same_store_set_size s s 0 rfl rfl (le_refl 0) (by omega)
  exact ⟨⟨h.1.1, h.1.2⟩, h.2.1, h.2.2⟩

theorem selection_size_bounds (r : index_interval) (n : Int) (h : 0 ≤ n) :
    0 ≤ (r.select n).size ∧ (r.select n).size ≤ n := by
  have hmin := select_min_bounds r n h
  have hmax := select_max_bounds r n h
  unfold index_interval.size index_interval.is_empty
  split
  · omega
  · rename_i hne
    simp only [decide_eq_true_eq, not_le] at hne
    omega

theorem subsequence_same_store (s : codeunit_sequence) (r : index_interval)
    (hs : size_in_capacity s) : same_store s (s.subsequence r) := by
  have hb := selection_size_bounds r s.size hs.1
  unfold codeunit_sequence.subsequence
  simp only []
  split
  · exact empty_same_store s hs
  · split
    · exact same_store_refl s hs
    · apply same_store_set_size
      · split <;> rfl
      · split <;> rfl
      · exact hb.1
      · have := hs.2; omega

theorem reverse_same_store (s : codeunit_sequence) (r : index_interval)
    (hs : size_in_capacity s) : same_store s (s.reverse r) :=
  same_store_of_size s _ hs rfl rfl rfl

theorem replace_range_same_store (s : codeunit_sequence) (r : index_interval)
    (d : codeunit_sequence_view) (hs : size_in_capacity s) :
    same_store s (s.replace_range r d) := by
  have hb := selection_size_bounds r s.size hs.1
  unfold codeunit_sequence.replace_range
  simp only []
  split
  · exact same_store_refl s hs
  · split
    · rename_i hd
      split
      · apply same_store_set_size
        · rfl
        · rfl
        · simp only [codeunit_sequence_view.size] at hd ⊢; omega
        · simp only [codeunit_sequence_view.size] at hd ⊢
          have := hs.2; omega
      · exact same_store_of_size s _ hs rfl rfl rfl
    · exact same_store_refl s hs

theorem trim_start_loop_same_store (s : codeunit_sequence) (cs : codeunit_sequence_view)
    (hs : size_in_capacity s) (k : Nat) (i : Int) :
    same_store s (self_trim_start_loop s cs k i) := by
  induction k generalizing i with
  | zero => exact empty_same_store s hs
  | succ k ih =>
    unfold self_trim_start_loop
    split
    · exact subsequence_same_store s _ hs
    · exact ih (i + 1)

theorem trim_end_loop_same_store (s : codeunit_sequence) (cs : codeunit_sequence_view)
    (hs : size_in_capacity s) (k : Nat) : same_store s (self_trim_end_loop s cs k) := by
  induction k with
  | zero => exact empty_same_store s hs
  | succ k ih =>
    unfold self_trim_end_loop
    simp only []
    split
    · exact subsequence_same_store s _ hs
    · exact ih

theorem self_trim_start_same_store (s : codeunit_sequence) (cs : codeunit_sequence_view)
    (hs : size_in_capacity s) : same_store s (s.self_trim_start cs) := by
  unfold codeunit_sequence.self_trim_start
  split
  · exact same_store_refl s hs
  · exact trim_start_loop_same_store s cs hs _ _

theorem self_trim_end_same_store (s : codeunit_sequence) (cs : codeunit_sequence_view)
    (hs : size_in_capacity s) : same_store s (s.self_trim_end cs) := by
  unfold codeunit_sequence.self_trim_end
  split
  · exact same_store_refl s hs
  · exact trim_end_loop_same_store s cs hs _

theorem self_trim_same_store (s : codeunit_sequence) (cs : codeunit_sequence_view)
    (hs : size_in_capacity s) : same_store s (s.self_trim cs) := by
  have h1 := self_trim_end_same_store s cs hs
  exact same_store_trans s _ _ h1 (self_trim_start_same_store _ cs h1.1)

end ostr

namespace ostr

open codeunit_sequence

theorem get_capacity_sound (v m : Int) (h1 : 1 ≤ v) (h2 : v < 2147483648)
    (hm : details.get_capacity v = some m) (h0 : 0 ≤ m) : v ≤ m ∧ v < 1073741824 := by
  by_cases hv : v < 1073741824
  · obtain ⟨m', e, hnp, _⟩ := get_capacity_spec v h1 hv
    rw [e] at hm
    cases hm
    exact ⟨hnp.2.1, hv⟩
  · exfalso
    obtain ⟨n, rfl⟩ := Int.eq_ofNat_of_zero_le (by omega : 0 ≤ v)
    have hn : n < 2 ^ 32 := by norm_num; omega
    obtain ⟨L, hL, hlt, hle, _⟩ := get_capacity_loop_spec 32 n 0 hn
    have hle := hle (by omega)
    have hL31 : L = 31 := by
      have a1 : ¬ 32 ≤ L := by
        intro h
        have := Nat.pow_le_pow_right (by norm_num : 0 < 2) h
        norm_num at this
        omega
      have a2 : ¬ L ≤ 30 := by
        intro h
        have := Nat.pow_le_pow_right (by norm_num : 0 < 2) h
        norm_num at this
        omega
      omega
    subst hL31
    simp only [Nat.zero_add] at hL
    unfold details.get_capacity at hm
    rw [hL] at hm
    simp only [] at hm
    have hw : wrap_i32 (2 ^ 31) = -2147483648 := by decide
    rw [hw] at hm
    split at hm
    · cases hm; omega
    · cases hm; omega

theorem reserve_fields (junk : Nat → Nat) (s s' : codeunit_sequence) (n : Int)
    (hs : size_in_capacity s) (hn : n + 1 < 2147483648)
    (h : reserve junk s n = some s') :
    size_in_capacity s' ∧ s'.size = s.size ∧ n ≤ s'.get_capacity ∧
      (heap_above_inline s → heap_above_inline s') := by
  unfold reserve at h
  by_cases hc : n ≤ s.get_capacity
  · rw [if_pos hc] at h
    cases h
    exact ⟨hs, rfl, hc, fun hh => hh⟩
  · rw [if_neg hc] at h
    obtain ⟨h0, h1⟩ := hs
    rw [wrap_i32_small _ (by omega) (by omega)] at h
    cases hg : details.get_capacity (n + 1) with
    | none => rw [hg] at h; cases h
    | some m =>
      rw [hg] at h
      simp only [] at h
      cases hal : allocator.allocate_array junk m with
      | none => rw [hal] at h; cases h
      | some data =>
        rw [hal] at h
        simp only [Option.some.injEq] at h
        have hm0 : 0 ≤ m := by
          unfold allocator.allocate_array at hal
          by_contra hneg
          rw [if_pos (by omega)] at hal
          cases hal
        have hvm := (get_capacity_sound (n + 1) m (by omega) hn hg hm0).1
        subst h
        have hcap : (codeunit_sequence.mk true s.size (m - 1)
            (std_copy (slice s.data 0 s.size) data 0)).get_capacity = m - 1 := rfl
        refine ⟨⟨h0, by rw [hcap]; show s.size ≤ m - 1; omega⟩, rfl, by rw [hcap]; omega, ?_⟩
        intro hh _
        show SSO_SIZE_MAX < m - 1
        have : SSO_SIZE_MAX ≤ s.get_capacity := by
          unfold codeunit_sequence.get_capacity codeunit_sequence.is_short
          cases ha : s.alloc
          · simp
          · simp only [Bool.not_true, Bool.false_eq_true, if_false]
            exact le_of_lt (hh ha)
        omega

theorem reserve_exists (junk : Nat → Nat) (s : codeunit_sequence) (n : Int)
    (hs : size_in_capacity s) (hn : n + 1 < 1073741824) :
    ∃ s', reserve junk s n = some s' := by
  by_cases hc : n ≤ s.get_capacity
  · exact ⟨s, reserve_noop junk s n hc⟩
  · obtain ⟨h0, h1⟩ := hs
    obtain ⟨m, hm, hnp, _⟩ := get_capacity_spec (n + 1) (by omega) hn
    have hmn : n + 1 ≤ m := hnp.2.1
    obtain ⟨fresh, hd, _⟩ := allocate_array_some junk m (by omega)
    refine ⟨⟨true, s.size, m - 1, std_copy (slice s.data 0 s.size) fresh 0⟩, ?_⟩
    unfold reserve
    rw [if_neg hc, wrap_i32_small _ (by omega) (by omega), hm]
    simp only [hd]


theorem append_view_fields (junk : Nat → Nat) (s s' : codeunit_sequence) (v : List Nat)
    (hs : size_in_capacity s) (hn : s.size + (v.length : Int) + 1 < 2147483648)
    (h : append_view junk s v = some s') :
    size_in_capacity s' ∧ s'.size = s.size + v.length ∧
      (heap_above_inline s → heap_above_inline s') := by
  unfold append_view at h
  simp only [codeunit_sequence_view.size] at h
  cases hr : reserve junk s (s.size + (v.length : Int)) with
  | none => rw [hr] at h; cases h
  | some s1 =>
    rw [hr] at h
    simp only [Option.some.injEq] at h
    obtain ⟨r1, r2, r3, r4⟩ := reserve_fields junk s s1 _ hs hn hr
    have hst := same_store_set_size s1
      (codeunit_sequence.mk s1.alloc s1.size s1.capacity
        (wr (std_copy v s1.data s1.size) (s.size + (v.length : Int)) 0))
      (s.size + (v.length : Int)) rfl rfl (by have := hs.1; omega) r3
    rw [h] at hst
    refine ⟨hst.1, ?_, fun hh => same_store_heap s1 s' hst (r4 hh)⟩
    rw [← h]
    exact set_size_size _ _ (by have := hs.1; omega) r3

theorem append_view_exists (junk : Nat → Nat) (s : codeunit_sequence) (v : List Nat)
    (hs : size_in_capacity s) (hn : s.size + (v.length : Int) + 1 < 1073741824) :
    ∃ s', append_view junk s v = some s' := by
  obtain ⟨s1, hr⟩ := reserve_exists junk s (s.size + (v.length : Int)) hs hn
  unfold append_view
  simp only [codeunit_sequence_view.size, hr]
  exact ⟨_, rfl⟩

theorem append_fields (junk : Nat → Nat) (s s' : codeunit_sequence) (count : Int) (c : Nat)
    (hs : size_in_capacity s) (h0 : 0 ≤ s.size + count)
    (hn : s.size + count + 1 < 2147483648)
    (h : append junk s count c = some s') :
    size_in_capacity s' ∧ s'.size = s.size + count ∧
      (heap_above_inline s → heap_above_inline s') := by
  unfold append at h
  simp only [] at h
  cases hr : reserve junk s (s.size + count) with
  | none => rw [hr] at h; cases h
  | some s1 =>
    rw [hr] at h
    simp only [] at h
    obtain ⟨r1, r2, r3, r4⟩ := reserve_fields junk s s1 _ hs hn hr
    cases hm : (if c ≠ 0 then memset s1.data s.size c count else some s1.data) with
    | none => rw [hm] at h; cases h
    | some data =>
      rw [hm] at h
      simp only [Option.some.injEq] at h
      have hst := same_store_set_size s1
        (codeunit_sequence.mk s1.alloc s1.size s1.capacity (wr data (s.size + count) 0))
        (s.size + count) rfl rfl h0 r3
      rw [h] at hst
      refine ⟨hst.1, ?_, fun hh => same_store_heap s1 s' hst (r4 hh)⟩
      rw [← h]
      exact set_size_size _ _ h0 r3

theorem append_exists (junk : Nat → Nat) (s : codeunit_sequence) (count : Int) (c : Nat)
    (hs : size_in_capacity s) (h0 : 0 ≤ count) (hn : s.size + count + 1 < 1073741824) :
    ∃ s', append junk s count c = some s' := by
  obtain ⟨s1, hr⟩ := reserve_exists junk s (s.size + count) hs hn
  unfold append
  simp only [hr, codeunit_sequence.memset, if_neg (not_lt.mpr h0)]
  split
  · rename_i hm
    split at hm <;> cases hm
  · exact ⟨_, rfl⟩


theorem fresh_heap_fields (junk : Nat → Nat) (v m : Int) (data : List Nat)
    (h1 : 1 ≤ v) (h2 : v < 2147483648) (hg : details.get_capacity v = some m)
    (hal : allocator.allocate_array junk m = some data) : v ≤ m := by
  have hm0 : 0 ≤ m := by
    unfold allocator.allocate_array at hal
    by_contra hneg
    rw [if_pos (by omega)] at hal
    cases hal
  exact (get_capacity_sound v m h1 h2 hg hm0).1

theorem sso_le_get_capacity (s : codeunit_sequence) (hh : heap_above_inline s) :
    SSO_SIZE_MAX ≤ s.get_capacity := by
  unfold codeunit_sequence.get_capacity codeunit_sequence.is_short
  cases ha : s.alloc
  · simp
  · simp only [Bool.not_true, Bool.false_eq_true, if_false]
    exact le_of_lt (hh ha)

theorem empty_size_fields (junk : Nat → Nat) (s s' : codeunit_sequence) (n : Int)
    (hs : size_in_capacity s) (hn : n + 1 < 2147483648)
    (h : empty_size junk s n = some s') :
    size_in_capacity s' ∧ s'.size = 0 ∧ n ≤ s'.get_capacity ∧
      (heap_above_inline s → heap_above_inline s') := by
  unfold empty_size at h
  by_cases hc : n ≤ s.get_capacity
  · rw [if_pos hc] at h
    cases h
    have he := empty_same_store s hs
    refine ⟨he.1, ?_, ?_, fun hh => same_store_heap s _ he hh⟩
    · exact set_size_size s 0 (le_refl 0) (by have := hs.1; have := hs.2; omega)
    · rw [get_capacity_congr s _ he.2.1 he.2.2]; exact hc
  · rw [if_neg hc] at h
    obtain ⟨h0, h1⟩ := hs
    rw [wrap_i32_small _ (by omega) (by omega)] at h
    cases hg : details.get_capacity (n + 1) with
    | none => rw [hg] at h; cases h
    | some m =>
      rw [hg] at h
      simp only [] at h
      cases hal : allocator.allocate_array junk m with
      | none => rw [hal] at h; cases h
      | some data =>
        rw [hal] at h
        simp only [Option.some.injEq] at h
        have hvm := fresh_heap_fields junk (n + 1) m data (by omega) hn hg hal
        subst h
        refine ⟨⟨le_refl 0, ?_⟩, rfl, ?_, ?_⟩
        · show (0 : Int) ≤ m - 1; omega
        · show n ≤ m - 1; omega
        · intro hh _
          show SSO_SIZE_MAX < m - 1
          have := sso_le_get_capacity s hh
          omega

theorem empty_size_exists (junk : Nat → Nat) (s : codeunit_sequence) (n : Int)
    (hs : size_in_capacity s) (hn : n + 1 < 1073741824) :
    ∃ s', empty_size junk s n = some s' := by
  by_cases hc : n ≤ s.get_capacity
  · exact ⟨s.empty, by unfold empty_size; rw [if_pos hc]⟩
  · obtain ⟨h0, h1⟩ := hs
    obtain ⟨m, hm, hnp, _⟩ := get_capacity_spec (n + 1) (by omega) hn
    have hmn : n + 1 ≤ m := hnp.2.1
    obtain ⟨fresh, hd, _⟩ := allocate_array_some junk m (by omega)
    refine ⟨⟨true, 0, m - 1, wr fresh 0 0⟩, ?_⟩
    unfold empty_size
    rw [if_neg hc, wrap_i32_small _ (by omega) (by omega), hm]
    simp only [hd]

theorem ctor_i32_fields (junk : Nat → Nat) (s' : codeunit_sequence) (n : Int)
    (hn0 : -2147483648 ≤ n) (hn : n + 1 < 2147483648) (h : ctor_i32 junk n = some s') :
    size_in_capacity s' ∧ s'.size = 0 ∧ n ≤ s'.get_capacity ∧ heap_above_inline s' := by
  unfold ctor_i32 at h
  by_cases hc : n > SSO_SIZE_MAX
  · rw [if_pos hc] at h
    have h15 : SSO_SIZE_MAX = 15 := rfl
    rw [wrap_i32_small _ (by omega) (by omega)] at h
    cases hg : details.get_capacity (n + 1) with
    | none => rw [hg] at h; cases h
    | some m =>
      rw [hg] at h
      simp only [] at h
      cases hal : allocator.allocate_array junk m with
      | none => rw [hal] at h; cases h
      | some data =>
        rw [hal] at h
        simp only [Option.some.injEq] at h
        have hvm := fresh_heap_fields junk (n + 1) m data (by omega) hn hg hal
        subst h
        refine ⟨⟨le_refl 0, ?_⟩, rfl, ?_, ?_⟩
        · show (0 : Int) ≤ m - 1; omega
        · show n ≤ m - 1; omega
        · intro _
          show SSO_SIZE_MAX < m - 1
          omega
  · rw [if_neg hc] at h
    cases h
    refine ⟨by decide, rfl, ?_, by decide⟩
    rw [get_capacity_short _ rfl]
    have h15 : SSO_SIZE_MAX = 15 := rfl
    omega

theorem ctor_view_fields (junk : Nat → Nat) (s' : codeunit_sequence) (sv : List Nat)
    (hn : (sv.length : Int) + 1 < 2147483648) (h : ctor_view junk sv = some s') :
    size_in_capacity s' ∧ s'.size = sv.length ∧ heap_above_inline s' := by
  unfold ctor_view at h
  simp only [codeunit_sequence_view.size] at h
  cases hc : ctor_i32 junk (sv.length : Int) with
  | none => rw [hc] at h; cases h
  | some s =>
    rw [hc] at h
    simp only [Option.some.injEq] at h
    obtain ⟨c1, c2, c3, c4⟩ := ctor_i32_fields junk s _ (by omega) hn hc
    have hst := same_store_set_size s
      (codeunit_sequence.mk s.alloc s.size s.capacity
        (wr (std_copy sv s.data 0) (sv.length : Int) 0))
      (sv.length : Int) rfl rfl (by omega) c3
    rw [h] at hst
    refine ⟨hst.1, ?_, same_store_heap s s' hst c4⟩
    rw [← h]
    exact set_size_size _ _ (by omega) c3

end ostr

namespace ostr

open codeunit_sequence

theorem equal_loop_fields (p d : List Nat) (sel : index_interval) (fuel : Nat)
    (s : codeunit_sequence) (rg : index_interval) (s' : codeunit_sequence)
    (h : replace_equal_loop p d sel fuel s rg = some s') :
    s'.alloc = s.alloc ∧ s'.size = s.size ∧ s'.capacity = s.capacity := by
  induction fuel generalizing s rg with
  | zero => cases h
  | succ fuel ih =>
    rw [replace_equal_loop] at h
    simp only [] at h
    split at h
    · cases h; exact ⟨rfl, rfl, rfl⟩
    · have := ih _ _ h
      exact this

theorem shrink_loop_fields (p d : List Nat) (sel : index_interval) (ans : Int) (fuel : Nat)
    (s : codeunit_sequence) (i offset found : Int) (s' : codeunit_sequence)
    (h : replace_shrink_loop p d sel ans fuel s i offset found = some s') :
    s'.alloc = s.alloc ∧ s'.size = s.size ∧ s'.capacity = s.capacity := by
  induction fuel generalizing s i offset found with
  | zero => cases h
  | succ fuel ih =>
    rw [replace_shrink_loop] at h
    simp only [] at h
    split at h
    · have := ih _ _ _ _ h
      exact this
    · split at h
      · have := ih _ _ _ _ h
        exact this
      · cases h; exact ⟨rfl, rfl, rfl⟩

theorem backward_loop_fields (p d : List Nat) (sel : index_interval) (fuel : Nat)
    (s : codeunit_sequence) (i offset found : Int) (s' : codeunit_sequence)
    (h : replace_backward_loop p d sel fuel s i offset found = some s') :
    s'.alloc = s.alloc ∧ s'.size = s.size ∧ s'.capacity = s.capacity := by
  induction fuel generalizing s i offset found with
  | zero => cases h
  | succ fuel ih =>
    rw [replace_backward_loop] at h
    simp only [] at h
    split at h
    · have := ih _ _ _ _ h
      exact this
    · split at h
      · have := ih _ _ _ _ h
        exact this
      · cases h; exact ⟨rfl, rfl, rfl⟩

theorem count_mul_le (p l : List Nat) (hp : p ≠ []) :
    ((count_from p 0 l : Nat) : Int) * p.length ≤ l.length := by
  have h := length_replace_all p [] hp l.length l (le_refl _)
  have h0 : (0 : Int) ≤ ((replace_all_from p [] 0 l).length : Int) := by omega
  rw [h] at h0
  simp only [List.length_nil, Nat.cast_zero, zero_sub] at h0
  nlinarith

theorem length_slice_le (buf : List Nat) (lo hi : Int) : (slice buf lo hi).length ≤ buf.length := by
  unfold slice
  rw [List.length_drop, List.length_take]
  omega

theorem replace_count_bound (s : codeunit_sequence) (p : List Nat) (sel : index_interval)
    (hp : p ≠ []) (h0 : 0 ≤ s.size) :
    0 ≤ (s.subview sel).count p ∧ (s.subview sel).count p * p.length ≤ s.size := by
  unfold codeunit_sequence.subview codeunit_sequence_view.subview codeunit_sequence_view.count
  simp only []
  have h1 := count_mul_le p (slice s.view (sel.select s.view.size).get_inclusive_min
    (sel.select s.view.size).get_exclusive_max) hp
  have h2 := length_slice_le s.view (sel.select s.view.size).get_inclusive_min
    (sel.select s.view.size).get_exclusive_max
  have h3 : s.view.length ≤ s.size.toNat := by
    rw [view_eq, List.length_take]; omega
  refine ⟨by omega, ?_⟩
  have : ((slice s.view (sel.select s.view.size).get_inclusive_min
    (sel.select s.view.size).get_exclusive_max).length : Int) ≤ s.size := by omega
  omega


theorem replace_backward_unfold (junk : Nat → Nat) (fuel : Nat) (s : codeunit_sequence)
    (p d : codeunit_sequence_view) (r : index_interval) (hp : p ≠ [])
    (hc : (s.subview (r.select s.size)).count p ≠ 0) (hpd : p.length < d.length)
    (hcap : ¬ s.get_capacity
      < s.size + ((d.length : Int) - p.length) * (s.subview (r.select s.size)).count p) :
    replace junk fuel s p d r
      = match (if s.size + ((d.length : Int) - p.length)
              * (s.subview (r.select s.size)).count p ≥ 0 then
            replace_backward_loop p d (r.select s.size) fuel s
              (s.size + ((d.length : Int) - p.length) * (s.subview (r.select s.size)).count p)
              (((d.length : Int) - p.length) * (s.subview (r.select s.size)).count p)
              (s.last_index_of p (r.select s.size) + (p.length : Int) - 1)
          else some s) with
        | none => none
        | some s1 => some (s1.set_size
            (s.size + ((d.length : Int) - p.length) * (s.subview (r.select s.size)).count p)) := by
  unfold replace
  rw [is_empty_false_of_ne p hp]
  have h1 : ¬ ((d.length : Int) - p.length = 0) := by omega
  have h2 : ¬ ((d.length : Int) - p.length < 0) := by omega
  simp only [Bool.false_eq_true, if_false, hc, codeunit_sequence_view.size, h1, h2, hcap]

theorem replace_fields (junk : Nat → Nat) (fuel : Nat) (s s' : codeunit_sequence)
    (p d : codeunit_sequence_view) (r : index_interval) (hs : size_in_capacity s)
    (hn : s.size + ((d.length : Int) - p.length) * (s.subview (r.select s.size)).count p + 1
      < 2147483648)
    (h : replace junk fuel s p d r = some s') :
    size_in_capacity s' ∧ (heap_above_inline s → heap_above_inline s') := by
  by_cases hp : p = []
  · rw [replace_no_match junk fuel s p d r (Or.inl hp)] at h
    cases h; exact ⟨hs, fun hh => hh⟩
  by_cases hc : (s.subview (r.select s.size)).count p = 0
  · rw [replace_no_match junk fuel s p d r (Or.inr hc)] at h
    cases h; exact ⟨hs, fun hh => hh⟩
  obtain ⟨hc0, hcb⟩ := replace_count_bound s p (r.select s.size) hp hs.1
  obtain ⟨h0, h1⟩ := hs
  have hdn : (0 : Int) ≤ (d.length : Int) * (s.subview (r.select s.size)).count p :=
    mul_nonneg (by omega) hc0
  generalize hC : (s.subview (r.select s.size)).count p = C at *
  rcases lt_trichotomy d.length p.length with hlt | heq | hgt
  · rw [replace_shrink_unfold junk fuel s p d r hp (by rw [hC]; exact hc) hlt, hC] at h
    have hans0 : 0 ≤ s.size + ((d.length : Int) - p.length) * C := by nlinarith
    have hans1 : s.size + ((d.length : Int) - p.length) * C ≤ s.get_capacity := by
      have : ((d.length : Int) - p.length) * C ≤ 0 :=
        mul_nonpos_of_nonpos_of_nonneg (by omega) hc0
      omega
    generalize s.size + ((d.length : Int) - p.length) * C = ans at *
    split at h
    · cases h
    · rename_i s1 hl
      simp only [Option.some.injEq] at h
      have hf : s1.alloc = s.alloc ∧ s1.size = s.size ∧ s1.capacity = s.capacity := by
        split at hl
        · exact shrink_loop_fields _ _ _ _ _ _ _ _ _ _ hl
        · cases hl; exact ⟨rfl, rfl, rfl⟩
      have hst := same_store_set_size s s1 ans hf.1 hf.2.2 hans0 hans1
      rw [h] at hst
      exact ⟨hst.1, fun hh => same_store_heap s s' hst hh⟩
  · rw [replace_equal_unfold junk fuel s p d r hp (by rw [hC]; exact hc) heq] at h
    obtain ⟨f1, f2, f3⟩ := equal_loop_fields _ _ _ _ _ _ _ h
    have hst := same_store_of_size s s' ⟨h0, h1⟩ f1 f3 f2
    exact ⟨hst.1, fun hh => same_store_heap s s' hst hh⟩
  · have hpos : 0 ≤ ((d.length : Int) - p.length) * C := mul_nonneg (by omega) hc0
    by_cases hcap : s.get_capacity < s.size + ((d.length : Int) - p.length) * C
    · rw [replace_realloc_unfold junk fuel s p d r hp (by rw [hC]; exact hc) hgt
        (by rw [hC]; exact hcap), hC] at h
      generalize s.size + ((d.length : Int) - p.length) * C = ans at *
      rw [wrap_i32_small _ (by omega) (by omega)] at h
      cases hg : details.get_capacity (ans + 1) with
      | none => rw [hg] at h; cases h
      | some m =>
        rw [hg] at h
        simp only [] at h
        cases hal : allocator.allocate_array junk m with
        | none => rw [hal] at h; cases h
        | some data =>
          rw [hal] at h
          simp only [] at h
          have hvm := fresh_heap_fields junk (ans + 1) m data (by omega) hn hg hal
          split at h
          · cases h
          · simp only [Option.some.injEq] at h
            subst h
            refine ⟨⟨by show (0 : Int) ≤ ans; omega, by show ans ≤ m - 1; omega⟩, ?_⟩
            intro hh _
            show SSO_SIZE_MAX < m - 1
            have := sso_le_get_capacity s hh
            omega
    · rw [replace_backward_unfold junk fuel s p d r hp (by rw [hC]; exact hc) hgt
        (by rw [hC]; exact hcap), hC] at h
      have hans0 : 0 ≤ s.size + ((d.length : Int) - p.length) * C := by omega
      generalize s.size + ((d.length : Int) - p.length) * C = ans at *
      split at h
      · cases h
      · rename_i s1 hl
        simp only [Option.some.injEq] at h
        have hf : s1.alloc = s.alloc ∧ s1.size = s.size ∧ s1.capacity = s.capacity := by
          rw [if_pos hans0] at hl
          exact backward_loop_fields _ _ _ _ _ _ _ _ _ hl
        have hst := same_store_set_size s s1 ans hf.1 hf.2.2 (by omega) (by omega)
        rw [h] at hst
        exact ⟨hst.1, fun hh => same_store_heap s s' hst hh⟩

end ostr

namespace ostr

open codeunit_sequence

theorem subview_count_eq (s : codeunit_sequence) (r : index_interval) (p : List Nat)
    (hs : wf s) :
    (s.subview (r.select s.size)).count p
      = ((count_in p s.view (r.select s.size).get_inclusive_min
          (r.select s.size).get_exclusive_max : Nat) : Int) := by
  obtain ⟨lo, hi, n, hsel, hsz, hlo, hhi, hnl, hcnt, hview⟩ := replace_window s r p hs
  have hmine : (r.select s.size).get_inclusive_min = (lo : Int) := by rw [hsel]; rfl
  have hmaxe : (r.select s.size).get_exclusive_max = (hi : Int) := by rw [hsel]; rfl
  rw [hmine, hmaxe, hview, hcnt]
  unfold count_in
  rw [slice_natCast, List.take_take, Nat.min_eq_left hhi]

theorem backward_loop_terminates (p d : List Nat) (sel : index_interval)
    (hp : 0 < p.length) (hpd : p.length < d.length) (fuel : Nat) (s : codeunit_sequence)
    (i offset found : Int) (k : Nat)
    (hoff : offset = ((d.length : Int) - p.length) * k) (hstale : k = 0 → i < found)
    (hfuel : (i + 1).toNat + k < fuel) :
    ∃ s', replace_backward_loop p d sel fuel s i offset found = some s' := by
  induction fuel generalizing s i offset found k with
  | zero => omega
  | succ fuel ih =>
    rw [replace_backward_loop]
    simp only [codeunit_sequence_view.size]
    by_cases hm : i - offset = found
    · rw [if_pos hm]
      cases k with
      | zero =>
        exfalso
        have := hstale rfl
        simp at hoff
        omega
      | succ k' =>
        have ho1 : offset - ((d.length : Int) - p.length)
            = ((d.length : Int) - p.length) * (k' : Nat) := by
          rw [hoff]; push_cast; ring
        apply ih _ _ _ _ k' ho1
        · intro hk
          subst hk
          have hz : offset - ((d.length : Int) - p.length) = 0 := by rw [ho1]; simp
          rw [if_neg (by rw [hz]; simp)]
          have : offset = (d.length : Int) - p.length := by omega
          omega
        · omega
    · rw [if_neg hm]
      by_cases hi : i - 1 ≥ 0
      · rw [if_pos hi]
        apply ih _ _ _ _ k hoff
        · intro hk; have := hstale hk; omega
        · omega
      · rw [if_neg hi]
        exact ⟨_, rfl⟩

theorem replace_exists (junk : Nat → Nat) (fuel : Nat) (s : codeunit_sequence)
    (p d : codeunit_sequence_view) (r : index_interval) (hs : wf s)
    (hfuel : s.get_capacity + s.size + 2 ≤ (fuel : Int))
    (hn : s.size + ((d.length : Int) - p.length) * (s.subview (r.select s.size)).count p + 1
      < 1073741824) :
    ∃ s', replace junk fuel s p d r = some s' := by
  by_cases hp : p = []
  · exact ⟨s, replace_no_match junk fuel s p d r (Or.inl hp)⟩
  by_cases hc : (s.subview (r.select s.size)).count p = 0
  · exact ⟨s, replace_no_match junk fuel s p d r (Or.inr hc)⟩
  have hcap0 := get_capacity_ge s hs
  have hsz := hs.1
  have hle := hs.2.1
  obtain ⟨hc0, hcb⟩ := replace_count_bound s p (r.select s.size) hp hs.1
  have hpl : 0 < p.length := List.length_pos.mpr hp
  rcases lt_trichotomy d.length p.length with hlt | heq | hgt
  · obtain ⟨s', h, _⟩ := replace_shrink_spec junk fuel s p d r hs hp hlt (by omega)
    exact ⟨s', h⟩
  · exact ⟨_, replace_equal_spec junk fuel s p d r hs hp heq (by omega)⟩
  · by_cases hcap : s.get_capacity
        < s.size + ((d.length : Int) - p.length) * (s.subview (r.select s.size)).count p
    · rw [subview_count_eq s r p hs] at hcap hn
      obtain ⟨s', m, h, _⟩ := replace_realloc_spec junk fuel s p d r hs hp hgt hcap hn (by omega)
      exact ⟨s', h⟩
    · rw [replace_backward_unfold junk fuel s p d r hp hc hgt hcap]
      have hpos : 0 ≤ ((d.length : Int) - p.length) * (s.subview (r.select s.size)).count p :=
        mul_nonneg (by omega) hc0
      rw [if_pos (by omega)]
      obtain ⟨k, hk⟩ := Int.eq_ofNat_of_zero_le hc0
      have hkn : (k : Int) ≤ s.size := by
        rw [hk] at hcb
        have : (k : Int) * 1 ≤ (k : Int) * (p.length : Int) :=
          mul_le_mul_of_nonneg_left (by omega) (by omega)
        omega
      obtain ⟨s1, h1⟩ := backward_loop_terminates p d (r.select s.size) hpl hgt fuel s
        (s.size + ((d.length : Int) - p.length) * (s.subview (r.select s.size)).count p)
        (((d.length : Int) - p.length) * (s.subview (r.select s.size)).count p)
        (s.last_index_of p (r.select s.size) + (p.length : Int) - 1) k (by rw [hk])
        (by intro hk0; subst hk0; exact absurd hk hc) (by omega)
      rw [h1]
      exact ⟨_, rfl⟩

end ostr

namespace ostr

open codeunit_sequence

theorem inline_iff_capacity (s : codeunit_sequence) (hh : heap_above_inline s) :
    s.get_capacity = 15 ↔ s.alloc = false := by
  unfold codeunit_sequence.get_capacity codeunit_sequence.is_short
  cases ha : s.alloc
  · simp [SSO_SIZE_MAX]
  · have := hh ha
    simp only [Bool.not_true, Bool.false_eq_true, if_false]
    have h15 : SSO_SIZE_MAX = 15 := rfl
    constructor
    · intro h; omega
    · intro h; cases h

/-- C18: for a sequence with `0 ≤ size() ≤ get_capacity()`:
(1) `empty`, `subsequence`, `replace(range, destination)`, `self_trim_start`,
`self_trim_end`, `self_trim` and `reverse` give a sequence with the same inequality, the
same representation and the same capacity;
(2) whatever `+=`, `append`, `reserve`, `empty(n)` and `replace(pattern, replacement,
range)` return satisfies the inequality, for arguments whose sizes stay within `i32`
(and a write index `size + count ≥ 0` for `append`), and a heap capacity above 15 stays
above 15;
(3) these five do return a sequence when the size asked for, plus one, is below `2^30`
(for the pattern replace: on a sequence that satisfies the data-model invariants, with
fuel above `get_capacity() + size() + 1`);
(4) the default constructor, the constructor from a size and the constructor from a
view give sequences with the inequality, heap-backed ones with a capacity above 15;
(5) when the capacity of a heap-backed sequence is above 15, as it is for all of these
results, `get_capacity()` is 15 exactly when the sequence is inline. -/
theorem C18_size_capacity (junk : Nat → Nat) (s : codeunit_sequence)
    (hs : size_in_capacity s) :
    (same_store s s.empty ∧ (∀ r, same_store s (s.subsequence r)) ∧
      (∀ r d, same_store s (s.replace_range r d)) ∧
      (∀ cs, same_store s (s.self_trim_start cs)) ∧
      (∀ cs, same_store s (s.self_trim_end cs)) ∧
      (∀ cs, same_store s (s.self_trim cs)) ∧
      (∀ r, same_store s (s.reverse r))) ∧
    ((∀ (v : codeunit_sequence_view) s', s.size + (v.length : Int) + 1 < 2147483648 →
        append_view junk s v = some s' →
        size_in_capacity s' ∧ (heap_above_inline s → heap_above_inline s')) ∧
      (∀ count c s', 0 ≤ s.size + count → s.size + count + 1 < 2147483648 →
        append junk s count c = some s' →
        size_in_capacity s' ∧ (heap_above_inline s → heap_above_inline s')) ∧
      (∀ n s', n + 1 < 2147483648 → reserve junk s n = some s' →
        size_in_capacity s' ∧ (heap_above_inline s → heap_above_inline s')) ∧
      (∀ n s', n + 1 < 2147483648 → empty_size junk s n = some s' →
        size_in_capacity s' ∧ (heap_above_inline s → heap_above_inline s')) ∧
      (∀ fuel (p d : codeunit_sequence_view) r s',
        s.size + ((d.length : Int) - p.length) * (s.subview (r.select s.size)).count p + 1
          < 2147483648 →
        replace junk fuel s p d r = some s' →
        size_in_capacity s' ∧ (heap_above_inline s → heap_above_inline s'))) ∧
    ((∀ v : codeunit_sequence_view, s.size + (v.length : Int) + 1 < 1073741824 →
        ∃ s', append_view junk s v = some s') ∧
      (∀ count c, 0 ≤ count → s.size + count + 1 < 1073741824 →
        ∃ s', append junk s count c = some s') ∧
      (∀ n, n + 1 < 1073741824 → ∃ s', reserve junk s n = some s') ∧
      (∀ n, n + 1 < 1073741824 → ∃ s', empty_size junk s n = some s') ∧
      (wf s → ∀ (fuel : Nat) (p d : codeunit_sequence_view) r,
        s.get_capacity + s.size + 2 ≤ (fuel : Int) →
        s.size + ((d.length : Int) - p.length) * (s.subview (r.select s.size)).count p + 1
          < 1073741824 →
        ∃ s', replace junk fuel s p d r = some s')) ∧
    (size_in_capacity empty_store ∧ heap_above_inline empty_store ∧
      (∀ n s', -2147483648 ≤ n → n + 1 < 2147483648 → ctor_i32 junk n = some s' →
        size_in_capacity s' ∧ heap_above_inline s') ∧
      (∀ (v : codeunit_sequence_view) s', (v.length : Int) + 1 < 2147483648 →
        ctor_view junk v = some s' → size_in_capacity s' ∧ heap_above_inline s') ∧
      (∀ n, 0 ≤ n → n + 1 < 1073741824 → ∃ s', ctor_i32 junk n = some s') ∧
      (∀ v : codeunit_sequence_view, (v.length : Int) + 1 < 1073741824 →
        ∃ s', ctor_view junk v = some s')) ∧
    (heap_above_inline s → (s.get_capacity = 15 ↔ s.alloc = false)) := by
  refine ⟨⟨empty_same_store s hs, fun r => subsequence_same_store s r hs,
      fun r d => replace_range_same_store s r d hs,
      fun cs => self_trim_start_same_store s cs hs,
      fun cs => self_trim_end_same_store s cs hs,
      fun cs => self_trim_same_store s cs hs,
      fun r => reverse_same_store s r hs⟩, ⟨?_, ?_, ?_, ?_, ?_⟩,
    ⟨fun v hn => append_view_exists junk s v hs hn,
      fun count c h0 hn => append_exists junk s count c hs h0 hn,
      fun n hn => reserve_exists junk s n hs hn,
      fun n hn => empty_size_exists junk s n hs hn,
      fun hw fuel p d r hf hn => replace_exists junk fuel s p d r hw hf hn⟩,
    ⟨by decide, by decide, ?_, ?_, ?_, ?_⟩, inline_iff_capacity s⟩
  · intro v s' hn h
    obtain ⟨a, _, c⟩ := append_view_fields junk s s' v hs hn h
    exact ⟨a, c⟩
  · intro count c s' h0 hn h
    obtain ⟨a, _, b⟩ := append_fields junk s s' count c hs h0 hn h
    exact ⟨a, b⟩
  · intro n s' hn h
    obtain ⟨a, _, _, b⟩ := reserve_fields junk s s' n hs hn h
    exact ⟨a, b⟩
  · intro n s' hn h
    obtain ⟨a, _, _, b⟩ := empty_size_fields junk s s' n hs hn h
    exact ⟨a, b⟩
  · intro fuel p d r s' hn h
    exact replace_fields junk fuel s s' p d r hs hn h
  · intro n s' hn0 hn h
    obtain ⟨a, _, _, b⟩ := ctor_i32_fields junk s' n hn0 hn h
    exact ⟨a, b⟩
  · intro v s' hn h
    obtain ⟨a, _, b⟩ := ctor_view_fields junk s' v hn h
    exact ⟨a, b⟩
  · intro n h0 hn
    obtain ⟨s0, h, _⟩ := ctor_i32_fit junk n h0 hn
    exact ⟨s0, h⟩
  · intro v hn
    obtain ⟨y, h, _⟩ := ctor_view_spec junk v hn
    exact ⟨y, h⟩

/-- C18, instance: on `"abc"`, `reserve(20)` returns a heap sequence of size 3 and
capacity 31, and `subsequence` over `[2, 5)` keeps the inequality. -/
theorem C18_size_capacity_witness :
    size_in_capacity ex_abc ∧ same_store ex_abc (ex_abc.subsequence range_2_5) ∧
      (∃ s', reserve junk_cd ex_abc 20 = some s') ∧
      (∀ s', reserve junk_cd ex_abc 20 = some s' →
        size_in_capacity s' ∧ (heap_above_inline ex_abc → heap_above_inline s')) ∧
      (Option.map (fun t => (t.alloc, t.size, t.get_capacity)) (reserve junk_cd ex_abc 20)
        = some (true, 3, 31)) :=
  ⟨by decide, (C18_size_capacity junk_cd ex_abc (by decide)).1.2.1 range_2_5,
    (C18_size_capacity junk_cd ex_abc (by decide)).2.2.1.2.2.1 20 (by decide),
    fun s' h => (C18_size_capacity junk_cd ex_abc (by decide)).2.1.2.2.1 20 s' (by decide) h,
    by decide⟩

end ostr

/-! ## `text::reverse` -/

namespace ostr

open codeunit_sequence

theorem wf_codepoint_cons (lead : Nat) (conts : List Nat) (h : wf_codepoint (lead :: conts)) :
    unicode.parse_utf8_length lead = (conts.length : Int) + 1 ∧
      ∀ b ∈ conts, unicode.parse_utf8_length b = 0 := h

theorem wf_codepoint_length (c : List Nat) (h : wf_codepoint c) :
    ∃ lead conts, c = lead :: conts ∧
      (unicode.parse_utf8_length lead).toNat = c.length ∧
      unicode.parse_utf8_length lead ≠ 0 ∧ ∀ b ∈ conts, unicode.parse_utf8_length b = 0 := by
  cases c with
  | nil => exact absurd h (by simp [wf_codepoint])
  | cons lead conts =>
    obtain ⟨h1, h2⟩ := wf_codepoint_cons lead conts h
    refine ⟨lead, conts, rfl, ?_, ?_, h2⟩
    · rw [h1]; simp
    · rw [h1]; omega

theorem size_walk_flatten (cps : List (List Nat)) (hw : ∀ c ∈ cps, wf_codepoint c)
    (fuel : Nat) (hf : cps.flatten.length ≤ fuel) :
    text_view.size_walk fuel cps.flatten = cps.length := by
  induction cps generalizing fuel with
  | nil => cases fuel <;> rfl
  | cons c cps ih =>
    obtain ⟨lead, conts, hc, hlen, _, _⟩ := wf_codepoint_length c (hw c (by simp))
    rw [List.flatten_cons, List.length_append] at hf
    cases fuel with
    | zero => rw [hc, List.length_cons] at hf; omega
    | succ fuel =>
      rw [List.flatten_cons]
      have hd : (c ++ cps.flatten) = lead :: (conts ++ cps.flatten) := by rw [hc]; rfl
      rw [hd, text_view.size_walk, hlen, ← hd, List.drop_left,
        ih (fun d hd => hw d (by simp [hd])) fuel
          (by rw [hc, List.length_cons] at hf; omega)]
      simp [Nat.add_comm]

theorem index_walk_flatten (cps : List (List Nat)) (hw : ∀ c ∈ cps, wf_codepoint c)
    (n : Nat) : text_view.index_walk n cps.flatten = (cps.take n).flatten.length := by
  induction n generalizing cps with
  | zero => cases cps <;> rfl
  | succ n ih =>
    cases cps with
    | nil => rfl
    | cons c cps =>
      obtain ⟨lead, conts, hc, hlen, _, _⟩ := wf_codepoint_length c (hw c (by simp))
      rw [List.flatten_cons]
      have hd : (c ++ cps.flatten) = lead :: (conts ++ cps.flatten) := by rw [hc]; rfl
      rw [hd, text_view.index_walk, hlen, ← hd, List.drop_left,
        ih cps (fun d hd => hw d (by simp [hd]))]
      simp

theorem getD_reverse_nat (l : List Nat) (n : Nat) (h : n < l.length) :
    l.reverse.getD n 0 = l.getD (l.length - 1 - n) 0 := by
  rw [List.getD_eq_getElem?_getD, List.getD_eq_getElem?_getD, List.getElem?_reverse h]

theorem getD_drop_nat (l : List Nat) (k n : Nat) : (l.drop k).getD n 0 = l.getD (k + n) 0 := by
  rw [List.getD_eq_getElem?_getD, List.getD_eq_getElem?_getD, List.getElem?_drop]

theorem getD_take_nat (l : List Nat) (k n : Nat) (h : n < k) :
    (l.take k).getD n 0 = l.getD n 0 := by
  rw [List.getD_eq_getElem?_getD, List.getD_eq_getElem?_getD, List.getElem?_take_of_lt h]

theorem reverse_data (s : codeunit_sequence) (r : index_interval) (lo hi : Nat)
    (h0 : 0 ≤ s.size) (hl : s.size ≤ s.data.length)
    (hmin : (r.select s.size).get_inclusive_min = lo)
    (hmax : (r.select s.size).get_exclusive_max = hi) (hle : lo ≤ hi) :
    (s.reverse r).data
      = s.data.take lo ++ ((s.data.take hi).drop lo).reverse ++ s.data.drop hi := by
  have hb := select_max_bounds r s.size h0
  rw [hmax] at hb
  have hhi : hi ≤ s.data.length := by omega
  have hlen1 : (s.data.take lo).length = lo := by rw [List.length_take]; omega
  have hlen2 : ((s.data.take hi).drop lo).reverse.length = hi - lo := by
    rw [List.length_reverse, List.length_drop, List.length_take]; omega
  apply list_ext_rd
  · rw [(reverse_fields s r).2.2.2.2]
    simp only [List.length_append, hlen1, hlen2, List.length_drop]
    omega
  · intro x
    rw [reverse_rd s r h0 hl, hmin, hmax]
    by_cases hx : 0 ≤ x
    · obtain ⟨n, rfl⟩ := Int.eq_ofNat_of_zero_le hx
      rw [rd_natCast, rd_natCast]
      by_cases h1 : n < lo
      · rw [if_neg (by omega), List.append_assoc, List.getD_append _ _ _ _ (by omega),
          getD_take_nat _ _ _ h1]
      · by_cases h2 : n < hi
        · rw [if_pos ⟨by omega, by omega⟩, List.getD_append _ _ _ _
            (by rw [List.length_append, hlen1, hlen2]; omega),
            List.getD_append_right _ _ _ _ (by omega), hlen1,
            getD_reverse_nat _ _ (by rw [List.length_drop, List.length_take]; omega),
            getD_drop_nat, getD_take_nat _ _ _ (by
              rw [List.length_drop, List.length_take]; omega)]
          have e : (lo : Int) + hi - 1 - n = ((lo + hi - 1 - n : Nat) : Int) := by omega
          rw [e, rd_natCast]
          congr 1
          rw [List.length_drop, List.length_take]
          omega
        · rw [if_neg (by omega), List.getD_append_right _ _ _ _
            (by rw [List.length_append, hlen1, hlen2]; omega), List.length_append, hlen1,
            hlen2, getD_drop_nat]
          congr 1; omega
    · rw [if_neg (by omega)]
      unfold rd
      rw [if_neg hx, if_neg hx]

theorem reverse_empty_selection (s : codeunit_sequence) (r : index_interval)
    (h0 : 0 ≤ s.size) (hl : s.size ≤ s.data.length)
    (he : (r.select s.size).get_exclusive_max ≤ (r.select s.size).get_inclusive_min) :
    s.reverse r = s := by
  obtain ⟨f1, f2, f3, _, f5⟩ := reverse_fields s r
  refine eq_of_fields _ _ f3 f1 f2 (list_ext_rd _ _ f5 ?_)
  intro x
  rw [reverse_rd s r h0 hl, if_neg (by omega)]

end ostr

namespace ostr
open codeunit_sequence

theorem operator_index_nat (s : codeunit_sequence) (n : Nat) :
    s.operator_index (n : Int) = s.data.getD n 0 := by
  unfold codeunit_sequence.operator_index codeunit_sequence.operator_index_pos
  rw [if_pos (by omega), add_zero, rd_natCast]

theorem getD_append_mid (A R : List Nat) (x : Nat) : (A ++ x :: R).getD A.length 0 = x := by
  rw [List.getD_append_right _ _ _ _ (le_refl _)]
  simp

theorem reverse_loop_skip (X : List Nat) (hX : ∀ b ∈ X, unicode.parse_utf8_length b = 0)
    (k : Nat) (seq : codeunit_sequence) (A R : List Nat) (lb : Int)
    (hd : seq.data = A ++ X ++ R) :
    text.reverse_loop (X.length + k) seq (A.length : Int) lb
      = text.reverse_loop k seq ((A.length + X.length : Nat) : Int) lb := by
  induction X generalizing A with
  | nil => simp
  | cons x X ih =>
    have hx : unicode.parse_utf8_length x = 0 := hX x (by simp)
    have hb : seq.operator_index (A.length : Int) = x := by
      rw [operator_index_nat, hd, List.append_assoc, List.cons_append]
      exact getD_append_mid A (X ++ R) x
    rw [show (x :: X).length + k = (X.length + k) + 1 by simp; omega, text.reverse_loop, hb,
      if_neg (by rw [hx]; simp)]
    have := ih (fun b hb => hX b (by simp [hb])) (A ++ [x]) (by rw [hd]; simp)
    rw [List.length_append, List.length_singleton] at this
    push_cast at this ⊢
    rw [this]
    congr 1
    simp; omega

theorem inclusive_select (a b n : Int) (ha : 0 ≤ a) (hab : a ≤ b) (hb : b < n) :
    ((index_interval.mk (bound.inclusive a) (bound.inclusive b)).select n).get_inclusive_min = a ∧
      ((index_interval.mk (bound.inclusive a) (bound.inclusive b)).select n).get_exclusive_max
        = b + 1 := by
  simp only [index_interval.select, index_interval.from_end, index_interval.clamp,
    index_interval.get_inclusive_min, index_interval.get_exclusive_max]
  rw [if_neg (by omega), if_neg (by omega)]
  omega

theorem reverse_loop_chunk (lead : Nat) (conts : List Nat)
    (hlead : unicode.parse_utf8_length lead ≠ 0)
    (hconts : ∀ b ∈ conts, unicode.parse_utf8_length b = 0) (k : Nat)
    (seq : codeunit_sequence) (P R : List Nat)
    (hd : seq.data = P ++ (conts.reverse ++ [lead]) ++ R) (h0 : 0 ≤ seq.size)
    (hl : seq.size ≤ seq.data.length)
    (hin : ((P.length + conts.length + 1 : Nat) : Int) ≤ seq.size) :
    text.reverse_loop (conts.length + 1 + k) seq (P.length : Int) (P.length : Int)
      = text.reverse_loop k ⟨seq.alloc, seq.size, seq.capacity, P ++ (lead :: conts) ++ R⟩
          ((P.length + conts.length + 1 : Nat) : Int)
          ((P.length + conts.length + 1 : Nat) : Int) := by
  have hskip := reverse_loop_skip conts.reverse
    (fun b hb => hconts b (List.mem_reverse.mp hb)) (1 + k) seq P ([lead] ++ R)
    (P.length : Int) (by rw [hd]; simp)
  rw [List.length_reverse] at hskip
  rw [show conts.length + 1 + k = conts.length + (1 + k) by omega, hskip,
    show 1 + k = k + 1 by omega, text.reverse_loop]
  have hb : seq.operator_index ((P.length + conts.length : Nat) : Int) = lead := by
    rw [operator_index_nat, hd]
    have e : P ++ (conts.reverse ++ [lead]) ++ R = (P ++ conts.reverse) ++ lead :: R := by simp
    have e2 : P.length + conts.length = (P ++ conts.reverse).length := by simp
    rw [e, e2]
    exact getD_append_mid _ R lead
  rw [hb, if_pos hlead]
  obtain ⟨m1, m2⟩ := inclusive_select (P.length : Int) ((P.length + conts.length : Nat) : Int)
    seq.size (by omega) (by push_cast; omega) (by push_cast at hin ⊢; omega)
  have hrd := reverse_data seq
    ⟨bound.inclusive (P.length : Int), bound.inclusive ((P.length + conts.length : Nat) : Int)⟩
    P.length (P.length + conts.length + 1) h0 hl m1 (by rw [m2]; push_cast; ring) (by omega)
  obtain ⟨f1, f2, f3, _, _⟩ := reverse_fields seq
    ⟨bound.inclusive (P.length : Int), bound.inclusive ((P.length + conts.length : Nat) : Int)⟩
  have hseq : seq.reverse
      ⟨bound.inclusive (P.length : Int), bound.inclusive ((P.length + conts.length : Nat) : Int)⟩
      = ⟨seq.alloc, seq.size, seq.capacity, P ++ (lead :: conts) ++ R⟩ := by
    refine eq_of_fields _ _ f3 f1 f2 ?_
    rw [hrd, hd]
    have t1 : (P ++ (conts.reverse ++ [lead]) ++ R).take P.length = P := by
      rw [List.append_assoc, List.take_left]
    have t2 : ((P ++ (conts.reverse ++ [lead]) ++ R).take (P.length + conts.length + 1)).drop
        P.length = conts.reverse ++ [lead] := by
      have e : P.length + conts.length + 1 = (P ++ (conts.reverse ++ [lead])).length := by
        simp; omega
      rw [e, List.take_left, List.drop_left]
    have t3 : (P ++ (conts.reverse ++ [lead]) ++ R).drop (P.length + conts.length + 1) = R := by
      have e : P.length + conts.length + 1 = (P ++ (conts.reverse ++ [lead])).length := by
        simp; omega
      rw [e, List.drop_left]
    rw [t1, t2, t3]
    simp
  rw [hseq]
  congr 1

theorem reverse_loop_chunks (cs : List (List Nat)) (hw : ∀ c ∈ cs, wf_codepoint c)
    (seq : codeunit_sequence) (P R : List Nat)
    (hd : seq.data = P ++ (cs.map List.reverse).flatten ++ R) (h0 : 0 ≤ seq.size)
    (hl : seq.size ≤ seq.data.length)
    (hin : ((P.length + cs.flatten.length : Nat) : Int) ≤ seq.size) :
    text.reverse_loop cs.flatten.length seq (P.length : Int) (P.length : Int)
      = ⟨seq.alloc, seq.size, seq.capacity, P ++ cs.flatten ++ R⟩ := by
  induction cs generalizing seq P with
  | nil =>
    simp only [List.flatten_nil, List.length_nil, text.reverse_loop, List.append_nil]
    exact eq_of_fields _ _ rfl rfl rfl (by rw [hd]; simp)
  | cons c cs ih =>
    obtain ⟨lead, conts, hc, _, hlead, hconts⟩ := wf_codepoint_length c (hw c (by simp))
    subst hc
    have hlen : (lead :: conts).length + cs.flatten.length
        = conts.length + 1 + cs.flatten.length := by simp
    rw [List.flatten_cons, List.length_append] at hin ⊢
    rw [hlen] at hin ⊢
    have hd' : seq.data = P ++ (conts.reverse ++ [lead]) ++ ((cs.map List.reverse).flatten ++ R) := by
      rw [hd]; simp
    rw [reverse_loop_chunk lead conts hlead hconts cs.flatten.length seq P
      ((cs.map List.reverse).flatten ++ R) hd' h0 hl (by push_cast at hin ⊢; omega)]
    have hP : P.length + conts.length + 1 = (P ++ lead :: conts).length := by simp; omega
    have hdl : seq.data.length
        = (P ++ (lead :: conts) ++ ((cs.map List.reverse).flatten ++ R)).length := by
      rw [hd']
      simp only [List.length_append, List.length_cons, List.length_reverse, List.length_nil]
    rw [hP, ih (fun d hd => hw d (by simp [hd]))
      ⟨seq.alloc, seq.size, seq.capacity,
        P ++ (lead :: conts) ++ ((cs.map List.reverse).flatten ++ R)⟩ (P ++ lead :: conts)
      (by simp) h0 (by show seq.size ≤ _; rw [← hdl]; exact hl)
      (by show _ ≤ seq.size; rw [← hP]; push_cast at hin ⊢; omega)]
    exact eq_of_fields _ _ rfl rfl rfl (by simp)

end ostr

namespace ostr
open codeunit_sequence

theorem length_flatten_reverse (L : List (List Nat)) :
    L.reverse.flatten.length = L.flatten.length := by
  simp [List.length_flatten, List.map_reverse, List.sum_reverse]

theorem flatten_take_le (L : List (List Nat)) (a b : Nat) (h : a ≤ b) :
    (L.take a).flatten.length ≤ (L.take b).flatten.length := by
  have e : L.take b = L.take a ++ (L.take b).drop a := by
    have := List.take_append_drop a (L.take b)
    rw [List.take_take, Nat.min_eq_left h] at this
    exact this.symm
  rw [e, List.flatten_append, List.length_append]
  omega

theorem flatten_take_le_all (L : List (List Nat)) (a : Nat) :
    (L.take a).flatten.length ≤ L.flatten.length := by
  have e := List.take_append_drop a L
  have : L.flatten = (L.take a).flatten ++ (L.drop a).flatten := by
    rw [← List.flatten_append, e]
  rw [this, List.length_append]
  omega

theorem concrete_select (A B n : Int) (hA0 : 0 ≤ A) (hAn : A ≤ n) (hB0 : 0 ≤ B) (hBn : B ≤ n) :
    ((index_interval.mk (bound.inclusive A) (bound.exclusive B)).select n).get_inclusive_min = A ∧
      ((index_interval.mk (bound.inclusive A) (bound.exclusive B)).select n).get_exclusive_max
        = B := by
  simp only [index_interval.select, index_interval.from_end, index_interval.clamp,
    index_interval.get_inclusive_min, index_interval.get_exclusive_max]
  rw [if_neg (by omega), if_neg (by omega)]
  omega

theorem codeunit_range_eq (cps : List (List Nat)) (hw : ∀ c ∈ cps, wf_codepoint c)
    (r : index_interval) :
    text_view.get_codeunit_range cps.flatten r
      = ⟨bound.inclusive
          (((cps.take (r.select cps.length).get_inclusive_min.toNat).flatten.length : Nat) : Int),
        bound.exclusive
          (((cps.take (r.select cps.length).get_exclusive_max.toNat).flatten.length : Nat)
            : Int)⟩ := by
  unfold text_view.get_codeunit_range text_view.get_codepoint_index text_view.size
  rw [size_walk_flatten cps hw _ (le_refl _)]
  simp only [index_walk_flatten cps hw]


theorem interval_size_toNat (A B : Nat) (h : A ≤ B) :
    (index_interval.mk (bound.inclusive (A : Int)) (bound.exclusive (B : Int))).size.toNat
      = B - A := by
  unfold index_interval.size index_interval.is_empty
  simp only [index_interval.get_inclusive_min, index_interval.get_exclusive_max]
  split <;> rename_i hc <;> simp only [decide_eq_true_eq] at hc <;> omega

theorem interval_size_empty (A B : Nat) (h : B ≤ A) :
    (index_interval.mk (bound.inclusive (A : Int)) (bound.exclusive (B : Int))).size.toNat
      = 0 := by
  unfold index_interval.size index_interval.is_empty
  simp only [index_interval.get_inclusive_min, index_interval.get_exclusive_max]
  rw [if_pos (by simp only [decide_eq_true_eq]; omega)]
  rfl

theorem text_reverse_spec (t : text) (cps : List (List Nat)) (r : index_interval)
    (hs : wf t.sequence_) (hv : t.view = cps.flatten) (hw : ∀ c ∈ cps, wf_codepoint c)
    (a b : Nat) (ha : a = (r.select cps.length).get_inclusive_min.toNat)
    (hb : b = (r.select cps.length).get_exclusive_max.toNat) :
    (t.reverse r).sequence_
      = ⟨t.sequence_.alloc, t.sequence_.size, t.sequence_.capacity,
          (cps.take a ++ ((cps.take b).drop a).reverse ++ cps.drop (max a b)).flatten
            ++ t.sequence_.data.drop t.sequence_.size.toNat⟩ := by
  have hlenv := length_view t.sequence_ hs
  obtain ⟨h0, hcap, hlen, _⟩ := hs
  have hl : t.sequence_.size ≤ t.sequence_.data.length := by omega
  have hv' : t.sequence_.view = cps.flatten := hv
  rw [hv'] at hlenv
  have hdata : t.sequence_.data
      = cps.flatten ++ t.sequence_.data.drop t.sequence_.size.toNat := by
    rw [← hv', view_eq, List.take_append_drop]
  generalize t.sequence_.data.drop t.sequence_.size.toNat = tl at hdata ⊢
  unfold text.reverse
  rw [hv, codeunit_range_eq cps hw r, ← ha, ← hb]
  simp only [index_interval.get_inclusive_min]
  have hA := flatten_take_le_all cps a
  have hB := flatten_take_le_all cps b
  obtain ⟨m1, m2⟩ := concrete_select ((cps.take a).flatten.length : Int)
    ((cps.take b).flatten.length : Int) t.sequence_.size (by omega) (by omega) (by omega)
    (by omega)
  obtain ⟨f1, f2, f3, _, _⟩ := reverse_fields t.sequence_
    ⟨bound.inclusive ((cps.take a).flatten.length : Int),
      bound.exclusive ((cps.take b).flatten.length : Int)⟩
  by_cases hab : a < b
  · have e1 : cps.take b = cps.take a ++ (cps.take b).drop a := by
      have := List.take_append_drop a (cps.take b)
      rw [List.take_take, Nat.min_eq_left (le_of_lt hab)] at this
      exact this.symm
    have e2 : cps.flatten = (cps.take a).flatten ++ ((cps.take b).drop a).flatten
        ++ (cps.drop b).flatten := by
      rw [← List.flatten_append, ← e1, ← List.flatten_append, List.take_append_drop]
    have hBA : (cps.take b).flatten.length
        = (cps.take a).flatten.length + ((cps.take b).drop a).flatten.length := by
      rw [← List.length_append, ← List.flatten_append, ← e1]
    have hmid : ∀ c ∈ ((cps.take b).drop a).reverse, wf_codepoint c := by
      intro c hc
      exact hw c (List.mem_of_mem_take (List.mem_of_mem_drop (List.mem_reverse.mp hc)))
    rw [Nat.max_eq_right (le_of_lt hab)]
    generalize hmd : (cps.take b).drop a = mid at *
    generalize hP : (cps.take a).flatten = P at *
    generalize hQ : (cps.drop b).flatten = Q at *
    rw [hBA] at m1 m2 f1 f2 f3 ⊢
    rw [e2] at hdata hlenv
    have hrd := reverse_data t.sequence_
      ⟨bound.inclusive (P.length : Int), bound.exclusive ((P.length + mid.flatten.length : Nat) : Int)⟩
      P.length (P.length + mid.flatten.length) h0 hl m1 m2 (by omega)
    have t1 : t.sequence_.data.take P.length = P := by
      rw [hdata, List.append_assoc, List.append_assoc, List.take_left]
    have t2 : (t.sequence_.data.take (P.length + mid.flatten.length)).drop P.length
        = mid.flatten := by
      have e : P.length + mid.flatten.length = (P ++ mid.flatten).length := by simp
      rw [hdata, List.append_assoc (P ++ mid.flatten), e, List.take_left, List.drop_left]
    have t3 : t.sequence_.data.drop (P.length + mid.flatten.length) = Q ++ tl := by
      have e : P.length + mid.flatten.length = (P ++ mid.flatten).length := by simp
      rw [hdata, List.append_assoc (P ++ mid.flatten), e, List.drop_left]
    rw [t1, t2, t3, List.reverse_flatten, ← List.map_reverse] at hrd
    have hseq : t.sequence_.reverse
        ⟨bound.inclusive (P.length : Int),
          bound.exclusive ((P.length + mid.flatten.length : Nat) : Int)⟩
        = ⟨t.sequence_.alloc, t.sequence_.size, t.sequence_.capacity,
            P ++ (mid.reverse.map List.reverse).flatten ++ (Q ++ tl)⟩ :=
      eq_of_fields _ _ f3 f1 f2 hrd
    rw [hseq, interval_size_toNat _ _ (by omega), Nat.add_sub_cancel_left,
      ← length_flatten_reverse mid]
    have hlen2 : (P ++ (mid.reverse.map List.reverse).flatten ++ (Q ++ tl)).length
        = t.sequence_.data.length := by
      rw [← hrd, (reverse_fields t.sequence_ _).2.2.2.2]
    rw [reverse_loop_chunks mid.reverse hmid
      ⟨t.sequence_.alloc, t.sequence_.size, t.sequence_.capacity,
        P ++ (mid.reverse.map List.reverse).flatten ++ (Q ++ tl)⟩ P (Q ++ tl) rfl h0
      (by show t.sequence_.size ≤ _; rw [hlen2]; exact hl)
      (by
        show _ ≤ t.sequence_.size
        rw [length_flatten_reverse, ← hlenv]
        simp only [List.length_append]
        push_cast
        omega)]
    simp [hP, hQ]
  · have hba : b ≤ a := by omega
    have hBA := flatten_take_le cps b a hba
    rw [reverse_empty_selection t.sequence_ _ h0 hl (by rw [m1, m2]; omega),
      interval_size_empty _ _ hBA]
    simp only [text.reverse_loop]
    have hnil : (cps.take b).drop a = [] := by
      apply List.drop_eq_nil_of_le
      rw [List.length_take]; omega
    rw [hnil, Nat.max_eq_left hba]
    simp only [List.reverse_nil, List.append_nil, List.take_append_drop]
    exact eq_of_fields _ _ rfl rfl rfl hdata


theorem reversed_range_facts (cps : List (List Nat)) (a b : Nat) :
    (cps.take a ++ ((cps.take b).drop a).reverse ++ cps.drop (max a b)).flatten.length
        = cps.flatten.length ∧
      ∀ c ∈ cps.take a ++ ((cps.take b).drop a).reverse ++ cps.drop (max a b), c ∈ cps := by
  constructor
  · by_cases hab : a < b
    · have e1 : cps.take b = cps.take a ++ (cps.take b).drop a := by
        have := List.take_append_drop a (cps.take b)
        rw [List.take_take, Nat.min_eq_left (le_of_lt hab)] at this
        exact this.symm
      have e2 : cps.flatten = (cps.take a).flatten ++ ((cps.take b).drop a).flatten
          ++ (cps.drop b).flatten := by
        rw [← List.flatten_append, ← e1, ← List.flatten_append, List.take_append_drop]
      rw [Nat.max_eq_right (le_of_lt hab)]
      conv_rhs => rw [e2]
      simp only [List.flatten_append, List.length_append, length_flatten_reverse]
    · have hnil : (cps.take b).drop a = [] := by
        apply List.drop_eq_nil_of_le
        rw [List.length_take]; omega
      rw [hnil, Nat.max_eq_left (by omega)]
      simp only [List.reverse_nil, List.append_nil, List.take_append_drop]
  · intro c hc
    rcases List.mem_append.mp hc with h | h
    · rcases List.mem_append.mp h with h | h
      · exact List.mem_of_mem_take h
      · exact List.mem_of_mem_take (List.mem_of_mem_drop (List.mem_reverse.mp h))
    · exact List.mem_of_mem_drop h

/-- C15: for a text whose sequence satisfies the data-model invariants and whose bytes
are the concatenation of the well-formed UTF-8 codepoints `cps` (each 1 to 4 bytes),
and a codepoint range that resolves to `[a, b)`: after `text::reverse(range)` the bytes
are the concatenation of the codepoints before `a` in their order, the codepoints of
`[a, b)` in reverse order, and the codepoints from `b` on in their order, each
codepoint with exactly its bytes; every codepoint of the result is one of `cps`, so the
result is well-formed UTF-8 again; the byte size, the capacity and the representation
are unchanged and the sequence satisfies the invariants again. -/
theorem C15_text_reverse (t : text) (cps : List (List Nat)) (r : index_interval)
    (hs : wf t.sequence_) (hv : t.view = cps.flatten) (hw : ∀ c ∈ cps, wf_codepoint c)
    (a b : Nat) (ha : a = (r.select cps.length).get_inclusive_min.toNat)
    (hb : b = (r.select cps.length).get_exclusive_max.toNat) :
    (t.reverse r).view
        = (cps.take a ++ ((cps.take b).drop a).reverse ++ cps.drop (max a b)).flatten ∧
      (∀ c ∈ cps.take a ++ ((cps.take b).drop a).reverse ++ cps.drop (max a b),
        wf_codepoint c) ∧
      (t.reverse r).sequence_.size = t.sequence_.size ∧
      (t.reverse r).sequence_.get_capacity = t.sequence_.get_capacity ∧
      (t.reverse r).sequence_.alloc = t.sequence_.alloc ∧
      wf (t.reverse r).sequence_ := by
  have hspec := text_reverse_spec t cps r hs hv hw a b ha hb
  obtain ⟨hlen, hmem⟩ := reversed_range_facts cps a b
  have hlenv := length_view t.sequence_ hs
  have hv' : t.sequence_.view = cps.flatten := hv
  rw [hv'] at hlenv
  obtain ⟨h0, hcap, hdl, hterm⟩ := hs
  have hsz : t.sequence_.size.toNat
      = (cps.take a ++ ((cps.take b).drop a).reverse ++ cps.drop (max a b)).flatten.length := by
    rw [hlen]; omega
  have hdata : t.sequence_.data
      = cps.flatten ++ t.sequence_.data.drop t.sequence_.size.toNat := by
    rw [← hv', view_eq, List.take_append_drop]
  have hcapeq : (t.reverse r).sequence_.get_capacity = t.sequence_.get_capacity := by
    rw [hspec]; rfl
  refine ⟨?_, fun c hc => hw c (hmem c hc), by rw [hspec], hcapeq, by rw [hspec], ?_⟩
  · show (t.reverse r).sequence_.view = _
    rw [hspec, view_eq]
    show List.take t.sequence_.size.toNat (_ ++ _) = _
    rw [hsz, List.take_left]
  · refine ⟨by rw [hspec]; exact h0, by rw [hcapeq, hspec]; exact hcap, ?_, ?_⟩
    · rw [hcapeq, ← hdl, hspec]
      show ((_ ++ _ : List Nat).length : Int) = _
      rw [List.length_append, hlen]
      conv_rhs => rw [hdata]
      rw [List.length_append]
    · rw [hspec]
      show rd (_ ++ _) t.sequence_.size = 0
      have e : t.sequence_.size = ((t.sequence_.size.toNat : Nat) : Int) := by omega
      rw [e, rd_natCast]
      rw [e, rd_natCast] at hterm
      rw [List.getD_append_right _ _ _ _ (by rw [hsz]), hsz, Nat.sub_self]
      rw [hdata, List.getD_append_right _ _ _ _ (by omega)] at hterm
      have e2 : t.sequence_.size.toNat - cps.flatten.length = 0 := by omega
      rw [e2] at hterm
      rw [← hsz]
      exact hterm

/-- C15, instance: in `"aé€😀z"` (1, 2, 3, 4 and 1 bytes) the codepoint range `[1, 4)`
is reversed to `"a😀€éz"`, every codepoint keeping its bytes. -/
theorem C15_text_reverse_witness :
    wf ex_text.sequence_ ∧ ex_text.view = ex_codepoints.flatten ∧
      (∀ c ∈ ex_codepoints, wf_codepoint c) ∧
      (range_1_4.select ex_codepoints.length).get_inclusive_min.toNat = 1 ∧
      (range_1_4.select ex_codepoints.length).get_exclusive_max.toNat = 4 ∧
      (ex_text.reverse range_1_4).view
        = [97, 240, 159, 152, 128, 226, 130, 172, 195, 169, 122] ∧
      wf (ex_text.reverse range_1_4).sequence_ :=
  ⟨by decide, by decide, by decide, by decide, by decide,
    (C15_text_reverse ex_text ex_codepoints range_1_4 (by decide) (by decide) (by decide) 1 4
      (by decide) (by decide)).1.trans (by decide),
    (C15_text_reverse ex_text ex_codepoints range_1_4 (by decide) (by decide) (by decide) 1 4
      (by decide) (by decide)).2.2.2.2.2⟩

end ostr

/-! ## The range splice with a longer destination, `text::write_at` -/

namespace ostr

open codeunit_sequence

theorem replace_range_growth (s : codeunit_sequence) (r : index_interval)
    (d : codeunit_sequence_view)
    (hne : (r.select s.size).get_inclusive_min < (r.select s.size).get_exclusive_max)
    (hlen : (r.select s.size).get_exclusive_max - (r.select s.size).get_inclusive_min
      < (d.length : Int)) :
    s.replace_range r d = s := by
  unfold codeunit_sequence.replace_range
  have he : (r.select s.size).is_empty = false := by
    unfold index_interval.is_empty
    simp only [decide_eq_false_iff_not, not_le]
    exact hne
  have hsz : (r.select s.size).size
      = (r.select s.size).get_exclusive_max - (r.select s.size).get_inclusive_min := by
    unfold index_interval.size
    rw [he]; rfl
  simp only [he, Bool.false_eq_true, if_false, hsz, codeunit_sequence_view.size]
  rw [if_neg (by omega)]

theorem single_select (i n : Int) (h1 : -n ≤ i) (h2 : i < n) :
    ((index_interval.mk (bound.inclusive i) (bound.inclusive i)).select n).get_inclusive_min
        = (if i ≥ 0 then i else i + n) ∧
      ((index_interval.mk (bound.inclusive i) (bound.inclusive i)).select n).get_exclusive_max
        = (if i ≥ 0 then i else i + n) + 1 := by
  simp only [index_interval.select, index_interval.from_end, index_interval.clamp,
    index_interval.get_inclusive_min, index_interval.get_exclusive_max]
  by_cases hi : i < 0
  · rw [if_pos hi, if_neg (by omega)]; omega
  · rw [if_neg hi, if_pos (by omega)]; omega

theorem flatten_take_succ (cps : List (List Nat)) (k : Nat) (hk : k < cps.length) :
    (cps.take (k + 1)).flatten.length
      = (cps.take k).flatten.length + (cps.getD k []).length := by
  rw [List.take_succ, List.getElem?_eq_getElem hk, List.flatten_append, List.length_append,
    List.getD_eq_getElem _ _ hk]
  simp

theorem text_write_at_growth (t : text) (cps : List (List Nat)) (i : Int) (k : Nat)
    (cp : codeunit_sequence_view) (hs : wf t.sequence_) (hv : t.view = cps.flatten)
    (hw : ∀ c ∈ cps, wf_codepoint c) (h1 : -(cps.length : Int) ≤ i)
    (h2 : i < (cps.length : Int)) (hk : (k : Int) = (if i ≥ 0 then i else i + cps.length))
    (hcp : (cps.getD k []).length < cp.length) : t.write_at i cp = t := by
  have hlenv := length_view t.sequence_ hs
  have hv' : t.sequence_.view = cps.flatten := hv
  rw [hv'] at hlenv
  obtain ⟨m1, m2⟩ := single_select i cps.length h1 h2
  rw [← hk] at m1 m2
  have hkn : k < cps.length := by
    have : (k : Int) < cps.length := by rw [hk]; split <;> omega
    omega
  unfold text.write_at text.replace_range
  simp only []
  rw [hv, codeunit_range_eq cps hw, m1, m2]
  have e1 : (k : Int).toNat = k := by omega
  have e2 : ((k : Int) + 1).toNat = k + 1 := by omega
  rw [e1, e2]
  have hsucc := flatten_take_succ cps k hkn
  have hB := flatten_take_le_all cps (k + 1)
  obtain ⟨c1, c2⟩ := concrete_select ((cps.take k).flatten.length : Int)
    ((cps.take (k + 1)).flatten.length : Int) t.sequence_.size (by omega) (by omega)
    (by omega) (by omega)
  have hpos : 0 < (cps.getD k []).length := by
    have hmem : cps.getD k [] ∈ cps := by
      rw [List.getD_eq_getElem _ _ hkn]; exact List.getElem_mem hkn
    obtain ⟨lead, conts, hc, _⟩ := wf_codepoint_length _ (hw _ hmem)
    rw [hc]; simp
  rw [replace_range_growth t.sequence_ _ cp (by rw [c1, c2]; omega) (by rw [c1, c2]; omega)]

/-- C22: for a sequence `s`, a range whose resolved selection `[min, max)` is not
empty and a destination with `len(d) > max - min`, `replace(range, d)` returns `s` as
it is: content, size, capacity, representation and buffer are unchanged.  Consequently,
for a text whose sequence satisfies the data-model invariants and whose bytes are the
well-formed codepoints `cps`, and an index `-n ≤ i < n` that designates the codepoint
number `k`, `text::write_at(i, cp)` returns the text as it is when `cp` has more bytes
than the codepoint number `k`. -/
theorem C22_splice_growth_noop (s : codeunit_sequence) (r : index_interval)
    (d : codeunit_sequence_view)
    (hne : (r.select s.size).get_inclusive_min < (r.select s.size).get_exclusive_max)
    (hlen : (r.select s.size).get_exclusive_max - (r.select s.size).get_inclusive_min
      < (d.length : Int)) :
    s.replace_range r d = s ∧ (s.replace_range r d).view = s.view ∧
      (s.replace_range r d).size = s.size ∧
      (s.replace_range r d).get_capacity = s.get_capacity ∧
      (s.replace_range r d).alloc = s.alloc ∧
      ∀ (t : text) (cps : List (List Nat)) (i : Int) (k : Nat) (cp : codeunit_sequence_view),
        wf t.sequence_ → t.view = cps.flatten → (∀ c ∈ cps, wf_codepoint c) →
        -(cps.length : Int) ≤ i → i < (cps.length : Int) →
        (k : Int) = (if i ≥ 0 then i else i + cps.length) →
        (cps.getD k []).length < cp.length → t.write_at i cp = t := by
  have h := replace_range_growth s r d hne hlen
  refine ⟨h, by rw [h], by rw [h], by rw [h], by rw [h], ?_⟩
  intro t cps i k cp hs hv hw h1 h2 hk hcp
  exact text_write_at_growth t cps i k cp hs hv hw h1 h2 hk hcp

/-- C22, instance: on `"abc"` the range `[2, 5)` resolves to `[2, 3)` and the splice of
`"xy"` changes nothing; on `"aé€😀z"`, `write_at(0, '€')` (3 bytes over the 1 byte of
`'a'`) changes nothing. -/
theorem C22_splice_growth_noop_witness :
    (range_2_5.select ex_abc.size).get_inclusive_min
        < (range_2_5.select ex_abc.size).get_exclusive_max ∧
      (range_2_5.select ex_abc.size).get_exclusive_max
          - (range_2_5.select ex_abc.size).get_inclusive_min
        < (([120, 121] : codeunit_sequence_view).length : Int) ∧
      ex_abc.replace_range range_2_5 [120, 121] = ex_abc ∧
      ex_text.write_at 0 (codepoint.encode 8364) = ex_text :=
  ⟨by decide, by decide,
    (C22_splice_growth_noop ex_abc range_2_5 [120, 121] (by decide) (by decide)).1,
    (C22_splice_growth_noop ex_abc range_2_5 [120, 121] (by decide) (by decide)).2.2.2.2.2
      ex_text ex_codepoints 0 0 (codepoint.encode 8364) (by decide) (by decide) (by decide)
      (by decide) (by decide) (by decide) (by decide)⟩

end ostr

/-! ## `append(count, codeunit)` -/

namespace ostr

open codeunit_sequence

theorem reserve_ready (junk : Nat → Nat) (s : codeunit_sequence) (n : Int) (hs : wf s)
    (hn : n + 1 < 1073741824) :
    ∃ s1, reserve junk s n = some s1 ∧ s1.size = s.size ∧ n ≤ s1.get_capacity ∧
      s.size ≤ s1.get_capacity ∧
      (s1.data.length : Int) = s1.get_capacity + 1 ∧ s1.data.take s.size.toNat = s.view := by
  by_cases hc : n ≤ s.get_capacity
  · exact ⟨s, reserve_noop junk s n hc, rfl, hc, hs.2.1, hs.2.2.1, (view_eq s).symm⟩
  · obtain ⟨s1, m, fresh, hr, _, ha, hcap, hle, hsz, hfl, hd⟩ :=
      reserve_grow junk s n hs (by omega) hn
    have hg := get_capacity_heap s1 ha
    have hv := length_view s hs
    obtain ⟨h0, h1, _, _⟩ := hs
    refine ⟨s1, hr, hsz, by rw [hg]; exact hle, by rw [hg]; omega, ?_, ?_⟩
    · rw [hg, hd, List.length_append, List.length_drop, hcap]
      omega
    · rw [hd]
      have : s.size.toNat = s.view.length := by omega
      rw [this, List.take_left]

theorem append_spec (junk : Nat → Nat) (s : codeunit_sequence) (count : Int) (b : Nat)
    (hs : wf s) (h0 : 0 ≤ count) (hn : s.size + count + 1 < 1073741824) :
    ∃ s1 s', reserve junk s (s.size + count) = some s1 ∧ append junk s count b = some s' ∧
      s'.size = s.size + count ∧ s'.view.take s.size.toNat = s.view ∧
      rd s'.data s'.size = 0 ∧ wf s' ∧
      (b ≠ 0 → s'.view = s.view ++ List.replicate count.toNat b) ∧
      (b = 0 → ∀ i : Int, i ≠ s.size + count → rd s'.data i = rd s1.data i) := by
  obtain ⟨s1, hr, hsz, hcap, hcap0, hlen, htake⟩ := reserve_ready junk s (s.size + count) hs hn
  have hsz0 := hs.1
  obtain ⟨k, hk⟩ := Int.eq_ofNat_of_zero_le h0
  obtain ⟨n, hnn⟩ := Int.eq_ofNat_of_zero_le hsz0
  have hlv := length_view s hs
  by_cases hb : b = 0
  · subst hb
    have hd : ∀ data : List Nat,
        ((codeunit_sequence.mk s1.alloc s1.size s1.capacity data).set_size (s.size + count)).data
          = data := fun data => set_size_data _ _
    have hgc : ∀ data : List Nat,
        ((codeunit_sequence.mk s1.alloc s1.size s1.capacity data).set_size
          (s.size + count)).get_capacity = s1.get_capacity := by
      intro data; rw [set_size_get_capacity]; rfl
    have hss : ∀ data : List Nat,
        ((codeunit_sequence.mk s1.alloc s1.size s1.capacity data).set_size (s.size + count)).size
          = s.size + count := by
      intro data
      exact set_size_size _ _ (by omega) hcap
    refine ⟨s1, (codeunit_sequence.mk s1.alloc s1.size s1.capacity
        (wr s1.data (s.size + count) 0)).set_size (s.size + count),
      hr, ?_, hss _, ?_, ?_, ?_, fun h => absurd rfl h, ?_⟩
    · unfold append
      simp only [hr, ne_eq, not_true_eq_false, if_false]
    · rw [view_eq, hss, hd, List.take_take, Nat.min_eq_left (by omega),
        take_wr _ _ _ _ (by omega), htake]
    · rw [hss, hd]
      exact rd_wr_same _ _ _ (by omega) (by omega)
    · refine ⟨by rw [hss]; omega, by rw [hss, hgc]; exact hcap, ?_, ?_⟩
      · rw [hd, hgc, length_wr]; exact hlen
      · rw [hss, hd]
        exact rd_wr_same _ _ _ (by omega) (by omega)
    · intro _ i hi
      rw [hd, rd_wr _ _ _ _ (by omega) (by omega), if_neg hi]
  · have he : append junk s count b = append_view junk s (List.replicate count.toNat b) := by
      have e1 : ((count.toNat : Nat) : Int) = count := by omega
      unfold append append_view codeunit_sequence.memset
      simp only [codeunit_sequence_view.size, List.length_replicate, e1, hr]
      rw [if_pos hb, if_neg (by omega), hsz]
    obtain ⟨s', a1, a2, a3, a4, _, a6⟩ :=
      append_view_spec junk s (List.replicate count.toNat b) hs
        (by rw [List.length_replicate]; omega)
    rw [List.length_replicate] at a3
    refine ⟨s1, s', hr, by rw [he]; exact a1, by rw [a3]; omega, ?_, a4, a6,
      fun _ => a2, fun h => absurd h hb⟩
    rw [a2]
    have : s.size.toNat = s.view.length := by omega
    rw [this, List.take_left]

/-- C25 (as stated, refuted): the inline sequence `"ab"` left by `subsequence` over
`[0, 2)` of `"abcdef"` satisfies the invariants; after `append(3, '\0')` its size is 5
and the bytes at the indices 3 and 4 are `'d'` and `'e'`, not `'\0'` (the `memset` is
skipped for the byte `'\0'`).  And with `count = 2^30` on the empty sequence nothing is
produced. -/
theorem C25_append_counterexample :
    wf ex_ab_of_abcdef ∧ ex_ab_of_abcdef.view = [97, 98] ∧
      (∃ s', append junk_cd ex_ab_of_abcdef 3 0 = some s' ∧ s'.size = 5 ∧
        rd s'.data 3 = 100 ∧ rd s'.data 4 = 101 ∧ s'.view = [97, 98, 0, 100, 101]) ∧
      wf empty_store ∧ append junk_cd empty_store 1073741824 97 = none := by
  decide

/-- C25 (amended): for a sequence with content `c` that satisfies the data-model
invariants, a count `≥ 0` with `len(c) + count + 1 < 2^30` and a byte `b`:
`append(count, b)` returns a sequence of size `len(c) + count` whose first `len(c)` bytes
are `c` and whose index `size` holds the terminator; when `b` is not `'\0'` the content
is `c` followed by `count` times `b`; when `b` is `'\0'` no byte other than the
terminator is written: every other byte is the one the buffer held after the
`reserve`. -/
theorem C25_append (junk : Nat → Nat) (s : codeunit_sequence) (count : Int) (b : Nat)
    (hs : wf s) (h0 : 0 ≤ count) (hn : s.size + count + 1 < 1073741824) :
    ∃ s1 s', reserve junk s (s.size + count) = some s1 ∧ append junk s count b = some s' ∧
      s'.size = s.size + count ∧ s'.view.take s.size.toNat = s.view ∧
      rd s'.data s'.size = 0 ∧ wf s' ∧
      (b ≠ 0 → s'.view = s.view ++ List.replicate count.toNat b) ∧
      (b = 0 → ∀ i : Int, i ≠ s.size + count → rd s'.data i = rd s1.data i) :=
  append_spec junk s count b hs h0 hn

/-- C25 (amended), instance: `append(14, 'x')` on `"abc"` crosses the inline boundary and
gives `"abc"` followed by fourteen `'x'`. -/
theorem C25_append_witness :
    wf ex_abc ∧ (0 : Int) ≤ 14 ∧ ex_abc.size + 14 + 1 < 1073741824 ∧
      ∃ s', append junk_cd ex_abc 14 120 = some s' ∧ s'.size = 17 ∧ s'.alloc = true ∧
        s'.view = [97, 98, 99] ++ List.replicate 14 120 ∧ rd s'.data s'.size = 0 := by
  obtain ⟨_, s', _, h2, h3, _, h5, _, h7, _⟩ :=
    C25_append junk_cd ex_abc 14 120 (by decide) (by decide) (by decide)
  refine ⟨by decide, by decide, by decide, s', h2, h3, ?_, h7 (by decide), h5⟩
  have e : append junk_cd ex_abc 14 120 = some s' := h2
  have hv : Option.map (fun t => t.alloc) (append junk_cd ex_abc 14 120) = some true := by
    decide
  rw [e] at hv
  exact Option.some.inj hv

end ostr

/-! ## The count returned by `split`, the indices touched by the backward pass -/

namespace ostr

open codeunit_sequence

theorem split_into_spec (s : codeunit_sequence) (sp : codeunit_sequence_view) (hp : sp ≠ [])
    (cull : Bool) (fuel : Nat) (hf : s.view.length < fuel) :
    s.split_into sp cull fuel
      = some ((split_reference sp s.view).filter (fun p => !cull || !p.isEmpty),
          (split_reference sp s.view).length % 4294967296) := by
  unfold codeunit_sequence.split_into
  rw [split_loop_spec sp hp cull fuel s.view [] 0 hf]
  simp

/-- C23: on `"a,b,,c"` split by `","` with `cull_empty = true`, three pieces are appended
to the vector and the count returned is 4: the count is incremented in every round of the
loop, also when the piece of the round is dropped.  With `cull_empty = false` four pieces
are appended and the count is 4.  `text::split` does the same. -/
theorem C23_split_count_counts_culled :
    ex_csv.split_into [44] true 7 = some ([[97], [98], [99]], 4) ∧
      ex_csv.split_into [44] false 7 = some ([[97], [98], [], [99]], 4) ∧
      ex_text_csv.split_into [44] true 7 = some ([[97], [98], [99]], 4) ∧
      ex_text_csv.split_into [44] false 7 = some ([[97], [98], [], [99]], 4) := by
  decide

theorem backward_trace_erase (p d : List Nat) (sel : index_interval) (fuel : Nat)
    (s : codeunit_sequence) (i offset found : Int) (touched : List Int) :
    (replace_backward_trace p d sel fuel s i offset found touched).map Prod.fst
      = replace_backward_loop p d sel fuel s i offset found := by
  induction fuel generalizing s i offset found touched with
  | zero => rfl
  | succ fuel ih =>
    rw [replace_backward_trace, replace_backward_loop]
    simp only []
    split
    · exact ih _ _ _ _ _
    · split
      · exact ih _ _ _ _ _
      · rfl

theorem replace_in_place_eq (junk : Nat → Nat) (fuel : Nat) (s : codeunit_sequence)
    (p d : codeunit_sequence_view) (r : index_interval) (hp : p ≠ [])
    (hc : (s.subview (r.select s.size)).count p ≠ 0) (hpd : p.length < d.length)
    (hcap : ¬ s.get_capacity
      < s.size + ((d.length : Int) - p.length) * (s.subview (r.select s.size)).count p)
    (h0 : 0 ≤ s.size + ((d.length : Int) - p.length) * (s.subview (r.select s.size)).count p) :
    replace junk fuel s p d r
      = (replace_backward_trace p d (r.select s.size) fuel s
          (s.size + ((d.length : Int) - p.length) * (s.subview (r.select s.size)).count p)
          (((d.length : Int) - p.length) * (s.subview (r.select s.size)).count p)
          (s.last_index_of p (r.select s.size) + (p.length : Int) - 1) []).map
        (fun x => x.1.set_size
          (s.size + ((d.length : Int) - p.length) * (s.subview (r.select s.size)).count p)) := by
  rw [replace_backward_unfold junk fuel s p d r hp hc hpd hcap, if_pos h0,
    ← backward_trace_erase]
  cases replace_backward_trace p d (r.select s.size) fuel s
      (s.size + ((d.length : Int) - p.length) * (s.subview (r.select s.size)).count p)
      (((d.length : Int) - p.length) * (s.subview (r.select s.size)).count p)
      (s.last_index_of p (r.select s.size) + (p.length : Int) - 1) [] <;> rfl

/-- C21: on the inline sequence `"aba"` (capacity 15), `replace("a", "aa")` over the whole
sequence finds two matches, the answer size 5 fits the capacity, so the in-place backward
branch is taken; its loop touches, in this order, the indices 3, 5, 3, 4, 1, 2, 0, 1 and
then reads and writes the index `-1`: after the match that starts at index 0 has been
copied, `i` is `-1` and the assignment `data()[i] = data()[i - offset]` is still carried
out.  The same happens on `"ab"`.  The content comes out as `"aabaa"`. -/
theorem C21_backward_pass_touches_index_minus_one :
    wf ex_aba ∧ ex_aba.get_capacity = 15 ∧
      (ex_aba.subview (all_range.select ex_aba.size)).count [97] = 2 ∧
      ex_aba.size + ((([97, 97] : List Nat).length : Int) - ([97] : List Nat).length) * 2
        ≤ ex_aba.get_capacity ∧
      replace_in_place_touched 10 ex_aba [97] [97, 97] all_range
        = some [3, 5, 3, 4, 1, 2, 0, 1, -1, -1] ∧
      (replace junk_cd 10 ex_aba [97] [97, 97] all_range).map (fun t => t.view)
        = some [97, 97, 98, 97, 97] ∧
      replace_in_place_touched 10 ex_ab [97] [97, 97] all_range
        = some [2, 3, 1, 2, 0, 1, -1, -1] ∧
      replace_in_place_touched 10 ex_aba [98] [98, 98] all_range
        = some [3, 4, 2, 3, 1, 2, 0, 0] := by
  decide

end ostr

/-! ## `text::self_trim_end` -/

namespace ostr

open codeunit_sequence

theorem codepoints_walk_flatten (cps : List (List Nat)) (hw : ∀ c ∈ cps, wf_codepoint c)
    (fuel : Nat) (hf : cps.flatten.length ≤ fuel) :
    text_view.codepoints_walk fuel cps.flatten = cps := by
  induction cps generalizing fuel with
  | nil => cases fuel <;> rfl
  | cons c cps ih =>
    obtain ⟨lead, conts, hc, hlen, _, _⟩ := wf_codepoint_length c (hw c (by simp))
    rw [List.flatten_cons, List.length_append] at hf
    cases fuel with
    | zero => rw [hc, List.length_cons] at hf; omega
    | succ fuel =>
      rw [List.flatten_cons]
      have hd : (c ++ cps.flatten) = lead :: (conts ++ cps.flatten) := by rw [hc]; rfl
      rw [hd, text_view.codepoints_walk, hlen, ← hd, List.drop_left, List.take_left,
        ih (fun d hd => hw d (by simp [hd])) fuel
          (by rw [hc, List.length_cons] at hf; omega)]

theorem codepoints_flatten (cps : List (List Nat)) (hw : ∀ c ∈ cps, wf_codepoint c) :
    text_view.codepoints cps.flatten = cps :=
  codepoints_walk_flatten cps hw _ (le_refl _)

/-- Whenever the last codepoint of a non-empty well-formed text is not in the set,
`text::self_trim_end` empties the text. -/
theorem text_self_trim_end_empties (t : text) (cps : List (List Nat))
    (cs : codeunit_sequence_view) (hs : wf t.sequence_) (hv : t.view = cps.flatten)
    (hw : ∀ c ∈ cps, wf_codepoint c) (last : List Nat) (front : List (List Nat))
    (hcps : cps = front ++ [last]) (hlast : text_view.contains cs last = false) :
    (t.self_trim_end cs).view = [] := by
  have hlenv := length_view t.sequence_ hs
  have hv' : t.sequence_.view = cps.flatten := hv
  rw [hv'] at hlenv
  obtain ⟨lead, conts, hc, _⟩ := wf_codepoint_length last (hw last (by rw [hcps]; simp))
  have hpos : 0 < cps.flatten.length := by
    rw [hcps, List.flatten_append, List.length_append, hc]; simp
  unfold text.self_trim_end text.is_empty codeunit_sequence.is_empty
  rw [if_neg (by simp only [decide_eq_true_eq]; omega)]
  simp only []
  rw [hv, codepoints_flatten cps hw, hcps, List.reverse_append, List.reverse_singleton,
    List.singleton_append, text.self_trim_end_loop, hlast]
  simp only [Bool.not_false, if_true]
  show (t.sequence_.subsequence ⟨bound.inclusive 0, bound.exclusive 0⟩).view = []
  rw [(subsequence_spec t.sequence_ _ hs).1]
  apply slice_of_le
  simp only [index_interval.select, index_interval.from_end, index_interval.clamp,
    index_interval.get_inclusive_min, index_interval.get_exclusive_max]
  have := hs.1
  omega

/-- C24: on the text `"aé€😀z"` and the set `" "`, the last codepoint `'z'` is not in the
set and `text::self_trim_end` leaves the empty text instead of the text as it was: the
byte offset stays `0` and the range `{ '[', 0, 0, ')' }` handed to `subsequence` is
empty.  `text::self_trim_start` on the same input leaves the text unchanged.  With a
trailing run to remove, `"é€  "` becomes `"é€"`, `"aé€😀z"` trimmed by `"z"` loses the
`'z'`, and `"  "` becomes empty. -/
theorem C24_text_self_trim_end_empties_untrimmed_text :
    wf ex_text.sequence_ ∧ text_view.codepoints ex_text.view = ex_codepoints ∧
      (∀ c ∈ ex_codepoints, wf_codepoint c) ∧
      text_view.contains [32] [122] = false ∧
      (ex_text.self_trim_end [32]).view = [] ∧
      (ex_text.self_trim_start [32]).view = ex_text.view ∧
      (ex_text_trailing.self_trim_end [32]).view = [195, 169, 226, 130, 172] ∧
      (ex_text.self_trim_end [122]).view
        = [97, 195, 169, 226, 130, 172, 240, 159, 152, 128] ∧
      (ex_text_spaces.self_trim_end [32]).view = [] := by
  decide

end ostr

/-! ## View arguments inside and outside the buffer -/

namespace ostr

open codeunit_sequence

theorem std_copy_eq_splice_assign (src : List Nat) :
    ∀ (buf : List Nat) (k : Int), std_copy src buf k = splice_assign src buf k := by
  induction src with
  | nil => intro buf k; rfl
  | cons c cs ih => intro buf k; simp only [std_copy, splice_assign]; exact ih _ _

theorem copy_borrowed_outside_from (d : List Nat) (pos : Int) :
    ∀ (k : Nat) (buf : List Nat) (i : Nat), i + k ≤ d.length →
      copy_borrowed (borrowed_view.outside d) pos k buf (i : Int)
        = std_copy ((d.drop i).take k) buf (pos + i) := by
  intro k
  induction k with
  | zero => intro buf i _; simp [copy_borrowed, std_copy]
  | succ k ih =>
    intro buf i h
    have hi : i < d.length := by omega
    have e : (d.drop i).take (k + 1) = d[i] :: (d.drop (i + 1)).take k := by
      rw [List.drop_eq_getElem_cons hi, List.take_succ_cons]
    have hr : rd d (i : Int) = d[i] := by
      unfold rd
      rw [if_pos (by omega), Int.toNat_ofNat, List.getD_eq_getElem _ _ hi]
    rw [e]
    simp only [copy_borrowed, std_copy, borrowed_view.read_at, hr]
    have := ih (wr buf (pos + (i : Int)) d[i]) (i + 1) (by omega)
    rw [Nat.cast_add, Nat.cast_one, ← add_assoc] at this
    exact this

theorem copy_borrowed_outside (d : List Nat) (pos : Int) (buf : List Nat) :
    copy_borrowed (borrowed_view.outside d) pos (codeunit_sequence_view.size d).toNat buf 0
      = std_copy d buf pos := by
  have := copy_borrowed_outside_from d pos d.length buf 0 (by omega)
  simp only [Nat.cast_zero, add_zero, List.drop_zero, List.take_length] at this
  simpa [codeunit_sequence_view.size] using this

theorem replace_range_borrowed_outside (s : codeunit_sequence) (r : index_interval)
    (d : codeunit_sequence_view) :
    s.replace_range_borrowed r (borrowed_view.outside d) = s.replace_range r d := by
  unfold replace_range_borrowed replace_range
  simp only [borrowed_view.size, copy_borrowed_outside, std_copy_eq_splice_assign]

theorem replace_equal_loop_borrowed_outside (p d : codeunit_sequence_view)
    (selection : index_interval) :
    ∀ (fuel : Nat) (s : codeunit_sequence) (search_range : index_interval),
      replace_equal_loop_borrowed (borrowed_view.outside p) (borrowed_view.outside d) selection
          fuel s search_range
        = replace_equal_loop p d selection fuel s search_range := by
  intro fuel
  induction fuel with
  | zero => intro s r; rfl
  | succ fuel ih =>
    intro s r
    simp only [replace_equal_loop_borrowed, replace_equal_loop, copy_borrowed_outside,
      borrowed_view.bytes, borrowed_view.size, ih]

theorem replace_shrink_loop_borrowed_outside (p d : codeunit_sequence_view)
    (selection : index_interval) (answer_size : Int) :
    ∀ (fuel : Nat) (s : codeunit_sequence) (i offset found_index : Int),
      replace_shrink_loop_borrowed (borrowed_view.outside p) (borrowed_view.outside d) selection
          answer_size fuel s i offset found_index
        = replace_shrink_loop p d selection answer_size fuel s i offset found_index := by
  intro fuel
  induction fuel with
  | zero => intro s i offset found_index; rfl
  | succ fuel ih =>
    intro s i offset found_index
    simp only [replace_shrink_loop_borrowed, replace_shrink_loop, copy_borrowed_outside,
      borrowed_view.bytes, borrowed_view.size, ih]

theorem replace_backward_loop_borrowed_outside (p d : codeunit_sequence_view)
    (selection : index_interval) :
    ∀ (fuel : Nat) (s : codeunit_sequence) (i offset found_index : Int),
      replace_backward_loop_borrowed (borrowed_view.outside p) (borrowed_view.outside d)
          selection fuel s i offset found_index
        = replace_backward_loop p d selection fuel s i offset found_index := by
  intro fuel
  induction fuel with
  | zero => intro s i offset found_index; rfl
  | succ fuel ih =>
    intro s i offset found_index
    simp only [replace_backward_loop_borrowed, replace_backward_loop, copy_borrowed_outside,
      borrowed_view.bytes, borrowed_view.size, ih]

theorem replace_borrowed_outside (junk : Nat → Nat) (fuel : Nat) (s : codeunit_sequence)
    (p d : codeunit_sequence_view) (r : index_interval) :
    replace_borrowed junk fuel s (borrowed_view.outside p) (borrowed_view.outside d) r
      = replace junk fuel s p d r := by
  unfold replace_borrowed replace
  simp only [replace_equal_loop_borrowed_outside, replace_shrink_loop_borrowed_outside,
    replace_backward_loop_borrowed_outside, borrowed_view.bytes, borrowed_view.size,
    borrowed_view.is_empty]

theorem self_trim_start_loop_borrowed_eq (s : codeunit_sequence) (cs : borrowed_view) :
    ∀ (k : Nat) (i : Int),
      self_trim_start_loop_borrowed s cs k i = self_trim_start_loop s (cs.bytes s.data) k i := by
  intro k
  induction k with
  | zero => intro i; rfl
  | succ k ih => intro i; simp only [self_trim_start_loop_borrowed, self_trim_start_loop, ih]

theorem self_trim_end_loop_borrowed_eq (s : codeunit_sequence) (cs : borrowed_view) :
    ∀ (k : Nat),
      self_trim_end_loop_borrowed s cs k = self_trim_end_loop s (cs.bytes s.data) k := by
  intro k
  induction k with
  | zero => rfl
  | succ k ih => simp only [self_trim_end_loop_borrowed, self_trim_end_loop, ih]

theorem self_trim_start_borrowed_eq (s : codeunit_sequence) (cs : borrowed_view) :
    s.self_trim_start_borrowed cs = s.self_trim_start (cs.bytes s.data) := by
  unfold self_trim_start_borrowed self_trim_start
  simp only [self_trim_start_loop_borrowed_eq]

theorem self_trim_end_borrowed_eq (s : codeunit_sequence) (cs : borrowed_view) :
    s.self_trim_end_borrowed cs = s.self_trim_end (cs.bytes s.data) := by
  unfold self_trim_end_borrowed self_trim_end
  simp only [self_trim_end_loop_borrowed_eq]

theorem self_trim_borrowed_outside (s : codeunit_sequence) (cs : codeunit_sequence_view) :
    s.self_trim_borrowed (borrowed_view.outside cs) = s.self_trim cs := by
  unfold self_trim_borrowed self_trim
  rw [self_trim_end_borrowed_eq, self_trim_start_borrowed_eq]
  rfl

theorem append_fit (junk : Nat → Nat) (s : codeunit_sequence) (count : Int) (b : Nat)
    (hb : b ≠ 0) (h0 : 0 ≤ s.size) (hc : 0 ≤ count) (hcap : s.size + count ≤ s.get_capacity)
    (hlen : (s.data.length : Int) = s.get_capacity + 1) :
    ∃ s', append junk s count b = some s' ∧
      s'.view = s.view ++ List.replicate count.toNat b ∧ s'.size = s.size + count ∧ wf s' ∧
      s'.get_capacity = s.get_capacity ∧ s'.alloc = s.alloc := by
  have e1 : ((count.toNat : Nat) : Int) = count := by omega
  have hr := reserve_noop junk s (s.size + count) hcap
  have he : append junk s count b = append_view junk s (List.replicate count.toNat b) := by
    unfold append append_view codeunit_sequence.memset
    simp only [codeunit_sequence_view.size, List.length_replicate, e1, hr]
    rw [if_pos hb, if_neg (by omega)]
  obtain ⟨s', a1, _, a3, a4, a5, a6, a7, a8⟩ :=
    append_view_fit junk s (List.replicate count.toNat b) h0
      (by rw [List.length_replicate, e1]; exact hcap) hlen
  rw [List.length_replicate, e1] at a4
  refine ⟨s', by rw [he]; exact a1, a3, a4, ⟨by omega, by rw [a4, a6]; exact hcap, ?_, a5⟩, a6, a7⟩
  rw [a8, a6]; exact hlen

end ostr

/-! ## Claims: replace, splice, `subsequence` and trims with any view argument -/

namespace ostr

open codeunit_sequence

/-- C1 (as stated, refuted): `reserve(16)` turns the inline `"ababab"` into a heap
sequence whose byte at index `size` is whatever the allocator handed out; on it
`replace("ab", "a")` leaves `"aaa"` with that byte, not a terminator, at index 3.
And on the null-terminated `"abab"`, with the pattern the view `[0, 2)` of the
sequence itself and the replacement `"x"`, the code leaves `"xa"` followed by `'b'`,
where the reference replace-all of `"ab"` by `"x"` is `"xx"`. -/
theorem C1_replace_shrink_counterexample :
    (reserve junk_cd ex_ababab 16 = some ex_ababab_reserved ∧
      ∃ s', replace_borrowed junk_cd 7 ex_ababab_reserved (borrowed_view.outside [97, 98])
          (borrowed_view.outside [97]) all_range = some s' ∧
        s'.view = [97, 97, 97] ∧ rd s'.data s'.size = 205) ∧
      wf ex_abab ∧ (borrowed_view.inside 0 2).bytes ex_abab.data = [97, 98] ∧
      replace_all_in [97, 98] [120] ex_abab.view
        (all_range.select ex_abab.size).get_inclusive_min
        (all_range.select ex_abab.size).get_exclusive_max = [120, 120] ∧
      ∃ s', replace_borrowed junk_cd 5 ex_abab (borrowed_view.inside 0 2)
          (borrowed_view.outside [120]) all_range = some s' ∧
        s'.view = [120, 97] ∧ rd s'.data s'.size = 98 := by
  decide

/-- C1 (amended): for every null-terminated sequence `s`, non-empty pattern `p` and
shorter replacement `d`, neither of them a view of the buffer of `s`, and range `r`,
`replace(p, d, r)` returns (with fuel above the size) and leaves `s` holding exactly
the reference replace-all of the window `r.select(size)`, with size
`old_size + (len(d) - len(p)) * count` and a terminator at index `size`. -/
theorem C1_replace_shrink (junk : Nat → Nat) (fuel : Nat) (s : codeunit_sequence)
    (p d : codeunit_sequence_view) (r : index_interval) (hs : wf s) (hp : p ≠ [])
    (hpd : d.length < p.length) (hfuel : s.size + 1 ≤ (fuel : Int)) :
    ∃ s', replace_borrowed junk fuel s (borrowed_view.outside p) (borrowed_view.outside d) r
          = some s' ∧
      s'.view = replace_all_in p d s.view (r.select s.size).get_inclusive_min
        (r.select s.size).get_exclusive_max ∧
      s'.size = s.size + ((d.length : Int) - p.length) *
        count_in p s.view (r.select s.size).get_inclusive_min
          (r.select s.size).get_exclusive_max ∧
      rd s'.data s'.size = 0 := by
  rw [replace_borrowed_outside]
  obtain ⟨s', h1, h2, h3, h4, _⟩ := replace_shrink_spec junk fuel s p d r hs hp hpd hfuel
  exact ⟨s', h1, h2, h3, h4⟩

/-- C1 (amended) at `"ababab"` with `"ab" -> "a"`: three adjacent matches, the
reference result is `"aaa"`. -/
theorem C1_replace_shrink_witness :
    wf ex_ababab ∧ ([97, 98] : List Nat) ≠ [] ∧
      ([97] : List Nat).length < ([97, 98] : List Nat).length ∧
      ex_ababab.size + 1 ≤ ((7 : Nat) : Int) ∧
      replace_all_in [97, 98] [97] ex_ababab.view
        (all_range.select ex_ababab.size).get_inclusive_min
        (all_range.select ex_ababab.size).get_exclusive_max = [97, 97, 97] ∧
      ∃ s', replace_borrowed junk_cd 7 ex_ababab (borrowed_view.outside [97, 98])
          (borrowed_view.outside [97]) all_range = some s' ∧
        s'.view = replace_all_in [97, 98] [97] ex_ababab.view
          (all_range.select ex_ababab.size).get_inclusive_min
          (all_range.select ex_ababab.size).get_exclusive_max ∧
        s'.size = ex_ababab.size + ((([97] : List Nat).length : Int) - ([97, 98] : List Nat).length) *
          count_in [97, 98] ex_ababab.view (all_range.select ex_ababab.size).get_inclusive_min
            (all_range.select ex_ababab.size).get_exclusive_max ∧
        rd s'.data s'.size = 0 :=
  ⟨by decide, by decide, by decide, by decide, by decide,
    C1_replace_shrink junk_cd 7 ex_ababab [97, 98] [97] all_range (by decide) (by decide)
      (by decide) (by decide)⟩

/-- C4 (as stated, refuted): on `"abab"`, with the pattern the view `[0, 2)` of the
sequence itself (the bytes `"ab"`) and the replacement `"xy"`, the first round
overwrites the bytes the pattern view spans, the next search looks for `"xy"`, and
the code leaves `"xyab"`, where the reference replace-all of `"ab"` by `"xy"` is
`"xyxy"`. -/
theorem C4_replace_equal_counterexample :
    wf ex_abab ∧ (borrowed_view.inside 0 2).bytes ex_abab.data = [97, 98] ∧
      replace_all_in [97, 98] [120, 121] ex_abab.view
        (all_range.select ex_abab.size).get_inclusive_min
        (all_range.select ex_abab.size).get_exclusive_max = [120, 121, 120, 121] ∧
      ∃ s', replace_borrowed junk_cd 5 ex_abab (borrowed_view.inside 0 2)
          (borrowed_view.outside [120, 121]) all_range = some s' ∧
        s'.view = [120, 121, 97, 98] := by
  decide

/-- C4 (amended): for every sequence `s`, non-empty pattern `p` and replacement `d` of
the same length, neither of them a view of the buffer of `s`, and range `r`,
`replace(p, d, r)` returns (with fuel above the size); the buffer then holds the
reference replace-all of the window followed by the bytes it held from index `size`
on, so exactly the leftmost-first non-overlapping occurrences inside the window are
rewritten; size, capacity and representation are unchanged. -/
theorem C4_replace_equal (junk : Nat → Nat) (fuel : Nat) (s : codeunit_sequence)
    (p d : codeunit_sequence_view) (r : index_interval) (hs : wf s) (hp : p ≠ [])
    (hpd : d.length = p.length) (hfuel : s.size + 1 ≤ (fuel : Int)) :
    ∃ s', replace_borrowed junk fuel s (borrowed_view.outside p) (borrowed_view.outside d) r
          = some s' ∧
      s'.data = replace_all_in p d s.view (r.select s.size).get_inclusive_min
        (r.select s.size).get_exclusive_max ++ s.data.drop s.size.toNat ∧
      s'.view = replace_all_in p d s.view (r.select s.size).get_inclusive_min
        (r.select s.size).get_exclusive_max ∧
      s'.size = s.size ∧ s'.capacity = s.capacity ∧ s'.alloc = s.alloc ∧
      s'.get_capacity = s.get_capacity := by
  rw [replace_borrowed_outside]
  exact replace_equal_content junk fuel s p d r hs hp hpd hfuel

/-- C4 (amended) at `"xyx"` with `"x" -> "y"`: the reference result is `"yyy"`. -/
theorem C4_replace_equal_witness :
    wf ex_xyx ∧ ([120] : List Nat) ≠ [] ∧ ([121] : List Nat).length = ([120] : List Nat).length ∧
      ex_xyx.size + 1 ≤ ((4 : Nat) : Int) ∧
      replace_all_in [120] [121] ex_xyx.view (all_range.select ex_xyx.size).get_inclusive_min
        (all_range.select ex_xyx.size).get_exclusive_max = [121, 121, 121] ∧
      ∃ s', replace_borrowed junk_cd 4 ex_xyx (borrowed_view.outside [120])
          (borrowed_view.outside [121]) all_range = some s' ∧
        s'.data = replace_all_in [120] [121] ex_xyx.view
          (all_range.select ex_xyx.size).get_inclusive_min
          (all_range.select ex_xyx.size).get_exclusive_max ++ ex_xyx.data.drop ex_xyx.size.toNat ∧
        s'.view = replace_all_in [120] [121] ex_xyx.view
          (all_range.select ex_xyx.size).get_inclusive_min
          (all_range.select ex_xyx.size).get_exclusive_max ∧
        s'.size = ex_xyx.size ∧ s'.capacity = ex_xyx.capacity ∧ s'.alloc = ex_xyx.alloc ∧
        s'.get_capacity = ex_xyx.get_capacity :=
  ⟨by decide, by decide, by decide, by decide, by decide,
    C4_replace_equal junk_cd 4 ex_xyx [120] [121] all_range (by decide) (by decide) (by decide)
      (by decide)⟩

/-- C6 (as stated, refuted): on the heap sequence that `reserve(16)` leaves of `"abc"`,
the splice of `"x"` over `[0, 1)` has equal lengths, writes no terminator and leaves
`"xbc"` with the allocator's byte at index 3.  And on the null-terminated `"abcdef"`,
the splice over `[1, 3)` of the view `[0, 2)` of the sequence itself (the bytes
`"ab"`) leaves `"aaadef"`, not `"a" ++ "ab" ++ "def"`: the second byte is read after
the first one was written. -/
theorem C6_replace_range_counterexample :
    (reserve junk_cd ex_abc 16 = some ex_abc_reserved ∧
      (ex_abc_reserved.replace_range_borrowed range_0_1 (borrowed_view.outside [120])).view
        = [120, 98, 99] ∧
      rd (ex_abc_reserved.replace_range_borrowed range_0_1 (borrowed_view.outside [120])).data
          (ex_abc_reserved.replace_range_borrowed range_0_1 (borrowed_view.outside [120])).size
        = 205) ∧
      wf ex_abcdef ∧ (borrowed_view.inside 0 2).bytes ex_abcdef.data = [97, 98] ∧
      slice ex_abcdef.view 0 (range_1_3.select ex_abcdef.size).get_inclusive_min ++ [97, 98] ++
          slice ex_abcdef.view (range_1_3.select ex_abcdef.size).get_exclusive_max ex_abcdef.size
        = [97, 97, 98, 100, 101, 102] ∧
      (ex_abcdef.replace_range_borrowed range_1_3 (borrowed_view.inside 0 2)).view
        = [97, 97, 97, 100, 101, 102] := by
  decide

/-- C6 (amended): for every null-terminated sequence `s` with content `c`, every range
`r` and every destination `d` that is not a view of the buffer of `s`: if the
resolved selection `[min, max)` is non-empty and `len(d) ≤ max - min`, then after
`replace(r, d)` the content is `c[0..min) ++ d ++ c[max..size)`, the size is
`old_size + len(d) - (max - min)`, index `size` holds the terminator and the capacity
is unchanged; if the resolved selection is empty, `s` is unchanged. -/
theorem C6_replace_range (s : codeunit_sequence) (r : index_interval)
    (d : codeunit_sequence_view) (hs : wf s) :
    ((r.select s.size).get_inclusive_min < (r.select s.size).get_exclusive_max →
      (d.length : Int) ≤
        (r.select s.size).get_exclusive_max - (r.select s.size).get_inclusive_min →
      (s.replace_range_borrowed r (borrowed_view.outside d)).view =
          slice s.view 0 (r.select s.size).get_inclusive_min ++ d ++
            slice s.view (r.select s.size).get_exclusive_max s.size ∧
        (s.replace_range_borrowed r (borrowed_view.outside d)).size = s.size + d.length -
          ((r.select s.size).get_exclusive_max - (r.select s.size).get_inclusive_min) ∧
        rd (s.replace_range_borrowed r (borrowed_view.outside d)).data
          (s.replace_range_borrowed r (borrowed_view.outside d)).size = 0 ∧
        (s.replace_range_borrowed r (borrowed_view.outside d)).get_capacity = s.get_capacity ∧
        (s.replace_range_borrowed r (borrowed_view.outside d)).alloc = s.alloc) ∧
      ((r.select s.size).get_exclusive_max ≤ (r.select s.size).get_inclusive_min →
        s.replace_range_borrowed r (borrowed_view.outside d) = s) := by
  rw [replace_range_borrowed_outside]
  constructor
  · intro hne hd
    obtain ⟨h1, h2, h3, h4, h5, _⟩ := replace_range_spec s r d hs hne hd
    exact ⟨h1, h2, h3, h4, h5⟩
  · intro he
    exact replace_range_empty s r d ((is_empty_iff _).mpr he)

/-- C6 (amended) at the 14-byte sequence, the range `[2, 5)` and a one-byte
destination. -/
theorem C6_replace_range_witness :
    wf ex_14 ∧ (ex_14.replace_range_borrowed range_2_5 (borrowed_view.outside [65])).view
        = [48, 49, 65, 53, 54, 55, 56, 57, 97, 98, 99, 100] ∧
      (((range_2_5.select ex_14.size).get_inclusive_min
          < (range_2_5.select ex_14.size).get_exclusive_max →
        (([65] : List Nat).length : Int) ≤
          (range_2_5.select ex_14.size).get_exclusive_max
            - (range_2_5.select ex_14.size).get_inclusive_min →
        (ex_14.replace_range_borrowed range_2_5 (borrowed_view.outside [65])).view =
            slice ex_14.view 0 (range_2_5.select ex_14.size).get_inclusive_min ++ [65] ++
              slice ex_14.view (range_2_5.select ex_14.size).get_exclusive_max ex_14.size ∧
          (ex_14.replace_range_borrowed range_2_5 (borrowed_view.outside [65])).size
            = ex_14.size + ([65] : List Nat).length -
              ((range_2_5.select ex_14.size).get_exclusive_max
                - (range_2_5.select ex_14.size).get_inclusive_min) ∧
          rd (ex_14.replace_range_borrowed range_2_5 (borrowed_view.outside [65])).data
            (ex_14.replace_range_borrowed range_2_5 (borrowed_view.outside [65])).size = 0 ∧
          (ex_14.replace_range_borrowed range_2_5 (borrowed_view.outside [65])).get_capacity
            = ex_14.get_capacity ∧
          (ex_14.replace_range_borrowed range_2_5 (borrowed_view.outside [65])).alloc
            = ex_14.alloc) ∧
        ((range_2_5.select ex_14.size).get_exclusive_max
            ≤ (range_2_5.select ex_14.size).get_inclusive_min →
          ex_14.replace_range_borrowed range_2_5 (borrowed_view.outside [65]) = ex_14)) :=
  ⟨by decide, by decide, C6_replace_range ex_14 range_2_5 [65] (by decide)⟩

/-- C7 (as stated, refuted): on the heap sequence that `reserve(16)` leaves of `"abc"`,
whose byte at index `size` is whatever the allocator handed out, `subsequence` over
the whole range `[0, ~)` returns the sequence as it is, so index `size` does not
hold the terminator afterwards. -/
theorem C7_subsequence_counterexample :
    reserve junk_cd ex_abc 16 = some ex_abc_reserved ∧
      (all_range.select ex_abc_reserved.size).get_inclusive_min = 0 ∧
      (all_range.select ex_abc_reserved.size).get_exclusive_max = ex_abc_reserved.size ∧
      ex_abc_reserved.subsequence all_range = ex_abc_reserved ∧
      (ex_abc_reserved.subsequence all_range).view = [97, 98, 99] ∧
      rd (ex_abc_reserved.subsequence all_range).data (ex_abc_reserved.subsequence all_range).size
        = 205 := by
  decide

/-- C11: the heap sequence `x` of `2^30 - 1` bytes `'a'` with capacity `2^30 - 1` is
built by `codeunit_sequence(2^29 + 1)` followed by `append(2^30 - 1, 'a')` and
satisfies the invariants; the construction `codeunit_sequence(x.view())` calls
`details::get_capacity(2^30)`, which returns `-2^30`, and produces no sequence at
all, so nothing compares equal to `x`. -/
theorem C11_round_trip_fails_at_boundary :
    ∃ s0 x, ctor_i32 junk_cd 536870913 = some s0 ∧
      append junk_cd s0 1073741823 97 = some x ∧
      wf x ∧ x.alloc = true ∧ x.size = 1073741823 ∧ x.get_capacity = 1073741823 ∧
      x.view = List.replicate 1073741823 97 ∧
      details.get_capacity (wrap_i32 (x.size + 1)) = some (-1073741824) ∧
      ctor_view junk_cd x.view = none := by
  obtain ⟨s0, m, h1, hnp, ha, hz, hl, hc, _⟩ :=
    ctor_i32_heap junk_cd 536870913 (by norm_num) (by norm_num)
  have hm : m = 1073741824 := by
    obtain ⟨⟨k, hk⟩, hle, hmin⟩ := hnp
    have h30 : m ≤ 2 ^ 30 := hmin 30 (by norm_num)
    have hk30 : 30 ≤ k := by
      by_contra hlt
      have : (2 : Int) ^ k ≤ 2 ^ 29 := pow_le_pow_right₀ (by norm_num) (by omega)
      rw [← hk] at this
      norm_num at this hle
      omega
    have : (2 : Int) ^ 30 ≤ 2 ^ k := pow_le_pow_right₀ (by norm_num) hk30
    rw [← hk] at this
    norm_num at this h30
    omega
  have hg := get_capacity_heap s0 ha
  obtain ⟨x, a1, a2, a3, a4, a5, a6⟩ := append_fit junk_cd s0 1073741823 97 (by decide)
    (by rw [hz]) (by norm_num) (by rw [hg, hc, hz, hm]; norm_num) (by rw [hg, hl, hc]; ring)
  have hx : x.size = 1073741823 := by rw [a3, hz]; norm_num
  have hv : x.view = List.replicate 1073741823 97 := by
    rw [a2, view_eq, hz]
    rfl
  refine ⟨s0, x, h1, a1, a4, by rw [a6, ha], hx, by rw [a5, hg, hc, hm]; norm_num, hv, ?_, ?_⟩
  · rw [hx]; decide
  · apply ctor_view_none
    rw [length_view x a4, hx]
    rfl

/-- C12 (as stated, refuted): on `" a "`, with the character set the view `[2, 3)` of
the sequence itself (the byte `' '`), `self_trim_end` writes the terminator at
index 2, the set then reads as `"\0"`, `self_trim_start` keeps the leading space,
and the code leaves `" a"`, whose first byte is in the set. -/
theorem C12_self_trim_counterexample :
    wf ex_space_a_space ∧ (borrowed_view.inside 2 1).bytes ex_space_a_space.data = [32] ∧
      (ex_space_a_space.self_trim_end_borrowed (borrowed_view.inside 2 1)).view = [32, 97] ∧
      (borrowed_view.inside 2 1).bytes
        (ex_space_a_space.self_trim_end_borrowed (borrowed_view.inside 2 1)).data = [0] ∧
      (ex_space_a_space.self_trim_borrowed (borrowed_view.inside 2 1)).view = [32, 97] ∧
      (ex_space_a_space.self_trim_borrowed (borrowed_view.inside 2 1)).view.head? = some 32 := by
  decide

/-- C12 (amended): for a sequence `s` with content `c` and a character set `cs` that
is not a view of the buffer of `s`: after `self_trim(cs)` the content `t` satisfies
`c = p ++ t ++ q` with every byte of `p` and of `q` in `cs` and neither the first nor
the last byte of `t` (when `t` has one) in `cs`.  For any character-set view `v`, a
view of the buffer included, with `cs` the bytes it spans on entry: after
`self_trim_start(v)` the content satisfies `c = p ++ t` with every byte of `p` in `cs`
and the first byte of `t` not in `cs`; after `self_trim_end(v)` it satisfies
`c = t ++ q` with every byte of `q` in `cs` and the last byte of `t` not in `cs`.  The
results satisfy the invariants again. -/
theorem C12_self_trim (s : codeunit_sequence) (cs : codeunit_sequence_view)
    (v : borrowed_view) (hs : wf s) :
    (∃ p q, s.view = p ++ (s.self_trim_borrowed (borrowed_view.outside cs)).view ++ q ∧
        (∀ b ∈ p, b ∈ cs) ∧ (∀ b ∈ q, b ∈ cs) ∧
        (∀ b, (s.self_trim_borrowed (borrowed_view.outside cs)).view.head? = some b → b ∉ cs) ∧
        (∀ b, (s.self_trim_borrowed (borrowed_view.outside cs)).view.getLast? = some b →
          b ∉ cs)) ∧
      (∃ p, s.view = p ++ (s.self_trim_start_borrowed v).view ∧
        (∀ b ∈ p, b ∈ v.bytes s.data) ∧
        (∀ b, (s.self_trim_start_borrowed v).view.head? = some b → b ∉ v.bytes s.data)) ∧
      (∃ q, s.view = (s.self_trim_end_borrowed v).view ++ q ∧
        (∀ b ∈ q, b ∈ v.bytes s.data) ∧
        (∀ b, (s.self_trim_end_borrowed v).view.getLast? = some b → b ∉ v.bytes s.data)) ∧
      wf (s.self_trim_borrowed (borrowed_view.outside cs)) ∧
      wf (s.self_trim_start_borrowed v) ∧ wf (s.self_trim_end_borrowed v) := by
  rw [self_trim_borrowed_outside, self_trim_start_borrowed_eq, self_trim_end_borrowed_eq]
  obtain ⟨a1, _, _, a4, _, _⟩ := self_trim_decomp s cs hs
  obtain ⟨_, b2, b3, _, b5, b6⟩ := self_trim_decomp s (v.bytes s.data) hs
  exact ⟨a1, b2, b3, a4, b5, b6⟩

/-- C12 (amended), instance: trimming `" \tHi \t"` by the whitespace set gives `"Hi"`;
the start alone gives `"Hi \t"` and the end alone `" \tHi"`. -/
theorem C12_self_trim_witness :
    wf ex_hi ∧ (ex_hi.self_trim_borrowed (borrowed_view.outside ex_whitespace)).view = [72, 105] ∧
      (ex_hi.self_trim_start_borrowed (borrowed_view.outside ex_whitespace)).view
        = [72, 105, 32, 9] ∧
      (ex_hi.self_trim_end_borrowed (borrowed_view.outside ex_whitespace)).view
        = [32, 9, 72, 105] ∧
      wf (ex_hi.self_trim_borrowed (borrowed_view.outside ex_whitespace)) :=
  ⟨by decide, by decide, by decide, by decide,
    (C12_self_trim ex_hi ex_whitespace (borrowed_view.outside ex_whitespace)
      (by decide)).2.2.2.1⟩

end ostr
